import Mathlib

/-!
# The rkyv container codec

A shallow embedding of `rkyv.go` (package `rkyv`): the archive value `Rkyv`, `AddFile`,
`Filename`, `Flush` and `OpenFile`, and of the `create` command of `cmd/rkyv/main.go`,
together with the library behaviour these functions rely on (`encoding/json`, `time`,
`crypto/sha256`, `net/http.DetectContentType`, `encoding/binary`, the file operations of
`os`).

Conventions.
* A Go `string` or `[]byte` is a list of bytes; a byte is a `Fin 256`.
* A Go slice that `encoding/json` can tell from an empty one when it is `nil` is an
  `Option (List _)`, `none` being `nil`.
* Go `int` and `int64` are `Int`, `uint64` is a `Nat` reduced modulo `2 ^ 64` where the
  program converts.
* Everything the program takes from its surroundings (clock, random source, file store) is
  an explicit argument.
-/

namespace rkyv

/-! ## Bytes and strings -/

/-- A byte. -/
abbrev Byte := Fin 256

/-- Go `string`: an arbitrary byte sequence (not necessarily well-formed UTF-8). -/
abbrev GoString := List Byte

/-- The byte with the given value (reduced modulo 256). -/
def byte (n : Nat) : Byte := Fin.ofNat n

/-- The bytes of an ASCII string literal. -/
def ascii (s : String) : List Byte := s.toList.map fun c => byte c.toNat

/-- Go slice that may be `nil`. -/
abbrev Slice (α : Type) := Option (List α)

/-- The elements of a slice; `nil` has none. -/
def Slice.elems {α : Type} : Slice α → List α
  | none => []
  | some xs => xs

/-- Go `append(s, x)`: the result is never `nil`. -/
def Slice.append {α : Type} (s : Slice α) (x : α) : Slice α := some (s.elems ++ [x])

/-! ## UTF-8 (`unicode/utf8`) -/

/-- Continuation byte `10xxxxxx`. -/
def isCont (b : Byte) : Bool := decide (0x80 ≤ b.val ∧ b.val ≤ 0xBF)

/-- `utf8.DecodeRune` at the head of a byte sequence: the code point and the number of bytes
of its encoding, or `none` where Go reports `(RuneError, 1)` (no well-formed shortest-form
sequence starts here) or the input is empty. -/
def decodeRune : List Byte → Option (Nat × Nat)
  | [] => none
  | b0 :: rest =>
    let x := b0.val
    if x < 0x80 then some (x, 1)
    else if x < 0xC2 then none
    else if x < 0xE0 then
      match rest with
      | b1 :: _ => if isCont b1 then some (x % 32 * 64 + b1.val % 64, 2) else none
      | [] => none
    else if x < 0xF0 then
      match rest with
      | b1 :: b2 :: _ =>
        if (if x = 0xE0 then 0xA0 else 0x80) ≤ b1.val ∧
            b1.val ≤ (if x = 0xED then 0x9F else 0xBF) ∧ isCont b2 then
          some (x % 16 * 4096 + b1.val % 64 * 64 + b2.val % 64, 3)
        else none
      | _ => none
    else if x < 0xF5 then
      match rest with
      | b1 :: b2 :: b3 :: _ =>
        if (if x = 0xF0 then 0x90 else 0x80) ≤ b1.val ∧
            b1.val ≤ (if x = 0xF4 then 0x8F else 0xBF) ∧ isCont b2 ∧ isCont b3 then
          some (x % 8 * 262144 + b1.val % 64 * 4096 + b2.val % 64 * 64 + b3.val % 64, 4)
        else none
      | _ => none
    else none

/-- `utf8.EncodeRune`: surrogates and values above U+10FFFF are written as U+FFFD. -/
def encodeRune (r : Nat) : List Byte :=
  if r < 0x80 then [byte r]
  else if r < 0x800 then [byte (0xC0 + r / 64), byte (0x80 + r % 64)]
  else if 0x10FFFF < r ∨ (0xD800 ≤ r ∧ r ≤ 0xDFFF) then [0xEF, 0xBF, 0xBD]
  else if r < 0x10000 then
    [byte (0xE0 + r / 4096), byte (0x80 + r / 64 % 64), byte (0x80 + r % 64)]
  else
    [byte (0xF0 + r / 262144), byte (0x80 + r / 4096 % 64), byte (0x80 + r / 64 % 64),
      byte (0x80 + r % 64)]

/-- `utf8.Valid`: the byte sequence is well-formed UTF-8. The first argument counts the
continuation bytes of the current character still to be passed over. -/
def validUTF8Aux : Nat → List Byte → Bool
  | _, [] => true
  | k + 1, _ :: rest => validUTF8Aux k rest
  | 0, b :: rest =>
    match decodeRune (b :: rest) with
    | none => false
    | some (_, n) => validUTF8Aux (n - 1) rest

/-- `utf8.Valid`. -/
def validUTF8 (s : List Byte) : Bool := validUTF8Aux 0 s

/-! ## JSON strings (`encoding/json`) -/

/-- Lower-case hexadecimal digit of a value below 16. -/
def hexDigit (n : Nat) : Byte := if n < 10 then byte (0x30 + n) else byte (0x61 + (n - 10))

/-- The encoder's output for one ASCII byte of a string (HTML escaping on, the default of
`json.Marshal`). -/
def escapeByte (b : Byte) : List Byte :=
  if b = 0x22 ∨ b = 0x5C then [0x5C, b]
  else if b = 0x08 then [0x5C, 0x62]
  else if b = 0x0C then [0x5C, 0x66]
  else if b = 0x0A then [0x5C, 0x6E]
  else if b = 0x0D then [0x5C, 0x72]
  else if b = 0x09 then [0x5C, 0x74]
  else if b.val < 0x20 ∨ b = 0x3C ∨ b = 0x3E ∨ b = 0x26 then
    [0x5C, 0x75, 0x30, 0x30, hexDigit (b.val / 16), hexDigit (b.val % 16)]
  else [b]

/-- The encoder's string loop (`appendString`), without the surrounding quotes. The first
argument counts the bytes of the current multi-byte character still to be passed over: they
were written (or replaced) when its first byte was met. -/
def escapeAux : Nat → List Byte → List Byte
  | _, [] => []
  | k + 1, _ :: rest => escapeAux k rest
  | 0, b :: rest =>
    if b.val < 0x80 then escapeByte b ++ escapeAux 0 rest
    else
      match decodeRune (b :: rest) with
      | none => [0x5C, 0x75, 0x66, 0x66, 0x66, 0x64] ++ escapeAux 0 rest
      | some (c, n) =>
        if c = 0x2028 ∨ c = 0x2029 then
          [0x5C, 0x75, 0x32, 0x30, 0x32, hexDigit (c % 16)] ++ escapeAux (n - 1) rest
        else (b :: rest).take n ++ escapeAux (n - 1) rest

/-- The JSON text of a Go string: quoted, escaped, invalid UTF-8 replaced by `�`. -/
def encodeString (s : GoString) : List Byte := 0x22 :: (escapeAux 0 s ++ [0x22])

/-- Value of a hexadecimal digit, either case. -/
def hexVal (b : Byte) : Option Nat :=
  if 0x30 ≤ b.val ∧ b.val ≤ 0x39 then some (b.val - 0x30)
  else if 0x61 ≤ b.val ∧ b.val ≤ 0x66 then some (b.val - 0x61 + 10)
  else if 0x41 ≤ b.val ∧ b.val ≤ 0x46 then some (b.val - 0x41 + 10)
  else none

/-- The decoder's `getu4`: the value of a `\uXXXX` escape at the head of the input. -/
def getu4 : List Byte → Option Nat
  | 0x5C :: 0x75 :: h1 :: h2 :: h3 :: h4 :: _ =>
    match hexVal h1, hexVal h2, hexVal h3, hexVal h4 with
    | some a, some b, some c, some d => some (a * 4096 + b * 256 + c * 16 + d)
    | _, _, _, _ => none
  | _ => none

/-- The decoder's `unquoteBytes` on the text between the quotes of a string literal. The
first argument counts input bytes still to be passed over (the rest of an escape or of a
multi-byte character already handled). `none`: the literal is malformed. -/
def unquoteAux : Nat → List Byte → Option (List Byte)
  | _, [] => some []
  | k + 1, _ :: rest => unquoteAux k rest
  | 0, c :: rest =>
    if c = 0x5C then
      match rest with
      | [] => none
      | e :: _ =>
        if e = 0x22 ∨ e = 0x5C ∨ e = 0x2F ∨ e = 0x27 then (unquoteAux 1 rest).map (e :: ·)
        else if e = 0x62 then (unquoteAux 1 rest).map (0x08 :: ·)
        else if e = 0x66 then (unquoteAux 1 rest).map (0x0C :: ·)
        else if e = 0x6E then (unquoteAux 1 rest).map (0x0A :: ·)
        else if e = 0x72 then (unquoteAux 1 rest).map (0x0D :: ·)
        else if e = 0x74 then (unquoteAux 1 rest).map (0x09 :: ·)
        else if e = 0x75 then
          match getu4 (c :: rest) with
          | none => none
          | some rr =>
            if 0xD800 ≤ rr ∧ rr < 0xE000 then
              match getu4 (rest.drop 5) with
              | some rr1 =>
                if rr < 0xDC00 ∧ 0xDC00 ≤ rr1 ∧ rr1 < 0xE000 then
                  (unquoteAux 11 rest).map
                    (encodeRune ((rr - 0xD800) * 1024 + (rr1 - 0xDC00) + 0x10000) ++ ·)
                else (unquoteAux 5 rest).map (encodeRune 0xFFFD ++ ·)
              | none => (unquoteAux 5 rest).map (encodeRune 0xFFFD ++ ·)
            else (unquoteAux 5 rest).map (encodeRune rr ++ ·)
        else none
    else if c = 0x22 ∨ c.val < 0x20 then none
    else if c.val < 0x80 then (unquoteAux 0 rest).map (c :: ·)
    else
      match decodeRune (c :: rest) with
      | none => (unquoteAux 0 rest).map (encodeRune 0xFFFD ++ ·)
      | some (r, n) => (unquoteAux (n - 1) rest).map (encodeRune r ++ ·)

/-- The Go string denoted by the text between the quotes of a JSON string literal. -/
def unquote (raw : List Byte) : Option GoString := unquoteAux 0 raw

/-! ## JSON syntax (`encoding/json`, the scanner)

`json.Unmarshal` first checks that the whole input is one well-formed JSON text
(`checkValid`) and only then decodes it. The scanner is a byte-at-a-time state machine; here
it delivers the tokens it recognises, and a separate pass builds the value tree. String and
number tokens keep their source text, which is what the decoder later works from. -/

/-- JSON token. -/
inductive Tok
  | lbrace | rbrace | lbrack | rbrack | colon | comma
  | str (raw : List Byte)
  | num (raw : List Byte)
  | tt | ff | null
  deriving DecidableEq, Repr

/-- Scanner states inside a number (`stateNeg`, `state0`, `state1`, `stateDot`, `stateDot0`,
`stateE`, `stateESign`, `stateE0`). -/
inductive NumSt
  | neg | zero | int | dot | frac | e | esign | exp
  deriving DecidableEq, Repr

/-- Scanner state; `acc` holds the bytes of the current token, last byte first. -/
inductive ScanSt
  | top
  | inStr (acc : List Byte)
  | inStrEsc (acc : List Byte)
  | inStrU (k : Nat) (acc : List Byte)
  | inNum (st : NumSt) (acc : List Byte)
  | inLit (tok : Tok) (expect : List Byte)
  deriving DecidableEq, Repr

/-- ASCII decimal digit. -/
def isDigit (c : Byte) : Bool := decide (0x30 ≤ c.val ∧ c.val ≤ 0x39)

/-- The scanner's `isSpace`. -/
def isSpace (c : Byte) : Bool := decide (c = 0x20 ∨ c = 0x09 ∨ c = 0x0D ∨ c = 0x0A)

/-- One more byte of a number, if the byte continues it. -/
def numStep (st : NumSt) (c : Byte) : Option NumSt :=
  match st with
  | .neg => if c = 0x30 then some .zero else if isDigit c then some .int else none
  | .zero =>
    if c = 0x2E then some .dot else if c = 0x65 ∨ c = 0x45 then some .e else none
  | .int =>
    if isDigit c then some .int else if c = 0x2E then some .dot
    else if c = 0x65 ∨ c = 0x45 then some .e else none
  | .dot => if isDigit c then some .frac else none
  | .frac => if isDigit c then some .frac else if c = 0x65 ∨ c = 0x45 then some .e else none
  | .e => if c = 0x2B ∨ c = 0x2D then some .esign else if isDigit c then some .exp else none
  | .esign => if isDigit c then some .exp else none
  | .exp => if isDigit c then some .exp else none

/-- States in which a number may end. -/
def NumSt.accepting : NumSt → Bool
  | .zero | .int | .frac | .exp => true
  | _ => false

/-- The scanner at the start of a token (`stateBeginValue` and the punctuation states). -/
def startTok (c : Byte) : Option (List Tok × ScanSt) :=
  if isSpace c then some ([], .top)
  else if c = 0x7B then some ([.lbrace], .top)
  else if c = 0x7D then some ([.rbrace], .top)
  else if c = 0x5B then some ([.lbrack], .top)
  else if c = 0x5D then some ([.rbrack], .top)
  else if c = 0x3A then some ([.colon], .top)
  else if c = 0x2C then some ([.comma], .top)
  else if c = 0x22 then some ([], .inStr [])
  else if c = 0x2D then some ([], .inNum .neg [c])
  else if c = 0x30 then some ([], .inNum .zero [c])
  else if isDigit c then some ([], .inNum .int [c])
  else if c = 0x74 then some ([], .inLit .tt [0x72, 0x75, 0x65])
  else if c = 0x66 then some ([], .inLit .ff [0x61, 0x6C, 0x73, 0x65])
  else if c = 0x6E then some ([], .inLit .null [0x75, 0x6C, 0x6C])
  else none

/-- One step of the scanner: the tokens completed by this byte and the next state, or `none`
on a syntax error. -/
def scanStep (st : ScanSt) (c : Byte) : Option (List Tok × ScanSt) :=
  match st with
  | .top => startTok c
  | .inStr acc =>
    if c = 0x22 then some ([.str acc.reverse], .top)
    else if c = 0x5C then some ([], .inStrEsc (c :: acc))
    else if c.val < 0x20 then none
    else some ([], .inStr (c :: acc))
  | .inStrEsc acc =>
    if c = 0x62 ∨ c = 0x66 ∨ c = 0x6E ∨ c = 0x72 ∨ c = 0x74 ∨ c = 0x5C ∨ c = 0x2F ∨ c = 0x22 then
      some ([], .inStr (c :: acc))
    else if c = 0x75 then some ([], .inStrU 3 (c :: acc))
    else none
  | .inStrU k acc =>
    match hexVal c with
    | none => none
    | some _ =>
      match k with
      | 0 => some ([], .inStr (c :: acc))
      | k + 1 => some ([], .inStrU k (c :: acc))
  | .inNum ns acc =>
    match numStep ns c with
    | some ns1 => some ([], .inNum ns1 (c :: acc))
    | none =>
      if ns.accepting then
        match startTok c with
        | none => none
        | some (ts, st1) => some (.num acc.reverse :: ts, st1)
      else none
  | .inLit tok expect =>
    match expect with
    | [] => none
    | e :: es =>
      if c = e then (if es = [] then some ([tok], .top) else some ([], .inLit tok es))
      else none

/-- End of input: only between tokens or at the end of a complete number. -/
def scanEnd : ScanSt → Option (List Tok)
  | .top => some []
  | .inNum ns acc => if ns.accepting then some [.num acc.reverse] else none
  | _ => none

/-- Run the scanner over the input. -/
def tokenizeFrom : ScanSt → List Byte → Option (List Tok)
  | st, [] => scanEnd st
  | st, c :: rest =>
    match scanStep st c with
    | none => none
    | some (out, st1) => (tokenizeFrom st1 rest).map (out ++ ·)

/-- The tokens of a JSON text. -/
def tokenize (s : List Byte) : Option (List Tok) := tokenizeFrom .top s

/-- JSON value, strings and numbers as written in the source text. -/
inductive JVal
  | null
  | bool (b : Bool)
  | num (raw : List Byte)
  | str (raw : List Byte)
  | arr (elems : List JVal)
  | obj (members : List (List Byte × JVal))

mutual
/-- One value at the head of the token list; the first argument bounds the recursion. -/
def parseValue : Nat → List Tok → Option (JVal × List Tok)
  | 0, _ => none
  | f + 1, ts =>
    match ts with
    | .null :: t => some (.null, t)
    | .tt :: t => some (.bool true, t)
    | .ff :: t => some (.bool false, t)
    | .num r :: t => some (.num r, t)
    | .str r :: t => some (.str r, t)
    | .lbrack :: .rbrack :: t => some (.arr [], t)
    | .lbrack :: t => (parseElems f t).map fun p => (.arr p.1, p.2)
    | .lbrace :: .rbrace :: t => some (.obj [], t)
    | .lbrace :: t => (parseMembers f t).map fun p => (.obj p.1, p.2)
    | _ => none
/-- The elements of a non-empty array up to and including the closing bracket. -/
def parseElems : Nat → List Tok → Option (List JVal × List Tok)
  | 0, _ => none
  | f + 1, ts =>
    match parseValue f ts with
    | some (v, .comma :: t) => (parseElems f t).map fun p => (v :: p.1, p.2)
    | some (v, .rbrack :: t) => some ([v], t)
    | _ => none
/-- The members of a non-empty object up to and including the closing brace. -/
def parseMembers : Nat → List Tok → Option (List (List Byte × JVal) × List Tok)
  | 0, _ => none
  | f + 1, ts =>
    match ts with
    | .str k :: .colon :: t =>
      match parseValue f t with
      | some (v, .comma :: t1) => (parseMembers f t1).map fun p => ((k, v) :: p.1, p.2)
      | some (v, .rbrace :: t1) => some ([(k, v)], t1)
      | _ => none
    | _ => none
end

mutual
/-- Nesting depth of arrays and objects. -/
def JVal.depth : JVal → Nat
  | .arr xs => depthElems xs + 1
  | .obj ms => depthMembers ms + 1
  | _ => 0
/-- Largest depth among array elements. -/
def depthElems : List JVal → Nat
  | [] => 0
  | x :: xs => max x.depth (depthElems xs)
/-- Largest depth among object members. -/
def depthMembers : List (List Byte × JVal) → Nat
  | [] => 0
  | (_, x) :: ms => max x.depth (depthMembers ms)
end

/-- The scanner's `maxNestingDepth`. -/
def maxNestingDepth : Nat := 10000

/-- The value a well-formed JSON text denotes: exactly one value, optionally surrounded by
white space, nested no deeper than `maxNestingDepth`; `none` is a syntax error. -/
def parseJSON (s : List Byte) : Option JVal :=
  match tokenize s with
  | none => none
  | some ts =>
    match parseValue (ts.length + 1) ts with
    | some (v, []) => if v.depth ≤ maxNestingDepth then some v else none
    | _ => none

/-! ## Integers (`strconv`) -/

/-- Decimal digits of `n`, least significant first; the first argument bounds the recursion
(any bound above the number of digits will do). -/
def leDigits : Nat → Nat → List Byte
  | 0, _ => []
  | f + 1, n => byte (0x30 + n % 10) :: (if n < 10 then [] else leDigits f (n / 10))

/-- `strconv.AppendUint(nil, n, 10)`. -/
def formatNat (n : Nat) : List Byte := (leDigits (n + 1) n).reverse

/-- `strconv.AppendInt(nil, n, 10)`. -/
def formatInt (n : Int) : List Byte :=
  if n < 0 then 0x2D :: formatNat n.natAbs else formatNat n.natAbs

/-- The number a non-empty run of decimal digits denotes. -/
def parseNat (ds : List Byte) : Option Nat :=
  if ds ≠ [] ∧ ds.all isDigit then some (ds.foldl (fun a d => a * 10 + (d.val - 0x30)) 0)
  else none

/-- `strconv.ParseInt(s, 10, 64)` on a JSON number literal: the literal has to be an integer
in the range of `int64` (a fraction or an exponent is refused). -/
def parseInt64 (raw : List Byte) : Option Int :=
  match raw with
  | 0x2D :: ds =>
    match parseNat ds with
    | some n => if n ≤ 2 ^ 63 then some (-(n : Int)) else none
    | none => none
  | ds =>
    match parseNat ds with
    | some n => if n < 2 ^ 63 then some (n : Int) else none
    | none => none

/-- `strconv.ParseUint(s, 10, 64)` followed by the overflow check for `uint8`. -/
def parseUint8 (raw : List Byte) : Option Byte :=
  match parseNat raw with
  | some n => if n < 256 then some (byte n) else none
  | none => none

/-! ## Base64 (`encoding/base64`, `StdEncoding`) -/

/-- The character for a 6-bit value in the standard alphabet. -/
def b64Char (v : Nat) : Byte :=
  if v < 26 then byte (0x41 + v)
  else if v < 52 then byte (0x61 + (v - 26))
  else if v < 62 then byte (0x30 + (v - 52))
  else if v = 62 then 0x2B
  else 0x2F

/-- The 6-bit value of a character of the standard alphabet. -/
def b64Val (c : Byte) : Option Nat :=
  if 0x41 ≤ c.val ∧ c.val ≤ 0x5A then some (c.val - 0x41)
  else if 0x61 ≤ c.val ∧ c.val ≤ 0x7A then some (c.val - 0x61 + 26)
  else if 0x30 ≤ c.val ∧ c.val ≤ 0x39 then some (c.val - 0x30 + 52)
  else if c = 0x2B then some 62
  else if c = 0x2F then some 63
  else none

/-- `base64.StdEncoding.EncodeToString`. -/
def base64Encode : List Byte → List Byte
  | a :: b :: c :: rest =>
    b64Char (a.val / 4) :: b64Char (a.val % 4 * 16 + b.val / 16) ::
      b64Char (b.val % 16 * 4 + c.val / 64) :: b64Char (c.val % 64) :: base64Encode rest
  | [a, b] =>
    [b64Char (a.val / 4), b64Char (a.val % 4 * 16 + b.val / 16), b64Char (b.val % 16 * 4), 0x3D]
  | [a] => [b64Char (a.val / 4), b64Char (a.val % 4 * 16), 0x3D, 0x3D]
  | [] => []

/-- Decoding of input from which line breaks have been removed: quanta of four characters,
the last one possibly padded with one or two `=`. Bits beyond the last whole byte are ignored
(the encoding is not in strict mode). -/
def base64Quanta : List Byte → Option (List Byte)
  | [] => some []
  | a :: b :: c :: d :: rest =>
    match b64Val a, b64Val b, b64Val c, b64Val d with
    | some va, some vb, some vc, some vd =>
      (base64Quanta rest).map fun t =>
        byte (va * 4 + vb / 16) :: byte (vb % 16 * 16 + vc / 4) :: byte (vc % 4 * 64 + vd) :: t
    | some va, some vb, some vc, none =>
      if d = 0x3D ∧ rest = [] then some [byte (va * 4 + vb / 16), byte (vb % 16 * 16 + vc / 4)]
      else none
    | some va, some vb, none, none =>
      if c = 0x3D ∧ d = 0x3D ∧ rest = [] then some [byte (va * 4 + vb / 16)] else none
    | _, _, _, _ => none
  | _ => none

/-- `base64.StdEncoding.Decode`: carriage returns and line feeds in the input are ignored. -/
def base64Decode (s : List Byte) : Option (List Byte) :=
  base64Quanta (s.filter fun c => !(c = 0x0D ∨ c = 0x0A))

/-! ## Time (`time`)

A `time.Time` is an instant together with a location. It is represented here by what the
instant reads on the calendar and clock of its location, and by the location's offset from
UTC at that instant in minutes (every zone in use has a whole number of minutes). The
monotonic clock reading a `time.Time` may carry plays no part in formatting, parsing or
`Equal` and is left out. `Loc.utc` is the `nil`/UTC location of the zero `Time` and of times
parsed with a `Z`; `Loc.zone` stands for `time.Local` and for fixed zones. -/

/-- Location of a time. -/
inductive Loc
  | utc
  | zone (offsetMin : Int)
  deriving DecidableEq, Repr

/-- Go `time.Time`. -/
structure Time where
  year : Int
  month : Nat
  day : Nat
  hour : Nat
  minute : Nat
  second : Nat
  nano : Nat
  loc : Loc
  deriving DecidableEq, Repr

/-- The zero value `time.Time{}`: January 1, year 1, 00:00:00 UTC. -/
def Time.zero : Time := ⟨1, 1, 1, 0, 0, 0, 0, .utc⟩

/-- Offset from UTC in minutes. -/
def Time.offsetMin (t : Time) : Int :=
  match t.loc with
  | .utc => 0
  | .zone m => m

/-- Leap year of the proleptic Gregorian calendar. -/
def isLeap (y : Int) : Bool := decide (y % 4 = 0 ∧ (y % 100 ≠ 0 ∨ y % 400 = 0))

/-- The `daysIn` of package time. -/
def daysIn (month : Nat) (year : Int) : Nat :=
  if month = 2 then (if isLeap year then 29 else 28)
  else if month = 4 ∨ month = 6 ∨ month = 9 ∨ month = 11 then 30
  else 31

/-- Days from 1970-01-01 to the given civil date. -/
def daysFromCivil (y : Int) (m d : Nat) : Int :=
  let y1 : Int := if m ≤ 2 then y - 1 else y
  let era : Int := y1 / 400
  let yoe : Int := y1 - era * 400
  let mp : Int := ((m + 9) % 12 : Nat)
  let doy : Int := (153 * mp + 2) / 5 + d - 1
  let doe : Int := yoe * 365 + yoe / 4 - yoe / 100 + doy
  era * 146097 + doe - 719468

/-- `Time.UnixNano` without its overflow: nanoseconds from 1970-01-01T00:00:00Z to the
instant. -/
def Time.unixNano (t : Time) : Int :=
  (daysFromCivil t.year t.month t.day * 86400 + t.hour * 3600 + t.minute * 60 + t.second
    - t.offsetMin * 60) * 1000000000 + t.nano

/-- `Time.Equal`: the same instant, whatever the locations. -/
def Time.Equal (t u : Time) : Prop := t.unixNano = u.unixNano

instance (t u : Time) : Decidable (t.Equal u) := by unfold Time.Equal; exact inferInstance

/-- `n` written with at least `w` decimal digits, zero-padded on the left. -/
def padNat (w n : Nat) : List Byte :=
  let ds := formatNat n
  List.replicate (w - ds.length) 0x30 ++ ds

/-- Remove trailing `0` digits. -/
def trimZeros (ds : List Byte) : List Byte := (ds.reverse.dropWhile (· = 0x30)).reverse

/-- The fraction of a second in the layout `.999999999`: nothing when it is zero, else a
period and the nine digits without trailing zeros. -/
def formatFrac (nano : Nat) : List Byte :=
  if nano = 0 then [] else 0x2E :: trimZeros (padNat 9 nano)

/-- The zone in the layout `Z07:00`. -/
def formatZone (off : Int) : List Byte :=
  if off = 0 then [0x5A]
  else (if off < 0 then 0x2D else 0x2B) ::
    (padNat 2 (off.natAbs / 60) ++ 0x3A :: padNat 2 (off.natAbs % 60))

/-- The text `Time.MarshalJSON` puts between the quotes: the time in the layout
`2006-01-02T15:04:05.999999999Z07:00`; an error (`none`) when the year is outside `[0,9999]`
or the zone hour outside `[0,23]`. -/
def Time.formatRFC3339 (t : Time) : Option (List Byte) :=
  if t.year < 0 ∨ 9999 < t.year then none
  else if 24 * 60 ≤ t.offsetMin.natAbs then none
  else some (padNat 4 t.year.toNat ++ 0x2D :: padNat 2 t.month ++ 0x2D :: padNat 2 t.day
    ++ 0x54 :: padNat 2 t.hour ++ 0x3A :: padNat 2 t.minute ++ 0x3A :: padNat 2 t.second
    ++ formatFrac t.nano ++ formatZone t.offsetMin)

/-- The value of a run of decimal digits (callers make sure they are digits). -/
def digitsVal (ds : List Byte) : Nat := ds.foldl (fun a d => a * 10 + (d.val - 0x30)) 0

/-- Exactly `w` digits at the head of the input: their value and the rest. -/
def takeDigits (w : Nat) (s : List Byte) : Option (Nat × List Byte) :=
  if w ≤ s.length ∧ (s.take w).all isDigit then some (digitsVal (s.take w), s.drop w) else none

/-- The `getnum(s, false)` of package time: one or two digits. -/
def takeNum12 (s : List Byte) : Option (Nat × List Byte) :=
  match s with
  | a :: b :: rest =>
    if isDigit a then
      (if isDigit b then some (digitsVal [a, b], rest) else some (digitsVal [a], b :: rest))
    else none
  | [a] => if isDigit a then some (digitsVal [a], []) else none
  | [] => none

/-- A fraction of a second after the seconds, if one is written: a period or a comma and
digits, of which the first nine count. Gives the nanoseconds and the rest of the input. -/
def takeFrac (s : List Byte) : Nat × List Byte :=
  match s with
  | p :: d :: rest =>
    if (p = 0x2E ∨ p = 0x2C) ∧ isDigit d then
      let ds := d :: rest.takeWhile isDigit
      let used := ds.take 9
      (digitsVal used * 10 ^ (9 - used.length), rest.dropWhile isDigit)
    else (0, s)
  | _ => (0, s)

/-- The zone of the layout `Z07:00`, which must end the input. -/
def parseZone (s : List Byte) : Option Loc :=
  match s with
  | [0x5A] => some .utc
  | [sg, h1, h2, c, m1, m2] =>
    if c = 0x3A ∧ isDigit h1 ∧ isDigit h2 ∧ isDigit m1 ∧ isDigit m2 ∧
        digitsVal [h1, h2] ≤ 24 ∧ digitsVal [m1, m2] ≤ 60 then
      (if sg = 0x2B then some (.zone ((digitsVal [h1, h2] * 60 + digitsVal [m1, m2] : Nat) : Int))
       else if sg = 0x2D then
        some (.zone (-((digitsVal [h1, h2] * 60 + digitsVal [m1, m2] : Nat) : Int)))
       else none)
    else none
  | _ => none

/-- Expect one given byte. -/
def expectByte (c : Byte) (s : List Byte) : Option (List Byte) :=
  match s with
  | x :: rest => if x = c then some rest else none
  | [] => none

/-- A number of exactly `w` digits followed by the byte `sep`. -/
def takeField (w : Nat) (sep : Byte) (s : List Byte) : Option (Nat × List Byte) :=
  (takeDigits w s).bind fun p => (expectByte sep p.2).map fun r => (p.1, r)

/-- The date `2006-01-02T` at the head of the input. -/
def parseDate (s : List Byte) : Option ((Nat × Nat × Nat) × List Byte) :=
  (takeField 4 0x2D s).bind fun y =>
  (takeField 2 0x2D y.2).bind fun m =>
  (takeField 2 0x54 m.2).map fun d => ((y.1, m.1, d.1), d.2)

/-- The clock `15:04:05` at the head of the input, the hour with one or two digits. -/
def parseClock (s : List Byte) : Option ((Nat × Nat × Nat) × List Byte) :=
  (takeNum12 s).bind fun h =>
  (expectByte 0x3A h.2).bind fun s1 =>
  (takeField 2 0x3A s1).bind fun m =>
  (takeDigits 2 m.2).map fun sec => ((h.1, m.1, sec.1), sec.2)

/-- `time.Parse(time.RFC3339, s)`, which is what `Time.UnmarshalJSON` accepts between the
quotes: `2006-01-02T15:04:05Z07:00`, the hour with one or two digits, an optional fraction
of a second, month, day, hour, minute and second in range. -/
def parseTime (s : List Byte) : Option Time :=
  (parseDate s).bind fun d =>
  (parseClock d.2).bind fun c =>
  (parseZone (takeFrac c.2).2).bind fun loc =>
    if 1 ≤ d.1.2.1 ∧ d.1.2.1 ≤ 12 ∧ 1 ≤ d.1.2.2 ∧ d.1.2.2 ≤ daysIn d.1.2.1 d.1.1 ∧
        c.1.1 < 24 ∧ c.1.2.1 < 60 ∧ c.1.2.2 < 60 then
      some ⟨d.1.1, d.1.2.1, d.1.2.2, c.1.1, c.1.2.1, c.1.2.2, (takeFrac c.2).1, loc⟩
    else none

/-! ## SHA-256 (`crypto/sha256`) -/

/-- The round constants. -/
def sha256K : List Nat := [
  0x428a2f98, 0x71374491, 0xb5c0fbcf, 0xe9b5dba5, 0x3956c25b, 0x59f111f1,
  0x923f82a4, 0xab1c5ed5, 0xd807aa98, 0x12835b01, 0x243185be, 0x550c7dc3,
  0x72be5d74, 0x80deb1fe, 0x9bdc06a7, 0xc19bf174, 0xe49b69c1, 0xefbe4786,
  0x0fc19dc6, 0x240ca1cc, 0x2de92c6f, 0x4a7484aa, 0x5cb0a9dc, 0x76f988da,
  0x983e5152, 0xa831c66d, 0xb00327c8, 0xbf597fc7, 0xc6e00bf3, 0xd5a79147,
  0x06ca6351, 0x14292967, 0x27b70a85, 0x2e1b2138, 0x4d2c6dfc, 0x53380d13,
  0x650a7354, 0x766a0abb, 0x81c2c92e, 0x92722c85, 0xa2bfe8a1, 0xa81a664b,
  0xc24b8b70, 0xc76c51a3, 0xd192e819, 0xd6990624, 0xf40e3585, 0x106aa070,
  0x19a4c116, 0x1e376c08, 0x2748774c, 0x34b0bcb5, 0x391c0cb3, 0x4ed8aa4a,
  0x5b9cca4f, 0x682e6ff3, 0x748f82ee, 0x78a5636f, 0x84c87814, 0x8cc70208,
  0x90befffa, 0xa4506ceb, 0xbef9a3f7, 0xc67178f2]

/-- Rotate a 32-bit word right. -/
def rotr32 (x n : Nat) : Nat := (x >>> n ||| x <<< (32 - n)) % 2 ^ 32

/-- Big-endian 32-bit word at the head of a byte sequence (missing bytes read as zero). -/
def be32 (bs : List Byte) : Nat :=
  (bs.getD 0 0).val * 2 ^ 24 + (bs.getD 1 0).val * 2 ^ 16 + (bs.getD 2 0).val * 2 ^ 8 +
    (bs.getD 3 0).val

/-- The four bytes of a 32-bit word, most significant first. -/
def be32Bytes (w : Nat) : List Byte :=
  [byte (w / 2 ^ 24), byte (w / 2 ^ 16), byte (w / 2 ^ 8), byte w]

/-- The chaining value: eight 32-bit words. -/
structure ShaState where
  a : Nat
  b : Nat
  c : Nat
  d : Nat
  e : Nat
  f : Nat
  g : Nat
  h : Nat

/-- Initial chaining value. -/
def shaInit : ShaState :=
  ⟨0x6a09e667, 0xbb67ae85, 0x3c6ef372, 0xa54ff53a, 0x510e527f, 0x9b05688c, 0x1f83d9ab,
    0x5be0cd19⟩

/-- The 64 words of the message schedule of one block. -/
def shaSchedule (block : List Byte) : List Nat :=
  (List.range 48).foldl
    (fun w _ =>
      let n := w.length
      let x := w.getD (n - 15) 0
      let y := w.getD (n - 2) 0
      let s0 := rotr32 x 7 ^^^ rotr32 x 18 ^^^ (x >>> 3)
      let s1 := rotr32 y 17 ^^^ rotr32 y 19 ^^^ (y >>> 10)
      w ++ [(s1 + w.getD (n - 7) 0 + s0 + w.getD (n - 16) 0) % 2 ^ 32])
    ((List.range 16).map fun i => be32 (block.drop (4 * i)))

/-- One round, with its constant and schedule word. -/
def shaRound (s : ShaState) (kw : Nat × Nat) : ShaState :=
  let s1 := rotr32 s.e 6 ^^^ rotr32 s.e 11 ^^^ rotr32 s.e 25
  let ch := (s.e &&& s.f) ^^^ ((s.e ^^^ (2 ^ 32 - 1)) &&& s.g)
  let t1 := (s.h + s1 + ch + kw.1 + kw.2) % 2 ^ 32
  let s0 := rotr32 s.a 2 ^^^ rotr32 s.a 13 ^^^ rotr32 s.a 22
  let maj := (s.a &&& s.b) ^^^ (s.a &&& s.c) ^^^ (s.b &&& s.c)
  let t2 := (s0 + maj) % 2 ^ 32
  ⟨(t1 + t2) % 2 ^ 32, s.a, s.b, s.c, (s.d + t1) % 2 ^ 32, s.e, s.f, s.g⟩

/-- The compression function on one 64-byte block. -/
def shaCompress (s : ShaState) (block : List Byte) : ShaState :=
  let t := (sha256K.zip (shaSchedule block)).foldl shaRound s
  ⟨(s.a + t.a) % 2 ^ 32, (s.b + t.b) % 2 ^ 32, (s.c + t.c) % 2 ^ 32, (s.d + t.d) % 2 ^ 32,
    (s.e + t.e) % 2 ^ 32, (s.f + t.f) % 2 ^ 32, (s.g + t.g) % 2 ^ 32, (s.h + t.h) % 2 ^ 32⟩

/-- The message with its padding: a `0x80` byte, zeros, and the bit length as a big-endian
64-bit integer, to a multiple of 64 bytes. -/
def shaPad (msg : List Byte) : List Byte :=
  msg ++ 0x80 :: (List.replicate ((64 - (msg.length + 9) % 64) % 64) 0 ++
    (be32Bytes (msg.length * 8 / 2 ^ 32 % 2 ^ 32) ++ be32Bytes (msg.length * 8 % 2 ^ 32)))

/-- Compress the first `n` blocks of the input. -/
def shaBlocks : Nat → ShaState → List Byte → ShaState
  | 0, s, _ => s
  | n + 1, s, bs => shaBlocks n (shaCompress s (bs.take 64)) (bs.drop 64)

/-- The `sha256.New()`, `Write(data)`, `Sum(nil)` sequence: the SHA-256 digest of `data`. -/
def sha256 (data : List Byte) : List Byte :=
  let p := shaPad data
  let s := shaBlocks (p.length / 64) shaInit p
  be32Bytes s.a ++ be32Bytes s.b ++ be32Bytes s.c ++ be32Bytes s.d ++ be32Bytes s.e ++
    be32Bytes s.f ++ be32Bytes s.g ++ be32Bytes s.h

/-! ## Content sniffing (`net/http.DetectContentType`) -/

/-- A signature of the sniffing table. -/
inductive sniffSig
  | html (tag : List Byte)
  | masked (mask pat : List Byte) (skipWS : Bool) (ct : GoString)
  | exact (sig : List Byte) (ct : GoString)
  | mp4
  | text

/-- White-space byte of the sniffing algorithm. -/
def isWS (b : Byte) : Bool := decide (b = 0x09 ∨ b = 0x0A ∨ b = 0x0C ∨ b = 0x0D ∨ b = 0x20)

/-- Tag-terminating byte: a space or `>`. -/
def isTT (b : Byte) : Bool := decide (b = 0x20 ∨ b = 0x3E)

/-- The comparison loop of `htmlSig.match`: the data byte is upper-cased where the tag has an
upper-case letter. -/
def htmlTagMatches : List Byte → List Byte → Bool
  | [], _ => true
  | _ :: _, [] => false
  | b :: tag, db :: data =>
    (if 0x41 ≤ b.val ∧ b.val ≤ 0x5A then decide (b.val = db.val &&& 0xDF) else decide (b = db))
      && htmlTagMatches tag data

/-- The comparison loop of `maskedSig.match`. -/
def maskedMatches : List Byte → List Byte → List Byte → Bool
  | [], _, _ => true
  | pb :: pat, m :: mask, db :: data =>
    decide (db.val &&& m.val = pb.val) && maskedMatches pat mask data
  | _ :: _, _, _ => false

/-- The `match` method of a signature on the sniffed data, given the data from its first
byte that is not white space; `none` is Go's empty string. -/
def sniffSig.matches (sig : sniffSig) (data trimmed : List Byte) : Option GoString :=
  match sig with
  | .html tag =>
    if trimmed.length < tag.length + 1 then none
    else if htmlTagMatches tag trimmed ∧ isTT (trimmed.getD tag.length 0) then
      some (ascii "text/html; charset=utf-8")
    else none
  | .masked mask pat skipWS ct =>
    let d := if skipWS then trimmed else data
    if pat.length ≠ mask.length then none
    else if d.length < pat.length then none
    else if maskedMatches pat mask d then some ct
    else none
  | .exact sig ct => if sig.isPrefixOf data then some ct else none
  | .mp4 =>
    if data.length < 12 then none
    else
      let boxSize := be32 data
      if data.length < boxSize ∨ boxSize % 4 ≠ 0 then none
      else if (data.drop 4).take 4 ≠ ascii "ftyp" then none
      else if (List.range (boxSize / 4)).any fun i =>
          decide (2 ≤ i ∧ i ≠ 3) && decide (((data.drop (4 * i)).take 3) = ascii "mp4") then
        some (ascii "video/mp4")
      else none
  | .text =>
    if trimmed.any fun b =>
        decide (b.val ≤ 0x08 ∨ b = 0x0B ∨ (0x0E ≤ b.val ∧ b.val ≤ 0x1A) ∨
          (0x1C ≤ b.val ∧ b.val ≤ 0x1F)) then none
    else some (ascii "text/plain; charset=utf-8")

/-- The table `sniffSignatures`, in order. -/
def sniffSignatures : List sniffSig := [
  .html (ascii "<!DOCTYPE HTML"), .html (ascii "<HTML"), .html (ascii "<HEAD"),
  .html (ascii "<SCRIPT"), .html (ascii "<IFRAME"), .html (ascii "<H1"), .html (ascii "<DIV"),
  .html (ascii "<FONT"), .html (ascii "<TABLE"), .html (ascii "<A"), .html (ascii "<STYLE"),
  .html (ascii "<TITLE"), .html (ascii "<B"), .html (ascii "<BODY"), .html (ascii "<BR"),
  .html (ascii "<P"), .html (ascii "<!--"),
  .masked [0xFF, 0xFF, 0xFF, 0xFF, 0xFF] (ascii "<?xml") true (ascii "text/xml; charset=utf-8"),
  .exact (ascii "%PDF-") (ascii "application/pdf"),
  .exact (ascii "%!PS-Adobe-") (ascii "application/postscript"),
  .masked [0xFF, 0xFF, 0x00, 0x00] [0xFE, 0xFF, 0x00, 0x00] false
    (ascii "text/plain; charset=utf-16be"),
  .masked [0xFF, 0xFF, 0x00, 0x00] [0xFF, 0xFE, 0x00, 0x00] false
    (ascii "text/plain; charset=utf-16le"),
  .masked [0xFF, 0xFF, 0xFF, 0x00] [0xEF, 0xBB, 0xBF, 0x00] false
    (ascii "text/plain; charset=utf-8"),
  .exact [0x00, 0x00, 0x01, 0x00] (ascii "image/x-icon"),
  .exact [0x00, 0x00, 0x02, 0x00] (ascii "image/x-icon"),
  .exact (ascii "BM") (ascii "image/bmp"),
  .exact (ascii "GIF87a") (ascii "image/gif"),
  .exact (ascii "GIF89a") (ascii "image/gif"),
  .masked [0xFF, 0xFF, 0xFF, 0xFF, 0x00, 0x00, 0x00, 0x00, 0xFF, 0xFF, 0xFF, 0xFF, 0xFF, 0xFF]
    (ascii "RIFF" ++ [0, 0, 0, 0] ++ ascii "WEBPVP") false (ascii "image/webp"),
  .exact [0x89, 0x50, 0x4E, 0x47, 0x0D, 0x0A, 0x1A, 0x0A] (ascii "image/png"),
  .exact [0xFF, 0xD8, 0xFF] (ascii "image/jpeg"),
  .masked [0xFF, 0xFF, 0xFF, 0xFF, 0x00, 0x00, 0x00, 0x00, 0xFF, 0xFF, 0xFF, 0xFF]
    (ascii "FORM" ++ [0, 0, 0, 0] ++ ascii "AIFF") false (ascii "audio/aiff"),
  .masked [0xFF, 0xFF, 0xFF] (ascii "ID3") false (ascii "audio/mpeg"),
  .masked [0xFF, 0xFF, 0xFF, 0xFF, 0xFF] (ascii "OggS" ++ [0]) false (ascii "application/ogg"),
  .masked [0xFF, 0xFF, 0xFF, 0xFF, 0xFF, 0xFF, 0xFF, 0xFF] (ascii "MThd" ++ [0, 0, 0, 6]) false
    (ascii "audio/midi"),
  .masked [0xFF, 0xFF, 0xFF, 0xFF, 0x00, 0x00, 0x00, 0x00, 0xFF, 0xFF, 0xFF, 0xFF]
    (ascii "RIFF" ++ [0, 0, 0, 0] ++ ascii "AVI ") false (ascii "video/avi"),
  .masked [0xFF, 0xFF, 0xFF, 0xFF, 0x00, 0x00, 0x00, 0x00, 0xFF, 0xFF, 0xFF, 0xFF]
    (ascii "RIFF" ++ [0, 0, 0, 0] ++ ascii "WAVE") false (ascii "audio/wave"),
  .mp4,
  .exact [0x1A, 0x45, 0xDF, 0xA3] (ascii "video/webm"),
  .masked (List.replicate 34 0x00 ++ [0xFF, 0xFF]) (List.replicate 34 0x00 ++ ascii "LP") false
    (ascii "application/vnd.ms-fontobject"),
  .exact [0x00, 0x01, 0x00, 0x00] (ascii "font/ttf"),
  .exact (ascii "OTTO") (ascii "font/otf"),
  .exact (ascii "ttcf") (ascii "font/collection"),
  .exact (ascii "wOFF") (ascii "font/woff"),
  .exact (ascii "wOF2") (ascii "font/woff2"),
  .exact [0x1F, 0x8B, 0x08] (ascii "application/x-gzip"),
  .exact (ascii "PK" ++ [0x03, 0x04]) (ascii "application/zip"),
  .exact (ascii "Rar!" ++ [0x1A, 0x07, 0x00]) (ascii "application/x-rar-compressed"),
  .exact (ascii "Rar!" ++ [0x1A, 0x07, 0x01, 0x00]) (ascii "application/x-rar-compressed"),
  .exact [0x00, 0x61, 0x73, 0x6D] (ascii "application/wasm"),
  .text]

/-- `http.DetectContentType`: the content type of the first signature that matches the first
512 bytes, `application/octet-stream` when none does. -/
def DetectContentType (data : List Byte) : GoString :=
  let d := data.take 512
  let trimmed := d.dropWhile isWS
  (sniffSignatures.findSome? fun sig => sig.matches d trimmed).getD
    (ascii "application/octet-stream")

/-! ## UUIDs (`github.com/satori/go.uuid`) -/

/-- `uuid.NewV4()`: sixteen bytes from the random source (`random` is what the source
delivers, read as zeros past its end), with the version set to 4 and the variant to
RFC 4122. -/
def NewV4 (random : List Byte) : List Byte :=
  (List.range 16).map fun i =>
    let b := random.getD i 0
    if i = 6 then byte (b.val % 16 + 0x40)
    else if i = 8 then byte (b.val % 64 + 0x80)
    else b

/-- Two lower-case hexadecimal digits per byte. -/
def hexBytes (bs : List Byte) : List Byte :=
  bs.flatMap fun b => [hexDigit (b.val / 16), hexDigit (b.val % 16)]

/-- `UUID.String()`: the canonical form `xxxxxxxx-xxxx-xxxx-xxxx-xxxxxxxxxxxx`. -/
def uuidString (u : List Byte) : GoString :=
  hexBytes (u.take 4) ++ 0x2D :: hexBytes ((u.drop 4).take 2) ++ 0x2D ::
    hexBytes ((u.drop 6).take 2) ++ 0x2D :: hexBytes ((u.drop 8).take 2) ++ 0x2D ::
    hexBytes ((u.drop 10).take 6)

/-! ## The archive (`rkyv.go`, lines 16 to 37) -/

/-- `MAGIC`, the identifier of an .rkyv file. -/
def MAGIC : List Byte := ascii "RKYV"

/-- The entry type `rkyvFile`. `data` is the unexported payload field; a `nil` payload and an
empty one behave alike everywhere in the program and are both the empty list. -/
structure rkyvFile where
  Name : GoString
  data : List Byte
  Type_ : GoString
  Size : Int
  Hash : Slice Byte
  deriving DecidableEq, Repr

/-- The archive type `Rkyv`. `Files` is a slice of pointers: an element may be `nil`. -/
structure Rkyv where
  Version : GoString
  UUID : GoString
  DateCreated : Time
  DateUpdated : Time
  Files : Slice (Option rkyvFile)
  Tags : Slice GoString
  SearchTerms : Slice GoString
  deriving DecidableEq, Repr

/-- The zero value `rkyvFile{}`. -/
def rkyvFile.zero : rkyvFile := ⟨[], [], [], 0, none⟩

/-- The zero value `Rkyv{}`: the empty archive. -/
def Rkyv.zero : Rkyv := ⟨[], [], Time.zero, Time.zero, none, none, none⟩

/-! ## `json.Marshal` of an archive -/

mutual
/-- Compact JSON text of a value, as the encoder writes it. -/
def JVal.render : JVal → List Byte
  | .null => [0x6E, 0x75, 0x6C, 0x6C]
  | .bool true => [0x74, 0x72, 0x75, 0x65]
  | .bool false => [0x66, 0x61, 0x6C, 0x73, 0x65]
  | .num raw => raw
  | .str raw => 0x22 :: (raw ++ [0x22])
  | .arr [] => [0x5B, 0x5D]
  | .arr (x :: xs) => 0x5B :: (x.render ++ (renderElems xs ++ [0x5D]))
  | .obj [] => [0x7B, 0x7D]
  | .obj ((k, v) :: ms) =>
    0x7B :: 0x22 :: (k ++ 0x22 :: 0x3A :: (v.render ++ (renderMembers ms ++ [0x7D])))
/-- The elements of an array after the first, each preceded by a comma. -/
def renderElems : List JVal → List Byte
  | [] => []
  | x :: xs => 0x2C :: (x.render ++ renderElems xs)
/-- The members of an object after the first, each preceded by a comma. -/
def renderMembers : List (List Byte × JVal) → List Byte
  | [] => []
  | (k, v) :: ms => 0x2C :: 0x22 :: (k ++ 0x22 :: 0x3A :: (v.render ++ renderMembers ms))
end

/-- A Go string as a JSON value. -/
def stringJSON (s : GoString) : JVal := .str (escapeAux 0 s)

/-- A `[]string` as a JSON value: `null` when `nil`. -/
def stringsJSON : Slice GoString → JVal
  | none => .null
  | some xs => .arr (xs.map stringJSON)

/-- A `[]byte` as a JSON value: `null` when `nil`, else a base64 string. -/
def bytesJSON : Slice Byte → JVal
  | none => .null
  | some bs => .str (base64Encode bs)

/-- An entry as a JSON value, by the struct tags of `rkyvFile`; `data` is unexported and not
written. -/
def rkyvFile.toJSON (f : rkyvFile) : JVal :=
  .obj [(ascii "name", stringJSON f.Name), (ascii "type", stringJSON f.Type_),
    (ascii "size", .num (formatInt f.Size)), (ascii "hash", bytesJSON f.Hash)]

/-- An element of `Files` as a JSON value: `null` for a `nil` pointer. -/
def filePtrJSON : Option rkyvFile → JVal
  | none => .null
  | some f => f.toJSON

/-- `Files` as a JSON value. -/
def filesJSON : Slice (Option rkyvFile) → JVal
  | none => .null
  | some fs => .arr (fs.map filePtrJSON)

/-- The archive as a JSON value, by the struct tags of `Rkyv`; `none` when a time cannot be
marshalled. -/
def Rkyv.toJSON (r : Rkyv) : Option JVal :=
  match r.DateCreated.formatRFC3339, r.DateUpdated.formatRFC3339 with
  | some c, some u =>
    some (.obj [(ascii "version", stringJSON r.Version), (ascii "uuid", stringJSON r.UUID),
      (ascii "date_created", .str c), (ascii "date_updated", .str u),
      (ascii "files", filesJSON r.Files), (ascii "tags", stringsJSON r.Tags),
      (ascii "search", stringsJSON r.SearchTerms)])
  | _, _ => none

/-- `json.Marshal(r)`; `none` is an error. -/
def jsonMarshal (r : Rkyv) : Option (List Byte) := r.toJSON.map JVal.render

/-! ## `json.Unmarshal` into an archive

Decoding works on the value already present in the destination: `null` leaves strings,
numbers, structs and times as they are and sets slices and pointers to `nil`; a later
occurrence of a key decodes into what an earlier one left. Any mismatch between a JSON value
and the Go type it is decoded into makes `Unmarshal` return an error. -/

/-- The decoder's name folding, as far as it matters for a comparison with an ASCII field
name: ASCII letters are upper-cased, `ſ` (U+017F) becomes `S` and the Kelvin sign (U+212A)
becomes `K`. -/
def foldNameAux : Nat → List Byte → List Byte
  | _, [] => []
  | k + 1, _ :: rest => foldNameAux k rest
  | 0, c :: rest =>
    if c = 0xC5 ∧ rest.take 1 = [0xBF] then 0x53 :: foldNameAux 1 rest
    else if c = 0xE2 ∧ rest.take 2 = [0x84, 0xAA] then 0x4B :: foldNameAux 2 rest
    else (if 0x61 ≤ c.val ∧ c.val ≤ 0x7A then byte (c.val - 0x20) else c) :: foldNameAux 0 rest

/-- Whether an object key selects the field with the given (upper-cased) JSON name: the key
is unquoted and compared under folding, which also covers an exact match. -/
def keyIs (key : GoString) (upperName : String) : Bool :=
  decide (foldNameAux 0 key = ascii upperName)

/-- Decode into a `string`. -/
def decString (cur : GoString) : JVal → Option GoString
  | .null => some cur
  | .str raw => unquote raw
  | _ => none

/-- Decode into an `int`. -/
def decInt (cur : Int) : JVal → Option Int
  | .null => some cur
  | .num raw => parseInt64 raw
  | _ => none

/-- Decode into a `time.Time`, through `Time.UnmarshalJSON`, which is handed the source text
of the value. -/
def decTime (cur : Time) : JVal → Option Time
  | .null => some cur
  | .str raw => parseTime raw
  | _ => none

/-- Decode into a `uint8` element. -/
def decUint8 (cur : Byte) : JVal → Option Byte
  | .null => some cur
  | .num raw => parseUint8 raw
  | _ => none

/-- The decoder's array loop: element `i` of the JSON array is decoded into element `i` of
the slice when there is one, else into a zero value; the slice ends up as long as the
array. -/
def decElems {α : Type} (dec : α → JVal → Option α) (zero : α) : List α → List JVal →
    Option (List α)
  | _, [] => some []
  | cur, j :: js =>
    match dec (cur.headD zero) j with
    | none => none
    | some x => (decElems dec zero cur.tail js).map (x :: ·)

/-- Decode into a slice that is not a `[]byte`. -/
def decSlice {α : Type} (dec : α → JVal → Option α) (zero : α) (cur : Slice α) :
    JVal → Option (Slice α)
  | .null => some none
  | .arr js => (decElems dec zero cur.elems js).map some
  | _ => none

/-- Decode into a `[]byte`: a string is base64, an array is decoded element by element. -/
def decBytes (cur : Slice Byte) : JVal → Option (Slice Byte)
  | .null => some none
  | .str raw => ((unquote raw).bind base64Decode).map some
  | .arr js => (decElems decUint8 0 cur.elems js).map some
  | _ => none

/-- The members of an object decoded in turn into an `rkyvFile`. Keys that select no exported
field (`data` has none) are passed over. -/
def decFileMembers (cur : rkyvFile) : List (List Byte × JVal) → Option rkyvFile
  | [] => some cur
  | (k, v) :: ms =>
    match unquote k with
    | none => none
    | some key =>
      if keyIs key "NAME" then
        (decString cur.Name v).bind fun x => decFileMembers { cur with Name := x } ms
      else if keyIs key "TYPE" then
        (decString cur.Type_ v).bind fun x => decFileMembers { cur with Type_ := x } ms
      else if keyIs key "SIZE" then
        (decInt cur.Size v).bind fun x => decFileMembers { cur with Size := x } ms
      else if keyIs key "HASH" then
        (decBytes cur.Hash v).bind fun x => decFileMembers { cur with Hash := x } ms
      else decFileMembers cur ms

/-- Decode into a `*rkyvFile`: `null` makes it `nil`, an object is decoded into the struct
pointed to, which is allocated if the pointer was `nil`. -/
def decFilePtr (cur : Option rkyvFile) : JVal → Option (Option rkyvFile)
  | .null => some none
  | .obj ms => (decFileMembers (cur.getD rkyvFile.zero) ms).map some
  | _ => none

/-- The members of an object decoded in turn into an `Rkyv`. -/
def decRkyvMembers (cur : Rkyv) : List (List Byte × JVal) → Option Rkyv
  | [] => some cur
  | (k, v) :: ms =>
    match unquote k with
    | none => none
    | some key =>
      if keyIs key "VERSION" then
        (decString cur.Version v).bind fun x => decRkyvMembers { cur with Version := x } ms
      else if keyIs key "UUID" then
        (decString cur.UUID v).bind fun x => decRkyvMembers { cur with UUID := x } ms
      else if keyIs key "DATE_CREATED" then
        (decTime cur.DateCreated v).bind fun x =>
          decRkyvMembers { cur with DateCreated := x } ms
      else if keyIs key "DATE_UPDATED" then
        (decTime cur.DateUpdated v).bind fun x =>
          decRkyvMembers { cur with DateUpdated := x } ms
      else if keyIs key "FILES" then
        (decSlice decFilePtr none cur.Files v).bind fun x =>
          decRkyvMembers { cur with Files := x } ms
      else if keyIs key "TAGS" then
        (decSlice decString [] cur.Tags v).bind fun x =>
          decRkyvMembers { cur with Tags := x } ms
      else if keyIs key "SEARCH" then
        (decSlice decString [] cur.SearchTerms v).bind fun x =>
          decRkyvMembers { cur with SearchTerms := x } ms
      else decRkyvMembers cur ms

/-- Decode into an `Rkyv`. -/
def decRkyv (cur : Rkyv) : JVal → Option Rkyv
  | .null => some cur
  | .obj ms => decRkyvMembers cur ms
  | _ => none

/-- `json.Unmarshal(data, &r)` for `var r Rkyv`: the decoded archive, or `none` when
`Unmarshal` returns an error (a syntax error anywhere in `data`, or a value that does not fit
its field). -/
def jsonUnmarshal (data : List Byte) : Option Rkyv :=
  (parseJSON data).bind (decRkyv Rkyv.zero)

/-! ## The surroundings: clock, random source, file store -/

/-- A reading of the wall clock in the local zone, as `time.Now()` delivers it: a date and
time of day that exist, and the zone's offset from UTC in minutes. -/
structure Wall where
  year : Int
  month : Nat
  day : Nat
  hour : Nat
  minute : Nat
  second : Nat
  nano : Nat
  offsetMin : Int
  valid : 1 ≤ month ∧ month ≤ 12 ∧ 1 ≤ day ∧ day ≤ daysIn month year ∧ hour < 24 ∧
    minute < 60 ∧ second < 60 ∧ nano < 1000000000

/-- The `time.Time` that `time.Now()` returns for a clock reading; its location is
`time.Local`, never the UTC of the zero time. -/
def timeNow (w : Wall) : Time :=
  ⟨w.year, w.month, w.day, w.hour, w.minute, w.second, w.nano, .zone w.offsetMin⟩

/-- What one call of `Flush` takes from clock and random source. -/
structure Env where
  /-- The bytes the random source delivers to `uuid.NewV4`. -/
  random : List Byte
  /-- The reading of `time.Now()` on line 125, when that line runs. -/
  nowCreated : Wall
  /-- The reading of `time.Now()` on line 127. -/
  nowUpdated : Wall

/-- The largest offset in a file: offsets are `int64`. -/
def maxOffset : Nat := 2 ^ 63 - 1

/-- The file store. -/
structure Disk where
  /-- The regular files and their contents, by name. -/
  files : List (GoString × List Byte)
  /-- Names that cannot be created or opened for writing. -/
  denied : List GoString
  /-- The most bytes the store lets one file hold. -/
  quota : Nat
  deriving DecidableEq, Repr

/-- The contents of a file, if there is one of that name. -/
def Disk.read (d : Disk) (name : GoString) : Option (List Byte) :=
  (d.files.find? fun p => decide (p.1 = name)).map (·.2)

/-- The store after the file `name` has been given the contents `held`. -/
def Disk.store (d : Disk) (name : GoString) (held : List Byte) : Disk :=
  { d with files := (name, held) :: d.files.filter fun p => !decide (p.1 = name) }

/-- The most bytes a file of this store can hold. -/
def Disk.limit (d : Disk) : Nat := min d.quota maxOffset

/-- The result of one `f.Write(b)`. -/
structure WriteResult where
  /-- What the file holds afterwards. -/
  held : List Byte
  /-- The count `n` returned. -/
  n : Nat
  /-- Whether the returned `err` is non-nil. -/
  err : Bool

/-- The `f.Write(b)` of `os.File` at the end of a file holding `held`: the bytes that fit are
appended, and the error is non-nil exactly when not all of `b` was written. -/
def fileWrite (limit : Nat) (held b : List Byte) : WriteResult :=
  let n := min b.length (limit - held.length)
  ⟨held ++ b.take n, n, decide (n < b.length)⟩

/-- `binary.LittleEndian.PutUint64`. -/
def PutUint64 (v : Nat) : List Byte := (List.range 8).map fun i => byte (v / 256 ^ i)

/-- `binary.LittleEndian.Uint64` of eight bytes. -/
def Uint64 (b : List Byte) : Nat :=
  ((List.range 8).map fun i => (b.getD i 0).val * 256 ^ i).sum

/-- Conversion `uint64(n)` of an `int`. -/
def uint64 (n : Int) : Nat := (n % 2 ^ 64).toNat

/-- Conversion `int64(p)` of a `uint64`. -/
def int64 (p : Nat) : Int := if p < 2 ^ 63 then (p : Int) else (p : Int) - 2 ^ 64

/-! ## `OpenFile` (lines 39 to 84) -/

/-- The errors `OpenFile` returns, by the statement that returns them. -/
inductive OpenError
  /-- "could not open file": `os.Open` failed. -/
  | openFile
  /-- "could not read file for RKYV ...: %v": the first read returned an error. -/
  | readMagic
  /-- "could not read file for RKYV ...: %d bytes read". -/
  | readMagicShort (n : Nat)
  /-- "could not read file for meta pointer ...: %v". -/
  | readPointer
  /-- "could not read file for meta pointer ...: %d bytes read". -/
  | readPointerShort (n : Nat)
  /-- "could not seek to meta". -/
  | seek
  /-- "could not unmarshal meta json". -/
  | unmarshal
  deriving DecidableEq, Repr

instance {ε α : Type} [DecidableEq ε] [DecidableEq α] : DecidableEq (Except ε α) :=
  fun a b =>
    match a, b with
    | .ok x, .ok y => if h : x = y then isTrue (by rw [h]) else isFalse (fun e => h (by cases e; rfl))
    | .error x, .error y =>
      if h : x = y then isTrue (by rw [h]) else isFalse (fun e => h (by cases e; rfl))
    | .ok _, .error _ => isFalse (fun e => by cases e)
    | .error _, .ok _ => isFalse (fun e => by cases e)

/-- The body of `OpenFile` once the file is open, on the file's contents. A read of a regular
file delivers the bytes asked for as far as the file has them, and `io.EOF` when it has none
left. `Seek` with whence 1 fails when the new offset is negative or not an `int64`; an
offset at or past the end is accepted, and `ReadAll` then reads nothing. -/
def openReader (src : List Byte) : Except OpenError Rkyv :=
  let readBuf := src.take MAGIC.length
  if readBuf.length = 0 then .error .readMagic
  else if readBuf.length ≠ MAGIC.length then .error (.readMagicShort readBuf.length)
  else
    let ptrBuf := (src.drop MAGIC.length).take 8
    if ptrBuf.length = 0 then .error .readPointer
    else if ptrBuf.length ≠ 8 then .error (.readPointerShort ptrBuf.length)
    else
      let ptr := Uint64 ptrBuf
      let pos : Int := (MAGIC.length + 8 : Nat) + int64 ptr
      if pos < 0 ∨ (maxOffset : Int) < pos then .error .seek
      else
        match jsonUnmarshal (src.drop pos.toNat) with
        | none => .error .unmarshal
        | some r => .ok r

/-- `OpenFile(filename)`: opens a .rkyv file and populates a `Rkyv`. -/
def OpenFile (d : Disk) (filename : GoString) : Except OpenError Rkyv :=
  match d.read filename with
  | none => .error .openFile
  | some src => openReader src

/-! ## `AddFile` and `Filename` (lines 86 to 110) -/

/-- `r.AddFile(name, data)`. -/
def Rkyv.AddFile (r : Rkyv) (name : GoString) (data : List Byte) : Rkyv :=
  let ct := DetectContentType data
  let hash := sha256 data
  let f : rkyvFile :=
    { Name := name, data := data, Type_ := ct, Size := (data.length : Int), Hash := some hash }
  { r with Files := r.Files.append (some f) }

/-- `r.Filename()`. -/
def Rkyv.Filename (r : Rkyv) : GoString := r.UUID ++ ascii ".rkyv"

/-! ## `Flush` (lines 112 to 187) -/

/-- The errors `Flush` returns, by the statement that returns them. -/
inductive FlushError
  /-- "could not open rkyv file to write". -/
  | openFile (name : GoString)
  /-- "could not write RKYV to rkyv file: %v". -/
  | writeMagic
  /-- "could not write RKYV to rkyv file: %d bytes written". -/
  | writeMagicShort (n : Nat)
  /-- "could not write pointer to rkyv file: %v". -/
  | writePointer
  /-- "could not write pointer to rkyv file: %d bytes written". -/
  | writePointerShort (n : Nat)
  /-- "could not write file ... to rkyv file: %v", with the entry's name. -/
  | writeFile (name : GoString)
  /-- "could not write file ... to rkyv file: %d bytes written", with the entry's name and
  the count. -/
  | writeFileShort (name : GoString) (n : Nat)
  /-- "could not marshal meta to json". -/
  | marshal
  /-- "could not write meta to rkyv file: %v". -/
  | writeMeta
  /-- "could not write meta to rkyv file: %d bytes written". -/
  | writeMetaShort (n : Nat)
  deriving DecidableEq, Repr

/-- How a call ends: it returns `nil`, returns an error, or panics (a `nil` entry is
dereferenced). -/
inductive Outcome
  | ok
  | error (e : FlushError)
  | panic
  deriving DecidableEq, Repr

/-- What a call of `Flush` leaves behind. -/
structure FlushResult where
  outcome : Outcome
  /-- The archive value after the call. -/
  archive : Rkyv
  /-- The file store after the call. -/
  disk : Disk
  deriving DecidableEq, Repr

/-- Lines 114 to 127, "prep meta". -/
def Rkyv.prepMeta (env : Env) (r : Rkyv) : Rkyv :=
  let r := if r.Version = [] then { r with Version := ascii "1.0" } else r
  let r := if r.UUID = [] then { r with UUID := uuidString (NewV4 env.random) } else r
  let r := if r.DateCreated = Time.zero then { r with DateCreated := timeNow env.nowCreated }
    else r
  { r with DateUpdated := timeNow env.nowUpdated }

/-- Lines 146 to 149: the sum of the entries' sizes in `uint64` arithmetic, starting from
`ptr`; `none` when a `nil` entry is dereferenced. -/
def sumSizes (ptr : Nat) : List (Option rkyvFile) → Option Nat
  | [] => some ptr
  | none :: _ => none
  | some rf :: rest => sumSizes ((ptr + uint64 rf.Size) % 2 ^ 64) rest

/-- Lines 162 to 170: the payloads written in turn to a file that holds `held`. Gives how the
loop ends (`Outcome.ok`: it runs to its end) and what the file holds then. -/
def writeFiles (limit : Nat) : List (Option rkyvFile) → List Byte → Outcome × List Byte
  | [], held => (.ok, held)
  | none :: _, held => (.panic, held)
  | some rf :: rest, held =>
    let w := fileWrite limit held rf.data
    if w.err then (.error (.writeFile rf.Name), w.held)
    else if (w.n : Int) ≠ rf.Size then (.error (.writeFileShort rf.Name w.n), w.held)
    else writeFiles limit rest w.held

/-- `r.Flush()`: flushes the contents of the struct into the .rkyv file. -/
def Rkyv.Flush (env : Env) (d : Disk) (r : Rkyv) : FlushResult :=
  let r := r.prepMeta env
  if r.Filename ∈ d.denied then ⟨.error (.openFile r.Filename), r, d⟩
  else
    let w1 := fileWrite d.limit [] MAGIC
    if w1.err then ⟨.error .writeMagic, r, d.store r.Filename w1.held⟩
    else if w1.n ≠ MAGIC.length then
      ⟨.error (.writeMagicShort w1.n), r, d.store r.Filename w1.held⟩
    else
      match sumSizes 0 r.Files.elems with
      | none => ⟨.panic, r, d.store r.Filename w1.held⟩
      | some ptr =>
        let ptrBuf := PutUint64 ptr
        let w2 := fileWrite d.limit w1.held ptrBuf
        if w2.err then ⟨.error .writePointer, r, d.store r.Filename w2.held⟩
        else if w2.n ≠ ptrBuf.length then
          ⟨.error (.writePointerShort w2.n), r, d.store r.Filename w2.held⟩
        else
          match writeFiles d.limit r.Files.elems w2.held with
          | (.ok, held) =>
            match jsonMarshal r with
            | none => ⟨.error .marshal, r, d.store r.Filename held⟩
            | some data =>
              let w4 := fileWrite d.limit held data
              if w4.err then ⟨.error .writeMeta, r, d.store r.Filename w4.held⟩
              else if w4.n ≠ data.length then
                ⟨.error (.writeMetaShort w4.n), r, d.store r.Filename w4.held⟩
              else ⟨.ok, r, d.store r.Filename w4.held⟩
          | (o, held) => ⟨o, r, d.store r.Filename held⟩

/-! ## Building archives -/

/-- The archive after `r.AddFile(name, data)` for each of the given pairs, in order. -/
def addFiles (r : Rkyv) (items : List (GoString × List Byte)) : Rkyv :=
  items.foldl (fun a p => a.AddFile p.1 p.2) r

/-- The empty archive with tags and search terms set by the caller. -/
def newArchive (tags terms : Slice GoString) : Rkyv :=
  { Rkyv.zero with Tags := tags, SearchTerms := terms }

/-- The entry `AddFile` makes of a name and a payload. -/
def entryOf (p : GoString × List Byte) : rkyvFile :=
  { Name := p.1, data := p.2, Type_ := DetectContentType p.2, Size := (p.2.length : Int),
    Hash := some (sha256 p.2) }

/-- The payloads held by the entries, one after the other. -/
def payloads (fs : List (Option rkyvFile)) : List Byte :=
  fs.flatMap fun o =>
    match o with
    | some f => f.data
    | none => []

/-- An entry without its payload, as `OpenFile` delivers entries. -/
def rkyvFile.stripped (f : rkyvFile) : rkyvFile := { f with data := [] }

/-! ## The `create` command (`cmd/rkyv/main.go`, lines 32 to 70) -/

/-- The files a command's arguments may name: the file store, the names that are
directories, and the regular files that cannot be read. -/
structure Sys where
  disk : Disk
  dirs : List GoString
  unreadable : List GoString
  deriving DecidableEq, Repr

/-- `os.Stat(filename)` as far as the command looks at it: `none` is an error, else whether
the name is a directory. -/
def Sys.stat (s : Sys) (filename : GoString) : Option Bool :=
  if filename ∈ s.dirs then some true
  else if (s.disk.read filename).isSome then some false
  else none

/-- `ioutil.ReadFile(filename)` of a regular file; `none` is an error. -/
def Sys.readFile (s : Sys) (filename : GoString) : Option (List Byte) :=
  if filename ∈ s.unreadable then none else s.disk.read filename

/-- The first loop of `basename` in package `os`, on the reversed name: trailing slashes are
removed as long as more than one byte is left. -/
def trimSlashes : List Byte → List Byte
  | c :: d :: rest => if c = 0x2F then trimSlashes (d :: rest) else c :: d :: rest
  | l => l

/-- `stat.Name()`: the base name of the path given to `os.Stat`. -/
def basename (name : GoString) : GoString :=
  match trimSlashes name.reverse with
  | [] => []
  | c :: rest => (c :: rest.takeWhile fun b => decide (b ≠ 0x2F)).reverse

/-- The errors the action of `create` returns, by the statement that returns them. -/
inductive CreateError
  /-- "no arguments specified". -/
  | noArguments
  /-- "could not get file stats". -/
  | stat (filename : GoString)
  /-- "directories are not supported". -/
  | directory (filename : GoString)
  /-- "could not read file". -/
  | readFile (filename : GoString)
  /-- "could not create .rkyv file". -/
  | flush (e : FlushError)
  deriving DecidableEq, Repr

/-- How the action ends: it prints a line and returns `nil`, returns an error, or panics. -/
inductive CreateOutcome
  | ok (printed : GoString)
  | error (e : CreateError)
  | panic
  deriving DecidableEq, Repr

/-- What a run of the action leaves behind. -/
structure CreateResult where
  outcome : CreateOutcome
  /-- The local archive value `r` when the action ends. -/
  archive : Rkyv
  /-- The file store when the action ends. -/
  disk : Disk
  deriving DecidableEq, Repr

/-- Lines 43 to 59: the loop over the arguments, from the archive value `r`. Gives the error
the loop returns, if any, and the archive value at that moment. -/
def createLoop (s : Sys) : List GoString → Rkyv → Option CreateError × Rkyv
  | [], r => (none, r)
  | filename :: rest, r =>
    match s.stat filename with
    | none => (some (.stat filename), r)
    | some true => (some (.directory filename), r)
    | some false =>
      match s.readFile filename with
      | none => (some (.readFile filename), r)
      | some data => createLoop s rest (r.AddFile (basename filename) data)

/-- The action of the `create` command on its arguments. When there are no arguments the
archive value is not yet declared; the empty archive stands for it. -/
def createCmd (env : Env) (s : Sys) (args : List GoString) : CreateResult :=
  if args.length = 0 then ⟨.error .noArguments, Rkyv.zero, s.disk⟩
  else
    match createLoop s args Rkyv.zero with
    | (some e, r) => ⟨.error e, r, s.disk⟩
    | (none, r) =>
      let res := r.Flush env s.disk
      match res.outcome with
      | .ok =>
        ⟨.ok (ascii "Created rkyv file: " ++ res.archive.Filename ++ [0x0A]), res.archive,
          res.disk⟩
      | .error e => ⟨.error (.flush e), res.archive, res.disk⟩
      | .panic => ⟨.panic, res.archive, res.disk⟩

/-! ## Well-formed JSON text, for the proofs about the scanner -/

/-- Scanner states inside a string literal. -/
inductive StrSt
  | normal
  | esc
  | hex (k : Nat)
  deriving DecidableEq

/-- The scanner state for a state inside a string literal. -/
def StrSt.toScan : StrSt → List Byte → ScanSt
  | .normal, acc => .inStr acc
  | .esc, acc => .inStrEsc acc
  | .hex k, acc => .inStrU k acc

/-- The text can stand between the quotes of a string literal: the scanner, started inside a
string in the given state, reads it to its end without meeting a quote or an error, and is
outside an escape then. -/
def strOK : StrSt → List Byte → Bool
  | .normal, [] => true
  | .esc, [] => false
  | .hex _, [] => false
  | .normal, c :: r =>
    if c = 0x22 then false
    else if c = 0x5C then strOK .esc r
    else if c.val < 0x20 then false
    else strOK .normal r
  | .esc, c :: r =>
    if c = 0x62 ∨ c = 0x66 ∨ c = 0x6E ∨ c = 0x72 ∨ c = 0x74 ∨ c = 0x5C ∨ c = 0x2F ∨ c = 0x22 then
      strOK .normal r
    else if c = 0x75 then strOK (.hex 3) r
    else false
  | .hex k, c :: r =>
    match hexVal c with
    | none => false
    | some _ =>
      match k with
      | 0 => strOK .normal r
      | k + 1 => strOK (.hex k) r

/-- The state of the scanner after a stretch of text inside a string literal; `none` when it
meets a quote or an error. -/
def strRun : StrSt → List Byte → Option StrSt
  | st, [] => some st
  | .normal, c :: r =>
    if c = 0x22 then none
    else if c = 0x5C then strRun .esc r
    else if c.val < 0x20 then none
    else strRun .normal r
  | .esc, c :: r =>
    if c = 0x62 ∨ c = 0x66 ∨ c = 0x6E ∨ c = 0x72 ∨ c = 0x74 ∨ c = 0x5C ∨ c = 0x2F ∨ c = 0x22 then
      strRun .normal r
    else if c = 0x75 then strRun (.hex 3) r
    else none
  | .hex k, c :: r =>
    match hexVal c with
    | none => none
    | some _ =>
      match k with
      | 0 => strRun .normal r
      | k + 1 => strRun (.hex k) r

/-- An ASCII byte that stands for itself in a string literal. -/
def plain (c : Byte) : Bool :=
  decide (0x20 ≤ c.val ∧ c.val < 0x80 ∧ c ≠ 0x22 ∧ c ≠ 0x5C)

/-- The number scanner run over a byte sequence. -/
def numRun : NumSt → List Byte → Option NumSt
  | st, [] => some st
  | st, c :: r =>
    match numStep st c with
    | none => none
    | some st1 => numRun st1 r

/-- The text is one complete JSON number. -/
def numOK : List Byte → Bool
  | [] => false
  | c :: r =>
    if c = 0x2D then (numRun .neg r).any NumSt.accepting
    else if c = 0x30 then (numRun .zero r).any NumSt.accepting
    else if isDigit c then (numRun .int r).any NumSt.accepting
    else false

/-- What follows cannot be taken for more of a number. -/
def numEnd : List Byte → Bool
  | [] => true
  | c :: _ => !isDigit c && decide (c ≠ 0x2E ∧ c ≠ 0x65 ∧ c ≠ 0x45)

mutual
/-- The tokens of the compact text of a value. -/
def JVal.toks : JVal → List Tok
  | .null => [.null]
  | .bool true => [.tt]
  | .bool false => [.ff]
  | .num raw => [.num raw]
  | .str raw => [.str raw]
  | .arr [] => [.lbrack, .rbrack]
  | .arr (x :: xs) => .lbrack :: (x.toks ++ (toksElems xs ++ [.rbrack]))
  | .obj [] => [.lbrace, .rbrace]
  | .obj ((k, v) :: ms) => .lbrace :: .str k :: .colon :: (v.toks ++ (toksMembers ms ++ [.rbrace]))
/-- The tokens of the elements after the first. -/
def toksElems : List JVal → List Tok
  | [] => []
  | x :: xs => .comma :: (x.toks ++ toksElems xs)
/-- The tokens of the members after the first. -/
def toksMembers : List (List Byte × JVal) → List Tok
  | [] => []
  | (k, v) :: ms => .comma :: .str k :: .colon :: (v.toks ++ toksMembers ms)
end

mutual
/-- Every string and number in the value is as the scanner accepts it. -/
def JVal.wf : JVal → Bool
  | .num raw => numOK raw
  | .str raw => strOK .normal raw
  | .arr xs => wfElems xs
  | .obj ms => wfMembers ms
  | _ => true
/-- All elements are well formed. -/
def wfElems : List JVal → Bool
  | [] => true
  | x :: xs => x.wf && wfElems xs
/-- All members are well formed. -/
def wfMembers : List (List Byte × JVal) → Bool
  | [] => true
  | (k, v) :: ms => strOK .normal k && v.wf && wfMembers ms
end

/-- The content type a signature reports when it matches. -/
def sniffSig.ct : sniffSig → GoString
  | .html _ => ascii "text/html; charset=utf-8"
  | .masked _ _ _ ct => ct
  | .exact _ ct => ct
  | .mp4 => ascii "video/mp4"
  | .text => ascii "text/plain; charset=utf-8"

/-- A signature cannot match data whose first byte is `b0` (and is not white space): the
first byte of its pattern rules that out. -/
def sniffSig.excludes (b0 : Byte) : sniffSig → Bool
  | .html (b :: _) =>
    !(if 0x41 ≤ b.val ∧ b.val ≤ 0x5A then decide (b.val = b0.val &&& 0xDF) else decide (b = b0))
  | .masked (m :: _) (p :: _) _ _ => !decide (b0.val &&& m.val = p.val)
  | .exact (c :: _) _ => !decide (c = b0)
  | _ => false

/-- The 8-byte PNG signature. -/
def pngSignature : List Byte := [0x89, 0x50, 0x4E, 0x47, 0x0D, 0x0A, 0x1A, 0x0A]

/-- The archive as `OpenFile` reads it back: entries without payloads. -/
def Rkyv.stripped (r : Rkyv) : Rkyv :=
  { r with Files := r.Files.map fun fs => fs.map fun o => o.map rkyvFile.stripped }

/-! ## Sample surroundings, for instances of the theorems -/

/-- A clock reading. -/
def sampleWall : Wall := ⟨2017, 3, 14, 9, 26, 53, 589793000, 180, by decide⟩

/-- A later clock reading. -/
def sampleWallLater : Wall := ⟨2017, 3, 14, 9, 26, 54, 0, 180, by decide⟩

/-- Surroundings of a first call of `Flush`. -/
def sampleEnv : Env :=
  ⟨[0x12, 0x34, 0x56, 0x78, 0x9A, 0xBC, 0xDE, 0xF0, 0x0F, 0x1E, 0x2D, 0x3C, 0x4B, 0x5A, 0x69,
    0x78], sampleWall, sampleWall⟩

/-- Surroundings of a later call of `Flush`. -/
def sampleEnvLater : Env := ⟨[], sampleWallLater, sampleWallLater⟩

/-- A clock reading in a zone whose offset from UTC is zero. -/
def sampleWallZero : Wall := ⟨2017, 3, 14, 6, 26, 53, 589793000, 0, by decide⟩

/-- Surroundings of a call of `Flush` where the local zone has offset zero. -/
def sampleEnvZero : Env :=
  ⟨[0x12, 0x34, 0x56, 0x78, 0x9A, 0xBC, 0xDE, 0xF0, 0x0F, 0x1E, 0x2D, 0x3C, 0x4B, 0x5A, 0x69,
    0x78], sampleWallZero, sampleWallZero⟩

/-- An empty file store with room for 4096 bytes per file. -/
def sampleDisk : Disk := ⟨[], [], 4096⟩

/-- Files for runs of the `create` command: a regular file `a` holding `hi`, and a
directory `d`. -/
def sampleSys : Sys := ⟨⟨[(ascii "a", ascii "hi")], [], 4096⟩, [ascii "d"], []⟩

/-! ## Properties -/

set_option maxRecDepth 100000

theorem Flush_archive (env : Env) (d : Disk) (r : Rkyv) :
    (r.Flush env d).archive = r.prepMeta env := by
  unfold Rkyv.Flush
  simp only []
  repeat' split
  all_goals rfl

theorem uuidString_ne_nil (u : List Byte) : uuidString u ≠ [] := by
  unfold uuidString
  intro h
  have := congrArg List.length h
  simp at this

theorem timeNow_ne_zero (w : Wall) : timeNow w ≠ Time.zero := by
  intro h
  have := congrArg Time.loc h
  simp [timeNow, Time.zero] at this

theorem addFiles_append (r : Rkyv) (items : List (GoString × List Byte)) (p : GoString × List Byte) :
    addFiles r (items ++ [p]) = (addFiles r items).AddFile p.1 p.2 := by
  simp [addFiles, List.foldl_append]

/-- C10. `AddFile` is total and appends exactly one entry: the entry sequence afterwards is
the previous one followed by one new entry, so every earlier entry keeps its value and
position; the new entry carries the given name, the payload and its length; `Version`,
`UUID`, `DateCreated`, `DateUpdated`, `Tags` and `SearchTerms` are unchanged. -/
theorem AddFile_appends_one_entry (r : Rkyv) (name : GoString) (data : List Byte) :
    (∃ f : rkyvFile, (r.AddFile name data).Files = some (r.Files.elems ++ [some f]) ∧
      f.Name = name ∧ f.Size = (data.length : Int) ∧ f.data = data) ∧
    (r.AddFile name data).Files.elems.length = r.Files.elems.length + 1 ∧
    (∀ i, i < r.Files.elems.length →
      (r.AddFile name data).Files.elems[i]? = r.Files.elems[i]?) ∧
    (r.AddFile name data).Version = r.Version ∧
    (r.AddFile name data).UUID = r.UUID ∧
    (r.AddFile name data).DateCreated = r.DateCreated ∧
    (r.AddFile name data).DateUpdated = r.DateUpdated ∧
    (r.AddFile name data).Tags = r.Tags ∧
    (r.AddFile name data).SearchTerms = r.SearchTerms := by
  refine ⟨⟨_, rfl, rfl, rfl, rfl⟩, ?_, ?_, rfl, rfl, rfl, rfl, rfl, rfl⟩
  · simp [Rkyv.AddFile, Slice.append, Slice.elems]
  · intro i hi
    show (r.Files.elems ++ [_])[i]? = _
    exact List.getElem?_append_left hi

theorem openReader_short (src : List Byte) (hlen : src.length < 12) :
    openReader src = .error .readMagic ∨
    (∃ n, openReader src = .error (.readMagicShort n)) ∨
    openReader src = .error .readPointer ∨
    (∃ n, openReader src = .error (.readPointerShort n)) := by
  have hm : MAGIC.length = 4 := by decide
  unfold openReader
  simp only [hm, List.length_take, List.length_drop]
  split_ifs with h1 h2 h3 h4 h5
  · left; rfl
  · right; left; exact ⟨_, rfl⟩
  · right; right; left; rfl
  · right; right; right; exact ⟨_, rfl⟩
  all_goals (exfalso; omega)

/-- C3. A byte source shorter than 12 bytes (empty, shorter than the marker, or ending inside
the pointer, whatever its first bytes are) makes `OpenFile` return an error, one of the four
read errors of the header, and no archive. -/
theorem OpenFile_rejects_truncated_header (d : Disk) (filename : GoString) (src : List Byte)
    (hfile : d.read filename = some src) (hlen : src.length < 12) :
    ∃ e, OpenFile d filename = .error e ∧
      (e = .readMagic ∨ (∃ n, e = .readMagicShort n) ∨ e = .readPointer ∨
        ∃ n, e = .readPointerShort n) := by
  unfold OpenFile
  rw [hfile]
  rcases openReader_short src hlen with h | ⟨n, h⟩ | h | ⟨n, h⟩
  · exact ⟨_, h, Or.inl rfl⟩
  · exact ⟨_, h, Or.inr (Or.inl ⟨n, rfl⟩)⟩
  · exact ⟨_, h, Or.inr (Or.inr (Or.inl rfl))⟩
  · exact ⟨_, h, Or.inr (Or.inr (Or.inr ⟨n, rfl⟩))⟩

/-- Witness for C3: a seven-byte file that starts with the marker. -/
theorem OpenFile_rejects_truncated_header_witness :
    ∃ e, OpenFile ⟨[(ascii "a.rkyv", ascii "RKYV" ++ [1, 2, 3])], [], 100⟩ (ascii "a.rkyv") =
        .error e ∧
      (e = .readMagic ∨ (∃ n, e = .readMagicShort n) ∨ e = .readPointer ∨
        ∃ n, e = .readPointerShort n) :=
  OpenFile_rejects_truncated_header _ _ (ascii "RKYV" ++ [1, 2, 3]) (by decide) (by decide)

/-- C2 (the code does not do this). A file whose first four bytes are `XXXX`, followed by a
zero pointer and the metadata record `{}`, is opened without error: `OpenFile` reads the
marker bytes and checks only how many it read. -/
theorem OpenFile_accepts_wrong_marker :
    OpenFile ⟨[(ascii "a.rkyv", ascii "XXXX" ++ PutUint64 0 ++ [0x7B, 0x7D])], [], 100⟩
        (ascii "a.rkyv") = .ok Rkyv.zero ∧
      (ascii "XXXX" ++ PutUint64 0 ++ [0x7B, 0x7D]).take 4 ≠ MAGIC := by
  decide

/-- C7 (the code does not do this). With the pointer `2^64 - 12` the conversion
`int64(ptr)` is `-12`, the seek goes back to offset 0, and the metadata record is read from
the start of the file: the 16-byte source below is opened without error, although nothing
lies at offset `12 + P`. -/
theorem OpenFile_seeks_backwards :
    openReader ([0x20, 0x20, 0x7B, 0x22] ++ PutUint64 (2 ^ 64 - 12) ++ [0x22, 0x3A, 0x31, 0x7D])
        = .ok Rkyv.zero ∧
      int64 (Uint64 (PutUint64 (2 ^ 64 - 12))) = -12 ∧
      jsonUnmarshal
        ([0x20, 0x20, 0x7B, 0x22] ++ PutUint64 (2 ^ 64 - 12) ++ [0x22, 0x3A, 0x31, 0x7D]) =
        some Rkyv.zero := by
  decide

/-- C8 (the code does not do this). For the 17-byte source below, whose pointer is
`2^64 - 10`, the bytes from offset `12 + P` on are empty and are no metadata record, yet
`OpenFile` returns an archive: it has parsed the bytes from offset 2. -/
theorem OpenFile_accepts_unparsable_region :
    OpenFile ⟨[(ascii "b.rkyv",
        [0x52, 0x4B, 0x7B, 0x22] ++ PutUint64 (2 ^ 64 - 10) ++ [0x22, 0x3A, 0x5B, 0x5D, 0x7D])],
        [], 100⟩ (ascii "b.rkyv") = .ok Rkyv.zero ∧
      jsonUnmarshal (([0x52, 0x4B, 0x7B, 0x22] ++ PutUint64 (2 ^ 64 - 10) ++
        [0x22, 0x3A, 0x5B, 0x5D, 0x7D]).drop (12 + (2 ^ 64 - 10))) = none := by
  decide

theorem prepMeta_Version (env : Env) (r : Rkyv) :
    (r.prepMeta env).Version = if r.Version = [] then ascii "1.0" else r.Version := by
  unfold Rkyv.prepMeta
  simp only []
  split_ifs <;> rfl

theorem prepMeta_UUID (env : Env) (r : Rkyv) :
    (r.prepMeta env).UUID = if r.UUID = [] then uuidString (NewV4 env.random) else r.UUID := by
  unfold Rkyv.prepMeta
  simp only []
  split_ifs <;> rfl

theorem prepMeta_DateCreated (env : Env) (r : Rkyv) :
    (r.prepMeta env).DateCreated =
      if r.DateCreated = Time.zero then timeNow env.nowCreated else r.DateCreated := by
  unfold Rkyv.prepMeta
  simp only []
  split_ifs <;> rfl

theorem prepMeta_DateUpdated (env : Env) (r : Rkyv) :
    (r.prepMeta env).DateUpdated = timeNow env.nowUpdated := by
  unfold Rkyv.prepMeta
  simp only []

theorem prepMeta_Files (env : Env) (r : Rkyv) : (r.prepMeta env).Files = r.Files := by
  unfold Rkyv.prepMeta
  simp only []
  split_ifs <;> rfl

theorem prepMeta_Tags (env : Env) (r : Rkyv) : (r.prepMeta env).Tags = r.Tags := by
  unfold Rkyv.prepMeta
  simp only []
  split_ifs <;> rfl

theorem prepMeta_SearchTerms (env : Env) (r : Rkyv) :
    (r.prepMeta env).SearchTerms = r.SearchTerms := by
  unfold Rkyv.prepMeta
  simp only []
  split_ifs <;> rfl

/-- C6. Two calls of `Flush` in succession on the same archive value, whatever their
outcomes, the clock not running backwards between them: `UUID` and `DateCreated` after the
second call are those after the first (the generated id is never empty, a clock reading is
never the zero time), and `DateUpdated` after the second call is not earlier than after the
first. -/
theorem Flush_twice_keeps_identity (env1 env2 : Env) (d : Disk) (r : Rkyv)
    (hclock : (timeNow env1.nowUpdated).unixNano ≤ (timeNow env2.nowUpdated).unixNano) :
    ((r.Flush env1 d).archive.Flush env2 (r.Flush env1 d).disk).archive.UUID =
        (r.Flush env1 d).archive.UUID ∧
      ((r.Flush env1 d).archive.Flush env2 (r.Flush env1 d).disk).archive.DateCreated =
        (r.Flush env1 d).archive.DateCreated ∧
      (r.Flush env1 d).archive.DateUpdated.unixNano ≤
        ((r.Flush env1 d).archive.Flush env2 (r.Flush env1 d).disk).archive.DateUpdated.unixNano
      := by
  simp only [Flush_archive, prepMeta_UUID, prepMeta_DateCreated, prepMeta_DateUpdated]
  refine ⟨?_, ?_, hclock⟩
  · by_cases h : r.UUID = []
    · simp [h, uuidString_ne_nil]
    · simp [h]
  · by_cases h : r.DateCreated = Time.zero
    · simp [h, timeNow_ne_zero]
    · simp [h]

/-- Witness for C6: two calls on the empty archive, the second a second later. -/
theorem Flush_twice_keeps_identity_witness :
    (timeNow sampleEnv.nowUpdated).unixNano ≤ (timeNow sampleEnvLater.nowUpdated).unixNano ∧
      ((Rkyv.zero.Flush sampleEnv sampleDisk).archive.Flush sampleEnvLater
          (Rkyv.zero.Flush sampleEnv sampleDisk).disk).archive.UUID =
        (Rkyv.zero.Flush sampleEnv sampleDisk).archive.UUID :=
  ⟨by decide,
    (Flush_twice_keeps_identity sampleEnv sampleEnvLater sampleDisk Rkyv.zero (by decide)).1⟩

/-! ### What `Flush` writes -/

theorem fileWrite_fits (limit : Nat) (held b : List Byte)
    (h : held.length + b.length ≤ limit) :
    fileWrite limit held b = ⟨held ++ b, b.length, false⟩ := by
  unfold fileWrite
  have h1 : min b.length (limit - held.length) = b.length := by omega
  simp [h1]

theorem fileWrite_err_false (limit : Nat) (held b : List Byte) (hheld : held.length ≤ limit)
    (h : (fileWrite limit held b).err = false) : held.length + b.length ≤ limit := by
  unfold fileWrite at h
  simp at h
  omega

theorem fileWrite_err_iff (limit : Nat) (held b : List Byte) (hheld : held.length ≤ limit) :
    (fileWrite limit held b).err = true ↔ limit < held.length + b.length := by
  unfold fileWrite
  simp
  omega

theorem Disk.read_store (d : Disk) (name : GoString) (c : List Byte) :
    (d.store name c).read name = some c := by
  simp [Disk.read, Disk.store]

theorem payloads_nil : payloads [] = [] := rfl

theorem payloads_cons_some (f : rkyvFile) (fs : List (Option rkyvFile)) :
    payloads (some f :: fs) = f.data ++ payloads fs := by
  simp [payloads]

theorem payloads_map_some (fs : List rkyvFile) :
    payloads (fs.map some) = fs.flatMap (·.data) := by
  induction fs with
  | nil => rfl
  | cons f fs ih => simp [payloads_cons_some, ih]

/-- A run of the payload loop that reaches its end has written every payload, found every
entry present with its size equal to its payload length, and stayed within the limit. -/
theorem writeFiles_ok (limit : Nat) (fs : List (Option rkyvFile)) (held out : List Byte)
    (hheld : held.length ≤ limit) (h : writeFiles limit fs held = (.ok, out)) :
    out = held ++ payloads fs ∧ out.length ≤ limit ∧
      ∀ o ∈ fs, ∃ f, o = some f ∧ f.Size = (f.data.length : Int) := by
  induction fs generalizing held with
  | nil =>
    simp [writeFiles] at h
    simp [← h, payloads_nil, hheld]
  | cons o fs ih =>
    cases o with
    | none => simp [writeFiles] at h
    | some f =>
      simp only [writeFiles] at h
      by_cases herr : (fileWrite limit held f.data).err = true
      · simp [herr] at h
      · have herr' : (fileWrite limit held f.data).err = false := by simpa using herr
        have hfit := fileWrite_err_false limit held f.data hheld herr'
        rw [fileWrite_fits limit held f.data hfit] at h
        simp only [Bool.false_eq_true, if_false] at h
        by_cases hsz : (f.data.length : Int) ≠ f.Size
        · simp [hsz] at h
        · simp only [hsz, if_false] at h
          have := ih (held ++ f.data) (by simpa using hfit) h
          refine ⟨?_, this.2.1, ?_⟩
          · rw [this.1, payloads_cons_some]; simp
          · intro o ho
            rcases List.mem_cons.1 ho with rfl | ho
            · exact ⟨f, rfl, by push_neg at hsz; exact hsz.symm⟩
            · exact this.2.2 o ho

theorem sumSizes_of_sizes (fs : List (Option rkyvFile)) (p : Nat) (hp : p < 2 ^ 64)
    (h : ∀ o ∈ fs, ∃ f, o = some f ∧ f.Size = (f.data.length : Int)) :
    sumSizes p fs = some ((p + (payloads fs).length) % 2 ^ 64) := by
  induction fs generalizing p with
  | nil =>
    simp only [sumSizes, payloads_nil, List.length_nil, Nat.add_zero]
    rw [Nat.mod_eq_of_lt hp]
  | cons o fs ih =>
    obtain ⟨f, rfl, hf⟩ := h o (List.mem_cons_self _ _)
    have h' : ∀ o ∈ fs, ∃ f, o = some f ∧ f.Size = (f.data.length : Int) :=
      fun o ho => h o (List.mem_cons_of_mem _ ho)
    simp only [sumSizes]
    rw [ih _ (Nat.mod_lt _ (by norm_num)) h', payloads_cons_some, hf]
    simp only [uint64, List.length_append]
    congr 1
    have : ((f.data.length : Int) % 2 ^ 64).toNat = f.data.length % 2 ^ 64 := by omega
    rw [this]
    omega

/-- What a successful `Flush` has done: the pointer is the sum of the sizes, every entry is
present with its size equal to its payload length, the metadata was marshalled, and the file
named `Filename()` holds marker, pointer, payloads and metadata, within the store's limit. -/
theorem Flush_ok (env : Env) (d : Disk) (r : Rkyv) (h : (r.Flush env d).outcome = .ok) :
    ∃ ptr meta, sumSizes 0 (r.prepMeta env).Files.elems = some ptr ∧
      jsonMarshal (r.prepMeta env) = some meta ∧
      (r.Flush env d).disk = d.store (r.prepMeta env).Filename
        (MAGIC ++ PutUint64 ptr ++ payloads (r.prepMeta env).Files.elems ++ meta) ∧
      (MAGIC ++ PutUint64 ptr ++ payloads (r.prepMeta env).Files.elems ++ meta).length
        ≤ d.limit ∧
      ∀ o ∈ (r.prepMeta env).Files.elems, ∃ f, o = some f ∧ f.Size = (f.data.length : Int) := by
  by_cases hden : (r.prepMeta env).Filename ∈ d.denied
  · simp [Rkyv.Flush, hden] at h
  by_cases hfit1 : ([] : List Byte).length + MAGIC.length ≤ d.limit
  swap
  · have := (fileWrite_err_iff d.limit [] MAGIC (by simp)).2 (by omega)
    simp [Rkyv.Flush, hden, this] at h
  have hw1 := fileWrite_fits d.limit [] MAGIC hfit1
  cases hptr : sumSizes 0 (r.prepMeta env).Files.elems with
  | none => simp [Rkyv.Flush, hden, hw1, hptr] at h
  | some ptr =>
    by_cases hfit2 : MAGIC.length + (PutUint64 ptr).length ≤ d.limit
    swap
    · have := (fileWrite_err_iff d.limit MAGIC (PutUint64 ptr) (by simpa using hfit1)).2
        (by omega)
      simp [Rkyv.Flush, hden, hw1, hptr, this] at h
    have hw2 := fileWrite_fits d.limit MAGIC (PutUint64 ptr) hfit2
    cases hwf : writeFiles d.limit (r.prepMeta env).Files.elems (MAGIC ++ PutUint64 ptr) with
    | mk o held =>
      cases o with
      | error e => simp [Rkyv.Flush, hden, hw1, hptr, hw2, hwf] at h
      | panic => simp [Rkyv.Flush, hden, hw1, hptr, hw2, hwf] at h
      | ok =>
        obtain ⟨hheld, hlen, hall⟩ :=
          writeFiles_ok d.limit _ (MAGIC ++ PutUint64 ptr) held (by simpa using hfit2) hwf
        cases hdata : jsonMarshal (r.prepMeta env) with
        | none => simp [Rkyv.Flush, hden, hw1, hptr, hw2, hwf, hdata] at h
        | some data =>
          by_cases hfit4 : held.length + data.length ≤ d.limit
          swap
          · have := (fileWrite_err_iff d.limit held data hlen).2 (by omega)
            simp [Rkyv.Flush, hden, hw1, hptr, hw2, hwf, hdata, this] at h
          have hw4 := fileWrite_fits d.limit held data hfit4
          refine ⟨ptr, data, rfl, rfl, ?_, ?_, hall⟩
          · simp only [Rkyv.Flush, hden, hw1, hptr, hw2, hwf, hdata, hw4, if_false,
              Bool.false_eq_true, List.nil_append, ne_eq, not_true_eq_false, if_true]
            rw [hheld]
          · rw [← hheld]; simpa using hfit4

/-! ### Archives built by `AddFile` -/

theorem AddFile_Files_elems (r : Rkyv) (p : GoString × List Byte) :
    (r.AddFile p.1 p.2).Files.elems = r.Files.elems ++ [some (entryOf p)] := rfl

theorem addFiles_Files_elems (r : Rkyv) (items : List (GoString × List Byte)) :
    (addFiles r items).Files.elems = r.Files.elems ++ items.map fun p => some (entryOf p) := by
  induction items using List.reverseRecOn with
  | nil => simp [addFiles]
  | append_singleton items p ih =>
    rw [addFiles_append, AddFile_Files_elems, ih]
    simp

theorem addFiles_fields (r : Rkyv) (items : List (GoString × List Byte)) :
    (addFiles r items).Version = r.Version ∧ (addFiles r items).UUID = r.UUID ∧
      (addFiles r items).DateCreated = r.DateCreated ∧
      (addFiles r items).DateUpdated = r.DateUpdated ∧ (addFiles r items).Tags = r.Tags ∧
      (addFiles r items).SearchTerms = r.SearchTerms := by
  induction items using List.reverseRecOn with
  | nil => simp [addFiles]
  | append_singleton items p ih =>
    rw [addFiles_append]
    exact ih

theorem payloads_entries (items : List (GoString × List Byte)) :
    payloads (items.map fun p => some (entryOf p)) = items.flatMap (·.2) := by
  induction items with
  | nil => rfl
  | cons p items ih =>
    rw [List.map_cons, payloads_cons_some, ih]
    rfl

theorem length_flatMap_payload (items : List (GoString × List Byte)) :
    (items.flatMap (·.2)).length = (items.map (·.2.length)).sum := by
  induction items with
  | nil => rfl
  | cons p items ih => simp [List.flatMap_cons, ih]

theorem PutUint64_length (v : Nat) : (PutUint64 v).length = 8 := by
  simp [PutUint64]

theorem MAGIC_length : MAGIC.length = 4 := by decide

theorem Uint64_PutUint64 (v : Nat) : Uint64 (PutUint64 v) = v % 2 ^ 64 := by
  simp only [Uint64, PutUint64, byte, Fin.ofNat]
  simp [List.range, List.range.loop]
  omega

theorem container_shape (m p pl tail : List Byte) (hm : m.length = 4) (hp : p.length = 8) :
    (m ++ p ++ pl ++ tail).take 4 = m ∧ ((m ++ p ++ pl ++ tail).drop 4).take 8 = p ∧
      (m ++ p ++ pl ++ tail).drop (12 + pl.length) = tail ∧
      (m ++ p ++ pl ++ tail).length = 12 + pl.length + tail.length := by
  refine ⟨?_, ?_, ?_, ?_⟩
  · rw [List.append_assoc, List.append_assoc, ← hm, List.take_left]
  · rw [List.append_assoc, List.append_assoc, ← hm, List.drop_left, ← hp, List.take_left]
  · have : 12 + pl.length = (m ++ p ++ pl).length := by simp [hm, hp]; omega
    rw [this, List.drop_left]
  · simp [hm, hp]; omega

/-- The entries of an archive built by `AddFile` calls from an empty one, and what `Flush`
has in hand for it. -/
theorem built_Files_elems (tags terms : Slice GoString) (items : List (GoString × List Byte))
    (env : Env) :
    ((addFiles (newArchive tags terms) items).prepMeta env).Files.elems =
      items.map fun p => some (entryOf p) := by
  rw [prepMeta_Files, addFiles_Files_elems]
  simp [newArchive, Rkyv.zero, Slice.elems]

/-- C4. For an archive built by `AddFile` calls only, the file a successful `Flush` has
written starts with `RKYV`, has in bytes 4 to 11 the little-endian encoding of `P`, the sum
of the payload lengths (which is below `2^64`, so reduction modulo `2^64` leaves it as it
is, and reading the field back gives `P`), holds from offset `12 + P` to its end exactly
the serialized metadata record, and is `12 + P + length(metadata)` bytes long. -/
theorem Flush_pointer_correct (env : Env) (d : Disk) (tags terms : Slice GoString)
    (items : List (GoString × List Byte))
    (hok : ((addFiles (newArchive tags terms) items).Flush env d).outcome = .ok) :
    ∃ c meta,
      ((addFiles (newArchive tags terms) items).Flush env d).disk.read
          ((addFiles (newArchive tags terms) items).Flush env d).archive.Filename = some c ∧
        jsonMarshal ((addFiles (newArchive tags terms) items).Flush env d).archive = some meta ∧
        c.take 4 = MAGIC ∧
        (c.drop 4).take 8 = PutUint64 ((items.map (·.2.length)).sum % 2 ^ 64) ∧
        (items.map (·.2.length)).sum % 2 ^ 64 = (items.map (·.2.length)).sum ∧
        Uint64 ((c.drop 4).take 8) = (items.map (·.2.length)).sum ∧
        c.drop (12 + (items.map (·.2.length)).sum) = meta ∧
        c.length = 12 + (items.map (·.2.length)).sum + meta.length := by
  obtain ⟨ptr, meta, hptr, hmeta, hdisk, hlen, hall⟩ := Flush_ok env d _ hok
  rw [built_Files_elems] at hptr hdisk hlen hall
  rw [sumSizes_of_sizes _ 0 (by norm_num) hall, payloads_entries, length_flatMap_payload,
    Nat.zero_add] at hptr
  rw [payloads_entries] at hdisk hlen
  have hlim : d.limit ≤ 2 ^ 63 - 1 := by
    unfold Disk.limit maxOffset; exact Nat.min_le_right _ _
  have hlen' : 12 + (items.map (·.2.length)).sum ≤ d.limit := by
    have := container_shape MAGIC (PutUint64 ptr)
      (items.flatMap (·.2)) meta MAGIC_length (PutUint64_length _)
    rw [this.2.2.2, length_flatMap_payload] at hlen
    omega
  have hsum : (items.map (·.2.length)).sum % 2 ^ 64 = (items.map (·.2.length)).sum :=
    Nat.mod_eq_of_lt (by omega)
  have hp : ptr = (items.map (·.2.length)).sum := by
    rw [hsum] at hptr; exact (Option.some.inj hptr).symm
  subst hp
  obtain ⟨h1, h2, h3, h4⟩ := container_shape MAGIC (PutUint64 (items.map (·.2.length)).sum)
      (items.flatMap (·.2)) meta MAGIC_length (PutUint64_length _)
  rw [length_flatMap_payload] at h3 h4
  refine ⟨MAGIC ++ PutUint64 (items.map (·.2.length)).sum ++ items.flatMap (·.2) ++ meta, meta,
    ?_, ?_, h1, ?_, hsum, ?_, h3, h4⟩
  · rw [hdisk, Flush_archive]; exact Disk.read_store _ _ _
  · rw [Flush_archive]; exact hmeta
  · rw [hsum]; exact h2
  · rw [h2, Uint64_PutUint64, hsum]

/-- Witness for C4: one file of two bytes added to the empty archive. -/
theorem Flush_pointer_correct_witness :
    ((addFiles (newArchive none none) [(ascii "a", ascii "hi")]).Flush sampleEnv
        sampleDisk).outcome = .ok ∧
      ∃ c meta,
        ((addFiles (newArchive none none) [(ascii "a", ascii "hi")]).Flush sampleEnv
            sampleDisk).disk.read
          ((addFiles (newArchive none none) [(ascii "a", ascii "hi")]).Flush sampleEnv
            sampleDisk).archive.Filename = some c ∧
        jsonMarshal ((addFiles (newArchive none none) [(ascii "a", ascii "hi")]).Flush sampleEnv
            sampleDisk).archive = some meta ∧
        c.take 4 = MAGIC ∧
        (c.drop 4).take 8 =
          PutUint64 (([(ascii "a", ascii "hi")].map (·.2.length)).sum % 2 ^ 64) ∧
        ([(ascii "a", ascii "hi")].map (·.2.length)).sum % 2 ^ 64 =
          ([(ascii "a", ascii "hi")].map (·.2.length)).sum ∧
        Uint64 ((c.drop 4).take 8) = ([(ascii "a", ascii "hi")].map (·.2.length)).sum ∧
        c.drop (12 + ([(ascii "a", ascii "hi")].map (·.2.length)).sum) = meta ∧
        c.length = 12 + ([(ascii "a", ascii "hi")].map (·.2.length)).sum + meta.length :=
  ⟨by decide, Flush_pointer_correct sampleEnv sampleDisk none none [(ascii "a", ascii "hi")]
    (by decide)⟩

/-- The payload loop on entries that are all present: it stops at the first entry whose
payload length differs from its size, after writing that payload, provided the store takes
the payloads up to there in full. -/
theorem writeFiles_mismatch (limit : Nat) (pre post : List rkyvFile) (f : rkyvFile)
    (held : List Byte) (hpre : ∀ g ∈ pre, (g.data.length : Int) = g.Size)
    (hf : (f.data.length : Int) ≠ f.Size)
    (hroom : held.length + (pre.flatMap (·.data)).length + f.data.length ≤ limit) :
    writeFiles limit ((pre ++ f :: post).map some) held =
      (.error (.writeFileShort f.Name f.data.length), held ++ pre.flatMap (·.data) ++ f.data) := by
  induction pre generalizing held with
  | nil =>
    simp only [List.nil_append, List.map_cons, writeFiles, List.flatMap_nil, List.append_nil]
    simp only [List.flatMap_nil, List.length_nil, Nat.add_zero] at hroom
    rw [fileWrite_fits limit held f.data hroom]
    simp [hf]
  | cons g pre ih =>
    rw [List.cons_append, List.map_cons, writeFiles]
    simp only [List.flatMap_cons, List.length_append] at hroom
    rw [fileWrite_fits limit held g.data (by omega)]
    have hg := hpre g (List.mem_cons_self _ _)
    simp only [Bool.false_eq_true, if_false, hg, ne_eq, not_true_eq_false]
    rw [ih (held ++ g.data) (fun x hx => hpre x (List.mem_cons_of_mem _ hx))
      (by simp only [List.length_append]; omega)]
    simp [List.flatMap_cons]

/-- C9 as amended. In an archive all of whose entries are present, let `f` be the first entry
in entry order whose held payload length differs from its recorded `Size`. If the
destination can be opened and the store takes the header and the payloads up to and
including that of `f` in full, `Flush` returns the error that names `f` (with the count of
bytes written for it), and the file then holds the marker, the pointer and the payloads up
to and including that of `f`, and no metadata record. -/
theorem Flush_reports_first_size_mismatch (env : Env) (d : Disk) (r : Rkyv)
    (pre post : List rkyvFile) (f : rkyvFile)
    (hfiles : r.Files.elems = (pre ++ f :: post).map some)
    (hpre : ∀ g ∈ pre, (g.data.length : Int) = g.Size)
    (hf : (f.data.length : Int) ≠ f.Size)
    (hopen : (r.prepMeta env).Filename ∉ d.denied)
    (hroom : 12 + (pre.flatMap (·.data)).length + f.data.length ≤ d.limit) :
    (r.Flush env d).outcome = .error (.writeFileShort f.Name f.data.length) ∧
      ∃ ptr, sumSizes 0 r.Files.elems = some ptr ∧
        (r.Flush env d).disk.read (r.Flush env d).archive.Filename =
          some (MAGIC ++ PutUint64 ptr ++ pre.flatMap (·.data) ++ f.data) := by
  have hw1 := fileWrite_fits d.limit [] MAGIC
    (by simp only [MAGIC_length, List.length_nil]; omega)
  have hsome : ∃ ptr, sumSizes 0 r.Files.elems = some ptr := by
    rw [hfiles]
    generalize (pre ++ f :: post) = fs
    generalize (0 : Nat) = p
    induction fs generalizing p with
    | nil => exact ⟨_, rfl⟩
    | cons g fs ih => simpa [sumSizes] using ih _
  obtain ⟨ptr, hptr⟩ := hsome
  have hptr' := hptr
  rw [hfiles] at hptr'
  have hw2 := fileWrite_fits d.limit MAGIC (PutUint64 ptr)
    (by simp only [MAGIC_length, PutUint64_length]; omega)
  have hwf := writeFiles_mismatch d.limit pre post f (MAGIC ++ PutUint64 ptr) hpre hf
    (by simp only [MAGIC_length, PutUint64_length, List.length_append]; omega)
  have hF : r.Flush env d = ⟨.error (.writeFileShort f.Name f.data.length), r.prepMeta env,
      d.store (r.prepMeta env).Filename (MAGIC ++ PutUint64 ptr ++ pre.flatMap (·.data) ++ f.data)⟩
      := by
    simp only [Rkyv.Flush, hopen, hw1, prepMeta_Files, hptr', hw2, hfiles, hwf, if_false,
      Bool.false_eq_true, List.nil_append, ne_eq, not_true_eq_false]
  rw [hF]
  exact ⟨rfl, ptr, hptr, Disk.read_store _ _ _⟩

/-- Witness for C9 as amended: one entry holding two bytes with `Size` 5. -/
theorem Flush_reports_first_size_mismatch_witness :
    (({ Rkyv.zero with Files := some [some ⟨ascii "a", ascii "hi", [], 5, none⟩] } : Rkyv).Flush
        sampleEnv sampleDisk).outcome = .error (.writeFileShort (ascii "a") 2) :=
  (Flush_reports_first_size_mismatch sampleEnv sampleDisk
    { Rkyv.zero with Files := some [some ⟨ascii "a", ascii "hi", [], 5, none⟩] }
    [] [] ⟨ascii "a", ascii "hi", [], 5, none⟩ rfl (by simp) (by decide) (by decide)
    (by decide)).1

/-- C9 as stated fails: the file below is opened without error; the archive it yields has a
`nil` entry followed by an entry with `Size` 1 and no payload; `Flush` on that archive, with
ample room in the store, does not return an error: it panics when the pointer loop
dereferences the `nil` entry. -/
theorem Flush_panics_on_nil_entry :
    OpenFile ⟨[(ascii "c.rkyv", MAGIC ++ PutUint64 0 ++
          [0x7B] ++ ascii "\"files\":[null,\x7b\"name\":\"a\",\"size\":1\x7d]" ++ [0x7D])], [], 4096⟩
        (ascii "c.rkyv") =
        .ok { Rkyv.zero with Files := some [none, some ⟨ascii "a", [], [], 1, none⟩] } ∧
      (({ Rkyv.zero with Files := some [none, some ⟨ascii "a", [], [], 1, none⟩] } : Rkyv).Flush
        sampleEnv sampleDisk).outcome = .panic := by
  decide

/-! ### The scanner on the encoder's output -/

theorem JVal.induct {P : JVal → Prop} (hnull : P .null) (hbool : ∀ b, P (.bool b))
    (hnum : ∀ r, P (.num r)) (hstr : ∀ r, P (.str r))
    (harr : ∀ xs, (∀ x ∈ xs, P x) → P (.arr xs))
    (hobj : ∀ ms : List (List Byte × JVal), (∀ m ∈ ms, P m.2) → P (.obj ms)) : ∀ v, P v := by
  intro v
  refine JVal.rec (motive_1 := P) (motive_2 := fun xs => ∀ x ∈ xs, P x)
    (motive_3 := fun ms => ∀ m ∈ ms, P m.2) (motive_4 := fun m => P m.2)
    hnull hbool hnum hstr (fun xs ih => harr xs ih) (fun ms ih => hobj ms ih)
    (by intro x hx; cases hx) (fun h t ih1 ih2 => by
      intro x hx
      rcases List.mem_cons.1 hx with rfl | hx
      · exact ih1
      · exact ih2 x hx)
    (by intro x hx; cases hx) (fun h t ih1 ih2 => by
      intro x hx
      rcases List.mem_cons.1 hx with rfl | hx
      · exact ih1
      · exact ih2 x hx)
    (fun k v ih => ih) v

theorem tokenizeFrom_cons (st : ScanSt) (c : Byte) (rest : List Byte) :
    tokenizeFrom st (c :: rest) =
      match scanStep st c with
      | none => none
      | some (out, st1) => (tokenizeFrom st1 rest).map (out ++ ·) := rfl

theorem tokenizeFrom_step (st st1 : ScanSt) (c : Byte) (rest : List Byte)
    (h : scanStep st c = some ([], st1)) :
    tokenizeFrom st (c :: rest) = tokenizeFrom st1 rest := by
  rw [tokenizeFrom_cons, h]
  simp

theorem scan_string (raw : List Byte) (st : StrSt) (acc rest : List Byte)
    (h : strOK st raw = true) :
    tokenizeFrom (st.toScan acc) (raw ++ 0x22 :: rest) =
      (tokenizeFrom .top rest).map (.str (acc.reverse ++ raw) :: ·) := by
  induction raw generalizing st acc with
  | nil =>
    cases st with
    | normal => simp [StrSt.toScan, tokenizeFrom_cons, scanStep]
    | esc => simp [strOK] at h
    | hex k => simp [strOK] at h
  | cons c r ih =>
    have fin : ∀ st1 : StrSt, strOK st1 r = true →
        scanStep (st.toScan acc) c = some ([], st1.toScan (c :: acc)) →
        tokenizeFrom (st.toScan acc) ((c :: r) ++ 0x22 :: rest) =
          (tokenizeFrom .top rest).map (.str (acc.reverse ++ c :: r) :: ·) := by
      intro st1 hok hs
      rw [List.cons_append, tokenizeFrom_step _ _ _ _ hs, ih st1 (c :: acc) hok]
      simp
    cases st with
    | normal =>
      simp only [strOK] at h
      split_ifs at h with h1 h2 h3
      · exact fin .esc h (by simp [StrSt.toScan, scanStep, h1, h2])
      · exact fin .normal h (by simp [StrSt.toScan, scanStep, h1, h2, h3])
    | esc =>
      simp only [strOK] at h
      split_ifs at h with h1 h2
      · exact fin .normal h (by simp only [StrSt.toScan, scanStep, h1, if_true])
      · exact fin (.hex 3) h (by rw [StrSt.toScan, scanStep, if_neg h1, if_pos h2]; rfl)
    | hex k =>
      simp only [strOK] at h
      cases hv : hexVal c with
      | none => simp [hv] at h
      | some x =>
        simp only [hv] at h
        cases k with
        | zero => exact fin .normal h (by simp [StrSt.toScan, scanStep, hv])
        | succ k => exact fin (.hex k) h (by simp [StrSt.toScan, scanStep, hv])

theorem numStep_accepting_end (st : NumSt) (c : Byte) (rest : List Byte)
    (hst : st.accepting = true) (hend : numEnd (c :: rest) = true) : numStep st c = none := by
  simp only [numEnd, Bool.and_eq_true, Bool.not_eq_true', decide_eq_true_eq] at hend
  obtain ⟨hd, h1, h2, h3⟩ := hend
  cases st <;> simp_all [numStep, NumSt.accepting]

theorem scan_num_run (raw : List Byte) (st st1 : NumSt) (acc rest : List Byte)
    (h : numRun st raw = some st1) :
    tokenizeFrom (.inNum st acc) (raw ++ rest) =
      tokenizeFrom (.inNum st1 (raw.reverse ++ acc)) rest := by
  induction raw generalizing st acc with
  | nil =>
    simp only [numRun, Option.some.injEq] at h
    subst h
    rfl
  | cons c r ih =>
    simp only [numRun] at h
    cases hs : numStep st c with
    | none => simp [hs] at h
    | some st2 =>
      simp only [hs] at h
      rw [List.cons_append, tokenizeFrom_step _ (.inNum st2 (c :: acc)) _ _
        (by simp [scanStep, hs]), ih st2 (c :: acc) h]
      simp

theorem scan_num_end (st : NumSt) (acc rest : List Byte) (hst : st.accepting = true)
    (hend : numEnd rest = true) :
    tokenizeFrom (.inNum st acc) rest =
      (tokenizeFrom .top rest).map (.num acc.reverse :: ·) := by
  cases rest with
  | nil => simp [tokenizeFrom, scanEnd, hst]
  | cons c r =>
    have hs := numStep_accepting_end st c r hst hend
    rw [tokenizeFrom_cons, tokenizeFrom_cons]
    simp only [scanStep, hs, hst, if_true]
    cases startTok c with
    | none => rfl
    | some p =>
      obtain ⟨ts, st1⟩ := p
      simp only []
      cases tokenizeFrom st1 r <;> simp

theorem scan_num (raw rest : List Byte) (h : numOK raw = true) (hend : numEnd rest = true) :
    tokenizeFrom .top (raw ++ rest) = (tokenizeFrom .top rest).map (.num raw :: ·) := by
  cases raw with
  | nil => simp [numOK] at h
  | cons c r =>
    have fin : ∀ st0 : NumSt, startTok c = some ([], .inNum st0 [c]) →
        (numRun st0 r).any NumSt.accepting = true →
        tokenizeFrom .top ((c :: r) ++ rest) =
          (tokenizeFrom .top rest).map (.num (c :: r) :: ·) := by
      intro st0 hs hany
      cases hr : numRun st0 r with
      | none => simp [hr] at hany
      | some st1 =>
        simp only [hr, Option.any_some] at hany
        rw [List.cons_append, tokenizeFrom_step _ _ _ _ (by simpa [scanStep] using hs),
          scan_num_run r st0 st1 [c] rest hr, scan_num_end st1 _ rest hany hend]
        simp
    simp only [numOK] at h
    split_ifs at h with h1 h2 h3
    · exact fin .neg (by subst h1; decide) h
    · exact fin .zero (by subst h2; decide) h
    · refine fin .int ?_ h
      have : ∀ c : Byte, c ≠ 0x2D → c ≠ 0x30 → isDigit c = true →
          startTok c = some ([], .inNum .int [c]) := by
        intro c; revert c; decide
      exact this c h1 h2 h3

theorem scan_emit (st : ScanSt) (c : Byte) (t : Tok) (rest : List Byte)
    (h : scanStep st c = some ([t], .top)) :
    tokenizeFrom st (c :: rest) = (tokenizeFrom .top rest).map ([t] ++ ·) := by
  rw [tokenizeFrom_cons, h]

theorem scan_punct (c : Byte) (t : Tok) (rest : List Byte)
    (h : startTok c = some ([t], .top)) :
    tokenizeFrom .top (c :: rest) = (tokenizeFrom .top rest).map ([t] ++ ·) :=
  scan_emit .top c t rest (by simpa [scanStep] using h)

theorem scan_null (rest : List Byte) :
    tokenizeFrom .top ([0x6E, 0x75, 0x6C, 0x6C] ++ rest) =
      (tokenizeFrom .top rest).map ([Tok.null] ++ ·) := by
  show tokenizeFrom .top (0x6E :: 0x75 :: 0x6C :: 0x6C :: rest) = _
  rw [tokenizeFrom_step .top (.inLit .null [0x75, 0x6C, 0x6C]) _ _ (by decide),
    tokenizeFrom_step _ (.inLit .null [0x6C, 0x6C]) _ _ (by decide),
    tokenizeFrom_step _ (.inLit .null [0x6C]) _ _ (by decide),
    scan_emit _ _ .null _ (by decide)]

theorem scan_true (rest : List Byte) :
    tokenizeFrom .top ([0x74, 0x72, 0x75, 0x65] ++ rest) =
      (tokenizeFrom .top rest).map ([Tok.tt] ++ ·) := by
  show tokenizeFrom .top (0x74 :: 0x72 :: 0x75 :: 0x65 :: rest) = _
  rw [tokenizeFrom_step .top (.inLit .tt [0x72, 0x75, 0x65]) _ _ (by decide),
    tokenizeFrom_step _ (.inLit .tt [0x75, 0x65]) _ _ (by decide),
    tokenizeFrom_step _ (.inLit .tt [0x65]) _ _ (by decide),
    scan_emit _ _ .tt _ (by decide)]

theorem scan_false (rest : List Byte) :
    tokenizeFrom .top ([0x66, 0x61, 0x6C, 0x73, 0x65] ++ rest) =
      (tokenizeFrom .top rest).map ([Tok.ff] ++ ·) := by
  show tokenizeFrom .top (0x66 :: 0x61 :: 0x6C :: 0x73 :: 0x65 :: rest) = _
  rw [tokenizeFrom_step .top (.inLit .ff [0x61, 0x6C, 0x73, 0x65]) _ _ (by decide),
    tokenizeFrom_step _ (.inLit .ff [0x6C, 0x73, 0x65]) _ _ (by decide),
    tokenizeFrom_step _ (.inLit .ff [0x73, 0x65]) _ _ (by decide),
    tokenizeFrom_step _ (.inLit .ff [0x65]) _ _ (by decide),
    scan_emit _ _ .ff _ (by decide)]

theorem scan_quoted (raw rest : List Byte) (h : strOK .normal raw = true) :
    tokenizeFrom .top (0x22 :: (raw ++ 0x22 :: rest)) =
      (tokenizeFrom .top rest).map ([Tok.str raw] ++ ·) := by
  rw [tokenizeFrom_step .top (.inStr []) 0x22 _ (by decide)]
  have := scan_string raw .normal [] rest h
  simpa [StrSt.toScan] using this

theorem numEnd_renderElems (xs : List JVal) (rest : List Byte) :
    numEnd (renderElems xs ++ 0x5D :: rest) = true := by
  cases xs with
  | nil => rfl
  | cons x xs => rfl

theorem numEnd_renderMembers (ms : List (List Byte × JVal)) (rest : List Byte) :
    numEnd (renderMembers ms ++ 0x7D :: rest) = true := by
  cases ms with
  | nil => rfl
  | cons m ms => obtain ⟨k, v⟩ := m; rfl

theorem map_append_comp (a b : List Tok) (o : Option (List Tok)) :
    (o.map (b ++ ·)).map (a ++ ·) = o.map ((a ++ b) ++ ·) := by
  cases o <;> simp

/-- The scanner reads the compact text of a well-formed value as the value's tokens. -/
theorem scan_render : ∀ v : JVal, v.wf = true → ∀ rest, numEnd rest = true →
    tokenizeFrom .top (v.render ++ rest) = (tokenizeFrom .top rest).map (v.toks ++ ·) := by
  intro v
  induction v using JVal.induct with
  | hnull => intro _ rest _; simpa [JVal.render, JVal.toks] using scan_null rest
  | hbool b =>
    intro _ rest _
    cases b
    · simpa [JVal.render, JVal.toks] using scan_false rest
    · simpa [JVal.render, JVal.toks] using scan_true rest
  | hnum raw =>
    intro h rest hend
    simp only [JVal.wf] at h
    simpa [JVal.render, JVal.toks] using scan_num raw rest h hend
  | hstr raw =>
    intro h rest _
    simp only [JVal.wf] at h
    simpa [JVal.render, JVal.toks] using scan_quoted raw rest h
  | harr xs ih =>
    intro h rest _
    have tail : ∀ ys : List JVal, (∀ y ∈ ys, y ∈ xs) → wfElems ys = true → ∀ rest,
        tokenizeFrom .top (renderElems ys ++ 0x5D :: rest) =
          (tokenizeFrom .top rest).map ((toksElems ys ++ [.rbrack]) ++ ·) := by
      intro ys
      induction ys with
      | nil =>
        intro _ _ rest
        simpa [renderElems, toksElems] using scan_punct 0x5D .rbrack rest (by decide)
      | cons y ys ihy =>
        intro hsub hwf rest
        simp only [wfElems, Bool.and_eq_true] at hwf
        simp only [renderElems, toksElems, List.cons_append, List.append_assoc, List.nil_append]
        rw [scan_punct 0x2C .comma _ (by decide),
          ih y (hsub y (List.mem_cons_self _ _)) hwf.1 _ (numEnd_renderElems ys rest),
          ihy (fun z hz => hsub z (List.mem_cons_of_mem _ hz)) hwf.2 rest]
        cases tokenizeFrom ScanSt.top rest <;> simp
    cases xs with
    | nil =>
      simp only [JVal.render, JVal.toks, List.cons_append, List.nil_append]
      rw [scan_punct 0x5B .lbrack _ (by decide), scan_punct 0x5D .rbrack _ (by decide)]
      cases tokenizeFrom ScanSt.top rest <;> simp
    | cons x xs =>
      simp only [JVal.wf, wfElems, Bool.and_eq_true] at h
      simp only [JVal.render, JVal.toks, List.cons_append, List.append_assoc, List.nil_append]
      rw [scan_punct 0x5B .lbrack _ (by decide),
        ih x (List.mem_cons_self _ _) h.1 _ (numEnd_renderElems xs rest),
        tail xs (fun z hz => List.mem_cons_of_mem _ hz) h.2 rest]
      cases tokenizeFrom ScanSt.top rest <;> simp
  | hobj ms ih =>
    intro h rest _
    have tail : ∀ ns : List (List Byte × JVal), (∀ n ∈ ns, n ∈ ms) → wfMembers ns = true →
        ∀ rest, tokenizeFrom .top (renderMembers ns ++ 0x7D :: rest) =
          (tokenizeFrom .top rest).map ((toksMembers ns ++ [.rbrace]) ++ ·) := by
      intro ns
      induction ns with
      | nil =>
        intro _ _ rest
        simpa [renderMembers, toksMembers] using scan_punct 0x7D .rbrace rest (by decide)
      | cons n ns ihn =>
        obtain ⟨k, w⟩ := n
        intro hsub hwf rest
        simp only [wfMembers, Bool.and_eq_true] at hwf
        simp only [renderMembers, toksMembers, List.cons_append, List.append_assoc, List.nil_append]
        have ihw : ∀ rest, numEnd rest = true → tokenizeFrom .top (w.render ++ rest) =
            (tokenizeFrom .top rest).map (w.toks ++ ·) :=
          ih (k, w) (hsub _ (List.mem_cons_self _ _)) hwf.1.2
        rw [scan_punct 0x2C .comma _ (by decide), scan_quoted k _ hwf.1.1,
          scan_punct 0x3A .colon _ (by decide),
          ihw _ (numEnd_renderMembers ns rest),
          ihn (fun z hz => hsub z (List.mem_cons_of_mem _ hz)) hwf.2 rest]
        cases tokenizeFrom ScanSt.top rest <;> simp
    cases ms with
    | nil =>
      simp only [JVal.render, JVal.toks, List.cons_append, List.nil_append]
      rw [scan_punct 0x7B .lbrace _ (by decide), scan_punct 0x7D .rbrace _ (by decide)]
      cases tokenizeFrom ScanSt.top rest <;> simp
    | cons m ms =>
      obtain ⟨k, w⟩ := m
      simp only [JVal.wf, wfMembers, Bool.and_eq_true] at h
      simp only [JVal.render, JVal.toks, List.cons_append, List.append_assoc, List.nil_append]
      have ihw : ∀ rest, numEnd rest = true → tokenizeFrom .top (w.render ++ rest) =
          (tokenizeFrom .top rest).map (w.toks ++ ·) :=
        ih (k, w) (List.mem_cons_self _ _) h.1.2
      rw [scan_punct 0x7B .lbrace _ (by decide), scan_quoted k _ h.1.1,
        scan_punct 0x3A .colon _ (by decide),
        ihw _ (numEnd_renderMembers ms rest),
        tail ms (fun z hz => List.mem_cons_of_mem _ hz) h.2 rest]
      cases tokenizeFrom ScanSt.top rest <;> simp

theorem toks_head (v : JVal) : ∃ t ts, v.toks = t :: ts ∧ t ≠ .rbrack := by
  cases v with
  | null => exact ⟨_, _, rfl, by simp⟩
  | bool b =>
    cases b
    · exact ⟨.ff, [], by rw [JVal.toks], by simp⟩
    · exact ⟨.tt, [], by rw [JVal.toks], by simp⟩
  | num r => exact ⟨.num r, [], by rw [JVal.toks], by simp⟩
  | str r => exact ⟨.str r, [], by rw [JVal.toks], by simp⟩
  | arr xs =>
    cases xs with
    | nil => exact ⟨.lbrack, _, by rw [JVal.toks], by simp⟩
    | cons x xs => exact ⟨.lbrack, _, by rw [JVal.toks], by simp⟩
  | obj ms =>
    cases ms with
    | nil => exact ⟨.lbrace, _, by rw [JVal.toks], by simp⟩
    | cons m ms => obtain ⟨k, w⟩ := m; exact ⟨.lbrace, _, by rw [JVal.toks], by simp⟩

theorem parseValue_lbrack (f : Nat) (t : Tok) (ts : List Tok) (h : t ≠ .rbrack) :
    parseValue (f + 1) (.lbrack :: t :: ts) =
      (parseElems f (t :: ts)).map fun p => (.arr p.1, p.2) := by
  cases t <;> first | exact absurd rfl h | simp [parseValue]

theorem parseValue_lbrace (f : Nat) (k : List Byte) (ts : List Tok) :
    parseValue (f + 1) (.lbrace :: .str k :: ts) =
      (parseMembers f (.str k :: ts)).map fun p => (.obj p.1, p.2) := by
  simp [parseValue]

theorem parseElems_succ (f : Nat) (ts : List Tok) :
    parseElems (f + 1) ts =
      match parseValue f ts with
      | some (v, .comma :: t) => (parseElems f t).map fun p => (v :: p.1, p.2)
      | some (v, .rbrack :: t) => some ([v], t)
      | _ => none := by
  rw [parseElems]

theorem parseMembers_succ (f : Nat) (k : List Byte) (ts : List Tok) :
    parseMembers (f + 1) (.str k :: .colon :: ts) =
      match parseValue f ts with
      | some (v, .comma :: t1) => (parseMembers f t1).map fun p => ((k, v) :: p.1, p.2)
      | some (v, .rbrace :: t1) => some ([(k, v)], t1)
      | _ => none := by
  rw [parseMembers]

theorem toks_length_pos (v : JVal) : 0 < v.toks.length := by
  obtain ⟨t, ts, h, _⟩ := toks_head v
  rw [h]; simp

/-- The parser reads the tokens of a value back as the value, given fuel for its tokens. -/
theorem parse_toks : ∀ v : JVal, ∀ f rest, v.toks.length ≤ f →
    parseValue f (v.toks ++ rest) = some (v, rest) := by
  intro v
  induction v using JVal.induct with
  | hnull => intro f rest hf; cases f with
    | zero => simp [JVal.toks] at hf
    | succ f => simp [JVal.toks, parseValue]
  | hbool b => intro f rest hf; cases f with
    | zero => cases b <;> simp [JVal.toks] at hf
    | succ f => cases b <;> simp [JVal.toks, parseValue]
  | hnum r => intro f rest hf; cases f with
    | zero => simp [JVal.toks] at hf
    | succ f => simp [JVal.toks, parseValue]
  | hstr r => intro f rest hf; cases f with
    | zero => simp [JVal.toks] at hf
    | succ f => simp [JVal.toks, parseValue]
  | harr xs ih =>
    intro f rest hf
    have elems : ∀ ys : List JVal, (∀ y ∈ ys, y ∈ xs) → ∀ y, y ∈ xs → ∀ f rest,
        (y.toks ++ (toksElems ys ++ [Tok.rbrack])).length ≤ f →
        parseElems f (y.toks ++ (toksElems ys ++ .rbrack :: rest)) = some (y :: ys, rest) := by
      intro ys
      induction ys with
      | nil =>
        intro _ y hy f rest hf
        cases f with
        | zero => simp at hf
        | succ f =>
          simp only [toksElems, List.nil_append, List.length_append, List.length_singleton] at hf
          rw [parseElems_succ, toksElems, List.nil_append, ih y hy f _ (by omega)]
      | cons z zs ihz =>
        intro hsub y hy f rest hf
        cases f with
        | zero => simp at hf
        | succ f =>
          simp only [toksElems, List.length_append, List.length_cons, List.length_nil] at hf
          have hz := toks_length_pos z
          rw [parseElems_succ, toksElems, List.cons_append, List.append_assoc,
            ih y hy f _ (by omega)]
          simp only []
          rw [ihz (fun w hw => hsub w (List.mem_cons_of_mem _ hw)) z
            (hsub z (List.mem_cons_self _ _)) f rest
            (by simp only [List.length_append, List.length_cons, List.length_nil]; omega)]
          rfl
    cases xs with
    | nil =>
      cases f with
      | zero => simp [JVal.toks] at hf
      | succ f => simp [JVal.toks, parseValue]
    | cons x xs =>
      cases f with
      | zero => simp [JVal.toks] at hf
      | succ f =>
        obtain ⟨t, ts, ht, hne⟩ := toks_head x
        have := elems xs (fun y hy => List.mem_cons_of_mem _ hy) x (List.mem_cons_self _ _) f rest
          (by simp only [JVal.toks, List.length_cons] at hf; omega)
        have e : (JVal.arr (x :: xs)).toks ++ rest =
            .lbrack :: t :: (ts ++ (toksElems xs ++ .rbrack :: rest)) := by
          rw [JVal.toks, ht]; simp
        rw [ht, List.cons_append] at this
        rw [e, parseValue_lbrack f t _ hne, this]
        rfl
  | hobj ms ih =>
    intro f rest hf
    have members : ∀ ns : List (List Byte × JVal), (∀ n ∈ ns, n ∈ ms) → ∀ k w, (k, w) ∈ ms →
        ∀ f rest, (Tok.str k :: Tok.colon :: (w.toks ++ (toksMembers ns ++ [Tok.rbrace]))).length ≤ f →
        parseMembers f (.str k :: .colon :: (w.toks ++ (toksMembers ns ++ .rbrace :: rest))) =
          some ((k, w) :: ns, rest) := by
      intro ns
      induction ns with
      | nil =>
        intro _ k w hw f rest hf
        have ihw : ∀ f rest, w.toks.length ≤ f → parseValue f (w.toks ++ rest) = some (w, rest) :=
          ih (k, w) hw
        cases f with
        | zero => simp at hf
        | succ f =>
          simp only [toksMembers, List.nil_append, List.length_append, List.length_singleton,
            List.length_cons] at hf
          rw [parseMembers_succ, toksMembers, List.nil_append, ihw f _ (by omega)]
      | cons n ns ihn =>
        obtain ⟨k2, w2⟩ := n
        intro hsub k w hw f rest hf
        have ihw : ∀ f rest, w.toks.length ≤ f → parseValue f (w.toks ++ rest) = some (w, rest) :=
          ih (k, w) hw
        cases f with
        | zero => simp at hf
        | succ f =>
          simp only [toksMembers, List.length_append, List.length_cons, List.length_nil] at hf
          rw [parseMembers_succ, toksMembers, List.cons_append, List.cons_append,
            List.cons_append, List.append_assoc, ihw f _ (by omega)]
          simp only []
          rw [ihn (fun z hz => hsub z (List.mem_cons_of_mem _ hz)) k2 w2
            (hsub _ (List.mem_cons_self _ _)) f rest
            (by simp only [List.length_append, List.length_cons, List.length_nil]; omega)]
          rfl
    cases ms with
    | nil =>
      cases f with
      | zero => simp [JVal.toks] at hf
      | succ f => simp [JVal.toks, parseValue]
    | cons m ms =>
      obtain ⟨k, w⟩ := m
      cases f with
      | zero => simp [JVal.toks] at hf
      | succ f =>
        have := members ms (fun y hy => List.mem_cons_of_mem _ hy) k w (List.mem_cons_self _ _)
          f rest (by simp only [JVal.toks, List.length_cons] at hf ⊢; omega)
        have e : (JVal.obj ((k, w) :: ms)).toks ++ rest =
            .lbrace :: .str k :: .colon :: (w.toks ++ (toksMembers ms ++ .rbrace :: rest)) := by
          rw [JVal.toks]; simp
        rw [e, parseValue_lbrace, this]
        rfl

theorem tokenize_render (v : JVal) (h : v.wf = true) : tokenize v.render = some v.toks := by
  have := scan_render v h [] rfl
  simpa [tokenize, tokenizeFrom, scanEnd] using this

/-- The text the encoder writes for a well-formed value is a JSON text that denotes that
value. -/
theorem parseJSON_render (v : JVal) (h : v.wf = true) (hd : v.depth ≤ maxNestingDepth) :
    parseJSON v.render = some v := by
  unfold parseJSON
  rw [tokenize_render v h]
  have := parse_toks v (v.toks.length + 1) [] (Nat.le_succ _)
  rw [List.append_nil] at this
  simp only [this, hd, if_true]


/-! ### Strings: the decoder on the encoder's output -/

theorem strOK_append (a : List Byte) (st st1 : StrSt) (E : List Byte)
    (h : strRun st a = some st1) : strOK st (a ++ E) = strOK st1 E := by
  induction a generalizing st with
  | nil => simp only [strRun, Option.some.injEq] at h; subst h; rfl
  | cons c r ih =>
    cases st with
    | normal =>
      simp only [strRun] at h
      split_ifs at h with h1 h2 h3
      · simp only [List.cons_append, strOK, h1, h2, if_false, if_true]; exact ih _ h
      · simp only [List.cons_append, strOK, h1, h2, h3, if_false]; exact ih _ h
    | esc =>
      simp only [strRun] at h
      split_ifs at h with h1 h2
      · simp only [List.cons_append, strOK, h1, if_true]; exact ih _ h
      · simp only [List.cons_append, strOK, h1, h2, if_false, if_true]; exact ih _ h
    | hex k =>
      simp only [strRun] at h
      cases hv : hexVal c with
      | none => simp [hv] at h
      | some x =>
        simp only [hv] at h
        cases k with
        | zero => simp only [List.cons_append, strOK, hv]; exact ih _ h
        | succ k => simp only [List.cons_append, strOK, hv]; exact ih _ h

theorem strRun_escapeByte : ∀ b : Byte, strRun .normal (escapeByte b) = some .normal := by
  decide!

theorem strRun_plain (s : List Byte) (h : s.all plain = true) :
    strRun .normal s = some .normal := by
  induction s with
  | nil => rfl
  | cons c r ih =>
    simp only [List.all_cons, Bool.and_eq_true] at h
    have hc : ∀ c : Byte, plain c = true → c ≠ 0x22 ∧ c ≠ 0x5C ∧ ¬ c.val < 0x20 := by decide!
    obtain ⟨h1, h2, h3⟩ := hc c h.1
    simp only [strRun, h1, h2, h3, if_false]
    exact ih h.2

theorem strOK_plain (s : List Byte) (h : s.all plain = true) : strOK .normal s = true := by
  have := strOK_append s .normal .normal [] (strRun_plain s h)
  simpa [strOK] using this


theorem encodeRune2 (b b1 : Byte) (h0 : 0xC2 ≤ b.val) (h1 : b.val < 0xE0) (hc : isCont b1 = true) :
    encodeRune (b.val % 32 * 64 + b1.val % 64) = [b, b1] := by
  simp only [isCont, decide_eq_true_eq] at hc
  have hb1 := b1.isLt
  unfold encodeRune
  rw [if_neg (by omega), if_pos (by omega)]
  simp only [byte, Fin.ofNat, List.cons.injEq, and_true, Fin.ext_iff]
  omega

theorem encodeRune3 (b b1 b2 : Byte) (h0 : 0xE0 ≤ b.val) (h1 : b.val < 0xF0)
    (hlo : (if b.val = 0xE0 then 0xA0 else 0x80) ≤ b1.val)
    (hhi : b1.val ≤ (if b.val = 0xED then 0x9F else 0xBF)) (hc : isCont b2 = true) :
    encodeRune (b.val % 16 * 4096 + b1.val % 64 * 64 + b2.val % 64) = [b, b1, b2] := by
  simp only [isCont, decide_eq_true_eq] at hc
  have hlo' : 0x80 ≤ b1.val := by split_ifs at hlo <;> omega
  have hhi' : b1.val ≤ 0xBF := by split_ifs at hhi <;> omega
  have hE0 : b.val = 0xE0 → 0xA0 ≤ b1.val := fun h => by simpa [h] using hlo
  have hED : b.val = 0xED → b1.val ≤ 0x9F := fun h => by simpa [h] using hhi
  unfold encodeRune
  rw [if_neg (by omega), if_neg (by omega), if_neg (by omega), if_pos (by omega)]
  simp only [byte, Fin.ofNat, List.cons.injEq, and_true, Fin.ext_iff]
  omega

theorem encodeRune4 (b b1 b2 b3 : Byte) (h0 : 0xF0 ≤ b.val) (h1 : b.val < 0xF5)
    (hlo : (if b.val = 0xF0 then 0x90 else 0x80) ≤ b1.val)
    (hhi : b1.val ≤ (if b.val = 0xF4 then 0x8F else 0xBF)) (hc2 : isCont b2 = true)
    (hc3 : isCont b3 = true) :
    encodeRune (b.val % 8 * 262144 + b1.val % 64 * 4096 + b2.val % 64 * 64 + b3.val % 64) =
      [b, b1, b2, b3] := by
  simp only [isCont, decide_eq_true_eq] at hc2 hc3
  have hlo' : 0x80 ≤ b1.val := by split_ifs at hlo <;> omega
  have hhi' : b1.val ≤ 0xBF := by split_ifs at hhi <;> omega
  have hF0 : b.val = 0xF0 → 0x90 ≤ b1.val := fun h => by simpa [h] using hlo
  have hF4 : b.val = 0xF4 → b1.val ≤ 0x8F := fun h => by simpa [h] using hhi
  unfold encodeRune
  rw [if_neg (by omega), if_neg (by omega), if_neg (by omega), if_neg (by omega)]
  simp only [byte, Fin.ofNat, List.cons.injEq, and_true, Fin.ext_iff]
  omega


theorem ite_some_none {α : Type} {p : Prop} [Decidable p] {x y : α}
    (h : (if p then some x else none) = some y) : p ∧ x = y := by
  by_cases hp : p
  · rw [if_pos hp] at h; exact ⟨hp, Option.some.inj h⟩
  · rw [if_neg hp] at h; cases h

theorem decodeRune_multi (b : Byte) (rest : List Byte) (c n : Nat) (hb : ¬ b.val < 0x80)
    (h : decodeRune (b :: rest) = some (c, n)) :
    ∃ t tail, rest = t ++ tail ∧ t.length + 1 = n ∧ t.all isCont = true ∧
      encodeRune c = b :: t ∧ ∀ tail', decodeRune (b :: (t ++ tail')) = some (c, n) := by
  unfold decodeRune at h
  simp only [] at h
  rw [if_neg hb] at h
  by_cases h1 : b.val < 0xC2
  · rw [if_pos h1] at h; cases h
  rw [if_neg h1] at h
  by_cases h2 : b.val < 0xE0
  · rw [if_pos h2] at h
    cases rest with
    | nil => cases h
    | cons b1 r =>
      simp only [] at h
      obtain ⟨hc, hx⟩ := ite_some_none h
      simp only [Prod.mk.injEq] at hx
      obtain ⟨rfl, rfl⟩ := hx
      refine ⟨[b1], r, rfl, rfl, by simp [hc], encodeRune2 b b1 (by omega) h2 hc, ?_⟩
      intro tail'
      simp only [decodeRune, List.cons_append, List.nil_append]
      rw [if_neg hb, if_neg h1, if_pos h2, if_pos hc]
  rw [if_neg h2] at h
  by_cases h3 : b.val < 0xF0
  · rw [if_pos h3] at h
    match rest, h with
    | [], h => cases h
    | [_], h => cases h
    | b1 :: b2 :: r, h =>
      simp only [] at h
      obtain ⟨hc, hx⟩ := ite_some_none h
      simp only [Prod.mk.injEq] at hx
      obtain ⟨rfl, rfl⟩ := hx
      refine ⟨[b1, b2], r, rfl, rfl, ?_, encodeRune3 b b1 b2 (by omega) h3 hc.1 hc.2.1 hc.2.2, ?_⟩
      · have : isCont b1 = true := by
          simp only [isCont, decide_eq_true_eq]
          obtain ⟨hlo, hhi, _⟩ := hc
          constructor
          · split_ifs at hlo <;> omega
          · split_ifs at hhi <;> omega
        simp [this, hc.2.2]
      · intro tail'
        simp only [decodeRune, List.cons_append, List.nil_append]
        rw [if_neg hb, if_neg h1, if_neg h2, if_pos h3, if_pos hc]
  rw [if_neg h3] at h
  by_cases h4 : b.val < 0xF5
  · rw [if_pos h4] at h
    match rest, h with
    | [], h => cases h
    | [_], h => cases h
    | [_, _], h => cases h
    | b1 :: b2 :: b3 :: r, h =>
      simp only [] at h
      obtain ⟨hc, hx⟩ := ite_some_none h
      simp only [Prod.mk.injEq] at hx
      obtain ⟨rfl, rfl⟩ := hx
      refine ⟨[b1, b2, b3], r, rfl, rfl, ?_,
        encodeRune4 b b1 b2 b3 (by omega) h4 hc.1 hc.2.1 hc.2.2.1 hc.2.2.2, ?_⟩
      · have : isCont b1 = true := by
          simp only [isCont, decide_eq_true_eq]
          obtain ⟨hlo, hhi, _⟩ := hc
          constructor
          · split_ifs at hlo <;> omega
          · split_ifs at hhi <;> omega
        simp [this, hc.2.2.1, hc.2.2.2]
      · intro tail'
        simp only [decodeRune, List.cons_append, List.nil_append]
        rw [if_neg hb, if_neg h1, if_neg h2, if_neg h3, if_pos h4, if_pos hc]
  · rw [if_neg h4] at h; cases h


theorem strRun_append (a : List Byte) (st st1 : StrSt) (E : List Byte)
    (h : strRun st a = some st1) : strRun st (a ++ E) = strRun st1 E := by
  induction a generalizing st with
  | nil => simp only [strRun, Option.some.injEq] at h; subst h; rfl
  | cons c r ih =>
    cases st with
    | normal =>
      simp only [strRun] at h
      split_ifs at h with h1 h2 h3
      · simp only [List.cons_append, strRun, h1, h2, if_false, if_true]; exact ih _ h
      · simp only [List.cons_append, strRun, h1, h2, h3, if_false]; exact ih _ h
    | esc =>
      simp only [strRun] at h
      split_ifs at h with h1 h2
      · simp only [List.cons_append, strRun, h1, if_true]; exact ih _ h
      · simp only [List.cons_append, strRun, h1, h2, if_false, if_true]; exact ih _ h
    | hex k =>
      simp only [strRun] at h
      cases hv : hexVal c with
      | none => simp [hv] at h
      | some x =>
        simp only [hv] at h
        cases k with
        | zero => simp only [List.cons_append, strRun, hv]; exact ih _ h
        | succ k => simp only [List.cons_append, strRun, hv]; exact ih _ h

theorem strRun_high (s : List Byte) (h : ∀ x ∈ s, 0x80 ≤ x.val) :
    strRun .normal s = some .normal := by
  induction s with
  | nil => rfl
  | cons c r ih =>
    have hc := h c (List.mem_cons_self _ _)
    have h1 : c ≠ 0x22 := by intro e; rw [e] at hc; revert hc; decide
    have h2 : c ≠ 0x5C := by intro e; rw [e] at hc; revert hc; decide
    have h3 : ¬ c.val < 0x20 := by omega
    simp only [strRun, h1, h2, h3, if_false]
    exact ih fun x hx => h x (List.mem_cons_of_mem _ hx)

theorem isCont_high (t : List Byte) (h : t.all isCont = true) : ∀ x ∈ t, 0x80 ≤ x.val := by
  intro x hx
  have := List.all_eq_true.1 h x hx
  simp only [isCont, decide_eq_true_eq] at this
  exact this.1

theorem escapeAux_skip (t r : List Byte) : escapeAux t.length (t ++ r) = escapeAux 0 r := by
  induction t with
  | nil => rfl
  | cons c t ih => simpa [escapeAux] using ih

theorem unquoteAux_skip (t r : List Byte) : unquoteAux t.length (t ++ r) = unquoteAux 0 r := by
  induction t with
  | nil => rfl
  | cons c t ih => simpa [unquoteAux] using ih

theorem validUTF8Aux_skip (t r : List Byte) :
    validUTF8Aux t.length (t ++ r) = validUTF8Aux 0 r := by
  induction t with
  | nil => rfl
  | cons c t ih => simpa [validUTF8Aux] using ih

theorem escapeAux_cons (b : Byte) (rest : List Byte) :
    escapeAux 0 (b :: rest) =
      if b.val < 0x80 then escapeByte b ++ escapeAux 0 rest
      else
        match decodeRune (b :: rest) with
        | none => [0x5C, 0x75, 0x66, 0x66, 0x66, 0x64] ++ escapeAux 0 rest
        | some (c, n) =>
          if c = 0x2028 ∨ c = 0x2029 then
            [0x5C, 0x75, 0x32, 0x30, 0x32, hexDigit (c % 16)] ++ escapeAux (n - 1) rest
          else (b :: rest).take n ++ escapeAux (n - 1) rest := by
  rw [escapeAux]

/-- Unfolding of the encoder's string loop at a well-formed multi-byte character. -/
theorem escapeAux_multi (b : Byte) (t tail : List Byte) (c n : Nat) (hb : ¬ b.val < 0x80)
    (hd : decodeRune (b :: (t ++ tail)) = some (c, n)) (hn : t.length + 1 = n) :
    escapeAux 0 (b :: (t ++ tail)) =
      (if c = 0x2028 ∨ c = 0x2029 then [0x5C, 0x75, 0x32, 0x30, 0x32, hexDigit (c % 16)]
        else b :: t) ++ escapeAux 0 tail := by
  rw [escapeAux_cons, if_neg hb, hd]
  simp only []
  have hn' : n - 1 = t.length := by omega
  rw [hn', escapeAux_skip]
  have : (b :: (t ++ tail)).take n = b :: t := by
    rw [← hn, List.take_succ_cons, List.take_left]
  rw [this]
  split_ifs <;> rfl

/-- Whatever the string, the encoder's text for it can stand between quotes. -/
theorem strRun_escapeAux (s : List Byte) : ∀ k, strRun .normal (escapeAux k s) = some .normal := by
  induction s with
  | nil => intro k; cases k <;> rfl
  | cons b rest ih =>
    intro k
    cases k with
    | succ k => simpa [escapeAux] using ih k
    | zero =>
      rw [escapeAux_cons]
      by_cases hb : b.val < 0x80
      · rw [if_pos hb, strRun_append _ _ _ _ (strRun_escapeByte b)]; exact ih 0
      · rw [if_neg hb]
        cases hd : decodeRune (b :: rest) with
        | none =>
          simp only []
          rw [strRun_append _ _ .normal _ (by decide)]; exact ih 0
        | some p =>
          obtain ⟨c, n⟩ := p
          simp only []
          obtain ⟨t, tail, rfl, hn, hcont, -, -⟩ := decodeRune_multi b rest c n hb hd
          by_cases hc : c = 0x2028 ∨ c = 0x2029
          · rw [if_pos hc, strRun_append _ _ .normal _ (by rcases hc with rfl | rfl <;> decide)]
            exact ih _
          · rw [if_neg hc]
            have : (b :: (t ++ tail)).take n = b :: t := by
              rw [← hn, List.take_succ_cons, List.take_left]
            rw [this, strRun_append _ _ .normal _ (strRun_high _ (by
              intro x hx
              rcases List.mem_cons.1 hx with rfl | hx
              · omega
              · exact isCont_high t hcont x hx))]
            exact ih _

theorem strOK_escapeAux (s : List Byte) : strOK .normal (escapeAux 0 s) = true := by
  have := strOK_append (escapeAux 0 s) .normal .normal [] (strRun_escapeAux s 0)
  simpa [strOK] using this

theorem hexVal_hexDigit : ∀ x : Fin 16, hexVal (hexDigit x.val) = some x.val := by decide

theorem unquoteAux_cons (c : Byte) (rest : List Byte) :
    unquoteAux 0 (c :: rest) =
    if c = 0x5C then
      match rest with
      | [] => none
      | e :: _ =>
        if e = 0x22 ∨ e = 0x5C ∨ e = 0x2F ∨ e = 0x27 then (unquoteAux 1 rest).map (e :: ·)
        else if e = 0x62 then (unquoteAux 1 rest).map (0x08 :: ·)
        else if e = 0x66 then (unquoteAux 1 rest).map (0x0C :: ·)
        else if e = 0x6E then (unquoteAux 1 rest).map (0x0A :: ·)
        else if e = 0x72 then (unquoteAux 1 rest).map (0x0D :: ·)
        else if e = 0x74 then (unquoteAux 1 rest).map (0x09 :: ·)
        else if e = 0x75 then
          match getu4 (c :: rest) with
          | none => none
          | some rr =>
            if 0xD800 ≤ rr ∧ rr < 0xE000 then
              match getu4 (rest.drop 5) with
              | some rr1 =>
                if rr < 0xDC00 ∧ 0xDC00 ≤ rr1 ∧ rr1 < 0xE000 then
                  (unquoteAux 11 rest).map
                    (encodeRune ((rr - 0xD800) * 1024 + (rr1 - 0xDC00) + 0x10000) ++ ·)
                else (unquoteAux 5 rest).map (encodeRune 0xFFFD ++ ·)
              | none => (unquoteAux 5 rest).map (encodeRune 0xFFFD ++ ·)
            else (unquoteAux 5 rest).map (encodeRune rr ++ ·)
        else none
    else if c = 0x22 ∨ c.val < 0x20 then none
    else if c.val < 0x80 then (unquoteAux 0 rest).map (c :: ·)
    else
      match decodeRune (c :: rest) with
      | none => (unquoteAux 0 rest).map (encodeRune 0xFFFD ++ ·)
      | some (r, n) => (unquoteAux (n - 1) rest).map (encodeRune r ++ ·) := by
  rfl

theorem unquoteAux_plain (c : Byte) (rest : List Byte) (h : plain c = true) :
    unquoteAux 0 (c :: rest) = (unquoteAux 0 rest).map (c :: ·) := by
  have hc : ∀ c : Byte, plain c = true → c ≠ 0x5C ∧ ¬ (c = 0x22 ∨ c.val < 0x20) ∧ c.val < 0x80 := by
    decide!
  obtain ⟨h1, h2, h3⟩ := hc c h
  rw [unquoteAux_cons, if_neg h1, if_neg h2, if_pos h3]

theorem unquoteAux_u4 (h1 h2 h3 h4 : Byte) (v : Nat) (E : List Byte)
    (hv : getu4 [0x5C, 0x75, h1, h2, h3, h4] = some v) (hns : ¬ (0xD800 ≤ v ∧ v < 0xE000)) :
    unquoteAux 0 (0x5C :: 0x75 :: h1 :: h2 :: h3 :: h4 :: E) =
      (unquoteAux 0 E).map (encodeRune v ++ ·) := by
  have hv' : getu4 (0x5C :: 0x75 :: h1 :: h2 :: h3 :: h4 :: E) = some v := by
    simpa [getu4] using hv
  have hs : unquoteAux 5 (0x75 :: h1 :: h2 :: h3 :: h4 :: E) = unquoteAux 0 E :=
    unquoteAux_skip [0x75, h1, h2, h3, h4] E
  rw [unquoteAux_cons, if_pos rfl]
  simp only [hv', hs, hns, if_false, if_true]
  simp


theorem unquoteAux_simple (e x : Byte) (E : List Byte)
    (h : unquoteAux 0 [0x5C, e] = some [x]) (hne : e ≠ 0x75) :
    unquoteAux 0 (0x5C :: e :: E) = (unquoteAux 0 E).map (x :: ·) := by
  have s1 : unquoteAux 1 (e :: E) = unquoteAux 0 E := rfl
  have s0 : unquoteAux 1 [e] = some [] := rfl
  rw [unquoteAux_cons, if_pos rfl] at h ⊢
  simp only [] at h ⊢
  rw [s1]
  rw [s0] at h
  simp only [Option.map_some'] at h
  by_cases h1 : e = 0x22 ∨ e = 0x5C ∨ e = 0x2F ∨ e = 0x27
  · rw [if_pos h1] at h ⊢; simp only [Option.some.injEq, List.cons.injEq, and_true] at h; rw [h]
  rw [if_neg h1] at h ⊢
  by_cases h2 : e = 0x62
  · rw [if_pos h2] at h ⊢; simp only [Option.some.injEq, List.cons.injEq, and_true] at h; rw [h]
  rw [if_neg h2] at h ⊢
  by_cases h3 : e = 0x66
  · rw [if_pos h3] at h ⊢; simp only [Option.some.injEq, List.cons.injEq, and_true] at h; rw [h]
  rw [if_neg h3] at h ⊢
  by_cases h4 : e = 0x6E
  · rw [if_pos h4] at h ⊢; simp only [Option.some.injEq, List.cons.injEq, and_true] at h; rw [h]
  rw [if_neg h4] at h ⊢
  by_cases h5 : e = 0x72
  · rw [if_pos h5] at h ⊢; simp only [Option.some.injEq, List.cons.injEq, and_true] at h; rw [h]
  rw [if_neg h5] at h ⊢
  by_cases h6 : e = 0x74
  · rw [if_pos h6] at h ⊢; simp only [Option.some.injEq, List.cons.injEq, and_true] at h; rw [h]
  rw [if_neg h6, if_neg hne] at h
  cases h

theorem escapeByte_cases : ∀ b : Byte, b.val < 0x80 →
    (escapeByte b = [b] ∧ plain b = true) ∨
    (escapeByte b = [0x5C, (escapeByte b).getD 1 0] ∧ (escapeByte b).getD 1 0 ≠ 0x75 ∧
      unquoteAux 0 [0x5C, (escapeByte b).getD 1 0] = some [b]) ∨
    (escapeByte b = [0x5C, 0x75, 0x30, 0x30, hexDigit (b.val / 16), hexDigit (b.val % 16)] ∧
      getu4 [0x5C, 0x75, 0x30, 0x30, hexDigit (b.val / 16), hexDigit (b.val % 16)] = some b.val ∧
      encodeRune b.val = [b]) := by
  decide!

theorem unquoteAux_escapeByte (b : Byte) (hb : b.val < 0x80) (E : List Byte) :
    unquoteAux 0 (escapeByte b ++ E) = (unquoteAux 0 E).map (b :: ·) := by
  rcases escapeByte_cases b hb with ⟨h, hp⟩ | ⟨h, hne, hu⟩ | ⟨h, hg, he⟩
  · rw [h]; exact unquoteAux_plain b E hp
  · rw [h]; exact unquoteAux_simple _ b E hu hne
  · rw [h]
    have := unquoteAux_u4 0x30 0x30 _ _ b.val E hg (by omega)
    rw [he] at this
    exact this

/-- The decoder reads the encoder's text for a well-formed UTF-8 string back as the
string. -/
theorem unquoteAux_escapeAux (s : List Byte) : ∀ k, validUTF8Aux k s = true →
    unquoteAux 0 (escapeAux k s) = some (s.drop k) := by
  induction s with
  | nil => intro k _; cases k <;> rfl
  | cons b rest ih =>
    intro k hv
    cases k with
    | succ k =>
      have : validUTF8Aux k rest = true := hv
      exact ih k this
    | zero =>
      rw [List.drop_zero]
      by_cases hb : b.val < 0x80
      · have hd : decodeRune (b :: rest) = some (b.val, 1) := by
          simp only [decodeRune, hb, if_true]
        have hv' : validUTF8Aux 0 rest = true := by
          simp only [validUTF8Aux, hd] at hv; exact hv
        rw [escapeAux_cons, if_pos hb, unquoteAux_escapeByte b hb, ih 0 hv']
        rfl
      · cases hd : decodeRune (b :: rest) with
        | none => simp [validUTF8Aux, hd] at hv
        | some p =>
          obtain ⟨c, n⟩ := p
          obtain ⟨t, tail, rfl, hn, hcont, henc, hdec⟩ := decodeRune_multi b rest c n hb hd
          have hn' : n - 1 = t.length := by omega
          have hv' : validUTF8Aux 0 tail = true := by
            simp only [validUTF8Aux, hd] at hv
            rw [hn', validUTF8Aux_skip] at hv
            exact hv
          have ih' := ih t.length (by rw [validUTF8Aux_skip]; exact hv')
          rw [escapeAux_skip, List.drop_left] at ih'
          rw [escapeAux_multi b t tail c n hb hd hn]
          by_cases hc : c = 0x2028 ∨ c = 0x2029
          · rw [if_pos hc]
            have hu : unquoteAux 0 ([0x5C, 0x75, 0x32, 0x30, 0x32, hexDigit (c % 16)] ++
                escapeAux 0 tail) = (unquoteAux 0 (escapeAux 0 tail)).map (encodeRune c ++ ·) := by
              rcases hc with rfl | rfl
              · exact unquoteAux_u4 0x32 0x30 0x32 _ 0x2028 _ (by decide) (by omega)
              · exact unquoteAux_u4 0x32 0x30 0x32 _ 0x2029 _ (by decide) (by omega)
            rw [hu, ih', henc]
            rfl
          · rw [if_neg hc, List.cons_append, unquoteAux_cons]
            have h1 : b ≠ 0x5C := by intro e; rw [e] at hb; exact hb (by decide)
            have h2 : ¬ (b = 0x22 ∨ b.val < 0x20) := by
              intro e
              rcases e with e | e
              · rw [e] at hb; exact hb (by decide)
              · omega
            rw [if_neg h1, if_neg h2, if_neg hb, hdec]
            simp only []
            rw [hn', unquoteAux_skip, ih', henc]
            rfl

theorem unquote_escape (s : List Byte) (h : validUTF8 s = true) :
    unquote (escapeAux 0 s) = some s :=
  unquoteAux_escapeAux s 0 h


/-! ### Base64 -/

theorem unquoteAux_all_plain (s : List Byte) (h : s.all plain = true) :
    unquoteAux 0 s = some s := by
  induction s with
  | nil => rfl
  | cons c r ih =>
    simp only [List.all_cons, Bool.and_eq_true] at h
    rw [unquoteAux_plain c r h.1, ih h.2]
    rfl

theorem b64Char_plain : ∀ v : Fin 64, plain (b64Char v.val) = true := by decide

theorem b64Val_b64Char : ∀ v : Fin 64, b64Val (b64Char v.val) = some v.val := by decide

theorem b64Char_not_break : ∀ v : Fin 64, ¬ (b64Char v.val = 0x0D ∨ b64Char v.val = 0x0A) := by
  decide

theorem b64Char_plain' (v : Nat) (h : v < 64) : plain (b64Char v) = true :=
  b64Char_plain ⟨v, h⟩

theorem b64Val_b64Char' (v : Nat) (h : v < 64) : b64Val (b64Char v) = some v :=
  b64Val_b64Char ⟨v, h⟩

theorem b64Char_not_break' (v : Nat) (h : v < 64) :
    (!(decide (b64Char v = 0x0D ∨ b64Char v = 0x0A))) = true := by
  have := b64Char_not_break ⟨v, h⟩
  simpa using this

theorem base64Encode_plain (bs : List Byte) : (base64Encode bs).all plain = true := by
  induction bs using base64Encode.induct with
  | case1 a b c rest ih =>
    have ha := a.isLt; have hb := b.isLt; have hc := c.isLt
    rw [base64Encode]
    simp only [List.all_cons, Bool.and_eq_true]
    exact ⟨b64Char_plain' _ (by omega), b64Char_plain' _ (by omega), b64Char_plain' _ (by omega),
      b64Char_plain' _ (by omega), ih⟩
  | case2 a b =>
    have ha := a.isLt; have hb := b.isLt
    rw [base64Encode]
    simp only [List.all_cons, List.all_nil, Bool.and_eq_true, Bool.and_true]
    exact ⟨b64Char_plain' _ (by omega), b64Char_plain' _ (by omega), b64Char_plain' _ (by omega),
      by decide⟩
  | case3 a =>
    have ha := a.isLt
    rw [base64Encode]
    simp only [List.all_cons, List.all_nil, Bool.and_eq_true, Bool.and_true]
    exact ⟨b64Char_plain' _ (by omega), b64Char_plain' _ (by omega), by decide, by decide⟩
  | case4 => rfl

theorem base64Encode_filter (bs : List Byte) :
    (base64Encode bs).filter (fun c => !(decide (c = 0x0D ∨ c = 0x0A))) = base64Encode bs := by
  rw [List.filter_eq_self]
  intro c hc
  have := List.all_eq_true.1 (base64Encode_plain bs) c hc
  have hp : ∀ c : Byte, plain c = true → (!(decide (c = 0x0D ∨ c = 0x0A))) = true := by decide!
  exact hp c this

theorem base64Quanta_encode (bs : List Byte) : base64Quanta (base64Encode bs) = some bs := by
  induction bs using base64Encode.induct with
  | case1 a b c rest ih =>
    have ha := a.isLt; have hb := b.isLt; have hc := c.isLt
    rw [base64Encode, base64Quanta]
    rw [b64Val_b64Char' _ (by omega), b64Val_b64Char' _ (by omega), b64Val_b64Char' _ (by omega),
      b64Val_b64Char' _ (by omega)]
    simp only [ih, Option.map_some', Option.some.injEq, List.cons.injEq, and_true, byte,
      Fin.ofNat, Fin.ext_iff]
    omega
  | case2 a b =>
    have ha := a.isLt; have hb := b.isLt
    rw [base64Encode, base64Quanta]
    rw [b64Val_b64Char' _ (by omega), b64Val_b64Char' _ (by omega), b64Val_b64Char' _ (by omega)]
    have : b64Val 0x3D = none := by decide
    rw [this]
    simp only [and_self, if_true, Option.some.injEq, List.cons.injEq, and_true, byte,
      Fin.ofNat, Fin.ext_iff]
    omega
  | case3 a =>
    have ha := a.isLt
    rw [base64Encode, base64Quanta]
    rw [b64Val_b64Char' _ (by omega), b64Val_b64Char' _ (by omega)]
    have : b64Val 0x3D = none := by decide
    rw [this]
    simp only [and_self, if_true, Option.some.injEq, List.cons.injEq, and_true, byte,
      Fin.ofNat, Fin.ext_iff]
    omega
  | case4 => rfl

theorem base64Decode_encode (bs : List Byte) : base64Decode (base64Encode bs) = some bs := by
  unfold base64Decode
  rw [base64Encode_filter, base64Quanta_encode]


/-! ### Integers -/

theorem leDigits_fuel (n : Nat) : ∀ f, n < f → leDigits f n = leDigits (n + 1) n := by
  induction n using Nat.strong_induction_on with
  | _ n ih =>
    intro f hf
    cases f with
    | zero => omega
    | succ f =>
      simp only [leDigits]
      by_cases h : n < 10
      · simp [h]
      · simp only [h, if_false]
        rw [ih (n / 10) (by omega) f (by omega), ih (n / 10) (by omega) n (by omega)]

theorem formatNat_lt (n : Nat) (h : n < 10) : formatNat n = [byte (0x30 + n)] := by
  simp [formatNat, leDigits, h, Nat.mod_eq_of_lt h]

theorem formatNat_ge (n : Nat) (h : ¬ n < 10) :
    formatNat n = formatNat (n / 10) ++ [byte (0x30 + n % 10)] := by
  unfold formatNat
  rw [leDigits, if_neg h, List.reverse_cons, leDigits_fuel (n / 10) n (by omega)]

theorem digit_isDigit (d : Nat) (h : d < 10) : isDigit (byte (0x30 + d)) = true := by
  simp only [isDigit, byte, Fin.ofNat, decide_eq_true_eq]
  omega

theorem digit_val (d : Nat) (h : d < 10) : (byte (0x30 + d)).val - 0x30 = d := by
  simp only [byte, Fin.ofNat]
  omega

theorem formatNat_digits (n : Nat) : (formatNat n).all isDigit = true := by
  induction n using Nat.strong_induction_on with
  | _ n ih =>
    by_cases h : n < 10
    · rw [formatNat_lt n h]; simp [digit_isDigit n h]
    · rw [formatNat_ge n h, List.all_append, ih (n / 10) (by omega)]
      simp [digit_isDigit (n % 10) (by omega)]

theorem formatNat_ne_nil (n : Nat) : formatNat n ≠ [] := by
  by_cases h : n < 10
  · rw [formatNat_lt n h]; simp
  · rw [formatNat_ge n h]; simp

theorem digitsVal_append (a : List Byte) (d : Byte) :
    digitsVal (a ++ [d]) = digitsVal a * 10 + (d.val - 0x30) := by
  simp [digitsVal, List.foldl_append]

theorem digitsVal_formatNat (n : Nat) : digitsVal (formatNat n) = n := by
  induction n using Nat.strong_induction_on with
  | _ n ih =>
    by_cases h : n < 10
    · rw [formatNat_lt n h]
      simp only [digitsVal, List.foldl_cons, List.foldl_nil, Nat.zero_mul, Nat.zero_add]
      exact digit_val n h
    · rw [formatNat_ge n h, digitsVal_append, ih (n / 10) (by omega), digit_val _ (by omega)]
      omega

theorem parseNat_formatNat (n : Nat) : parseNat (formatNat n) = some n := by
  unfold parseNat
  rw [if_pos ⟨formatNat_ne_nil n, formatNat_digits n⟩]
  exact congrArg some (digitsVal_formatNat n)

/-- The first digit of a positive number is not `0`. -/
theorem formatNat_head (n : Nat) (hn : 0 < n) :
    ∃ d ds, formatNat n = d :: ds ∧ isDigit d = true ∧ d ≠ 0x30 ∧ ds.all isDigit = true := by
  induction n using Nat.strong_induction_on with
  | _ n ih =>
    by_cases h : n < 10
    · refine ⟨byte (0x30 + n), [], formatNat_lt n h, digit_isDigit n h, ?_, rfl⟩
      intro e
      have := congrArg Fin.val e
      simp only [byte, Fin.ofNat] at this
      have h48 : ((0x30 : Byte) : Nat) = 48 := rfl
      omega
    · obtain ⟨d, ds, hd, h1, h2, h3⟩ := ih (n / 10) (by omega) (by omega)
      refine ⟨d, ds ++ [byte (0x30 + n % 10)], ?_, h1, h2, ?_⟩
      · rw [formatNat_ge n h, hd]; rfl
      · rw [List.all_append, h3]; simp [digit_isDigit (n % 10) (by omega)]

theorem numRun_int_digits (ds : List Byte) (h : ds.all isDigit = true) :
    numRun .int ds = some .int := by
  induction ds with
  | nil => rfl
  | cons c r ih =>
    simp only [List.all_cons, Bool.and_eq_true] at h
    simp only [numRun, numStep, h.1, if_true]
    exact ih h.2

theorem numOK_formatNat (n : Nat) : numOK (formatNat n) = true := by
  by_cases hn : n = 0
  · subst hn; decide
  · obtain ⟨d, ds, hd, h1, h2, h3⟩ := formatNat_head n (by omega)
    rw [hd]
    have hm : d ≠ 0x2D := by
      intro e; rw [e] at h1; revert h1; decide
    simp only [numOK, hm, h2, h1, if_false, if_true, numRun_int_digits ds h3]
    rfl

theorem numOK_formatInt (n : Int) : numOK (formatInt n) = true := by
  unfold formatInt
  by_cases hn : n < 0
  · rw [if_pos hn]
    obtain ⟨d, ds, hd, h1, h2, h3⟩ := formatNat_head n.natAbs (by omega)
    rw [hd]
    simp only [numOK, if_true, numRun, numStep, h2, h1, if_false, numRun_int_digits ds h3]
    rfl
  · rw [if_neg hn]; exact numOK_formatNat _

theorem parseInt64_formatNat (n : Nat) (h : n < 2 ^ 63) :
    parseInt64 (formatInt (n : Int)) = some (n : Int) := by
  have hn : ¬ ((n : Int) < 0) := by omega
  unfold formatInt
  rw [if_neg hn, Int.natAbs_ofNat]
  obtain ⟨d, ds, hd, h1, -⟩ : ∃ d ds, formatNat n = d :: ds ∧ d ≠ 0x2D ∧ True := by
    have hne := formatNat_ne_nil n
    have hdg := formatNat_digits n
    cases hf : formatNat n with
    | nil => exact absurd hf hne
    | cons d ds =>
      rw [hf] at hdg
      simp only [List.all_cons, Bool.and_eq_true] at hdg
      refine ⟨d, ds, rfl, ?_, trivial⟩
      intro e; rw [e] at hdg; exact absurd hdg.1 (by decide)
  have hp := parseNat_formatNat n
  rw [hd] at hp
  rw [hd]
  unfold parseInt64
  split
  · rename_i ds' heq
    simp only [List.cons.injEq] at heq
    exact absurd heq.1 h1
  · simp only [hp, h, if_true]


/-! ### Times -/

theorem formatNat_length (n : Nat) : ∀ k, 1 ≤ k → n < 10 ^ k → (formatNat n).length ≤ k := by
  induction n using Nat.strong_induction_on with
  | _ n ih =>
    intro k hk hn
    by_cases h : n < 10
    · rw [formatNat_lt n h]; simpa using hk
    · rw [formatNat_ge n h, List.length_append, List.length_singleton]
      cases k with
      | zero => omega
      | succ k =>
        have hk1 : 1 ≤ k := by
          rcases Nat.eq_zero_or_pos k with rfl | hp
          · simp at hn; omega
          · exact hp
        have : n / 10 < 10 ^ k := by
          rw [Nat.pow_succ] at hn
          omega
        have := ih (n / 10) (by omega) k hk1 this
        omega

theorem digitsVal_replicate_zero (m : Nat) (ds : List Byte) :
    digitsVal (List.replicate m 0x30 ++ ds) = digitsVal ds := by
  induction m with
  | zero => rfl
  | succ m ih =>
    rw [List.replicate_succ, List.cons_append]
    simp only [digitsVal, List.foldl_cons] at ih ⊢
    simpa using ih

theorem padNat_spec (w n : Nat) (hw : 1 ≤ w) (h : n < 10 ^ w) :
    (padNat w n).length = w ∧ (padNat w n).all isDigit = true ∧ digitsVal (padNat w n) = n := by
  have hl := formatNat_length n w hw h
  refine ⟨?_, ?_, ?_⟩
  · simp only [padNat, List.length_append, List.length_replicate]; omega
  · simp only [padNat, List.all_append, formatNat_digits, Bool.and_true]
    rw [List.all_eq_true]
    intro x hx
    rw [List.eq_of_mem_replicate hx]
    decide
  · simp only [padNat]
    rw [digitsVal_replicate_zero, digitsVal_formatNat]

theorem takeDigits_pad (w n : Nat) (rest : List Byte) (hw : 1 ≤ w) (h : n < 10 ^ w) :
    takeDigits w (padNat w n ++ rest) = some (n, rest) := by
  obtain ⟨hl, hd, hv⟩ := padNat_spec w n hw h
  unfold takeDigits
  have ht : (padNat w n ++ rest).take w = padNat w n := by
    have := List.take_left (padNat w n) rest
    rwa [hl] at this
  have hdr : (padNat w n ++ rest).drop w = rest := by
    have := List.drop_left (padNat w n) rest
    rwa [hl] at this
  rw [ht, hdr, if_pos ⟨by rw [List.length_append]; omega, hd⟩, hv]

theorem takeField_pad (w n : Nat) (sep : Byte) (rest : List Byte) (hw : 1 ≤ w)
    (h : n < 10 ^ w) : takeField w sep (padNat w n ++ sep :: rest) = some (n, rest) := by
  unfold takeField
  rw [takeDigits_pad w n _ hw h]
  simp [expectByte]

theorem takeNum12_pad (n : Nat) (rest : List Byte) (h : n < 100) :
    takeNum12 (padNat 2 n ++ rest) = some (n, rest) := by
  obtain ⟨hl, hd, hv⟩ := padNat_spec 2 n (by omega) (by simpa using h)
  match hp : padNat 2 n, hl, hd, hv with
  | [a, b], _, hd, hv =>
    simp only [List.all_cons, List.all_nil, Bool.and_true, Bool.and_eq_true] at hd
    simp only [List.cons_append, List.nil_append, takeNum12, hd.1, hd.2, if_true, hv]

theorem parseDate_format (y m d : Nat) (rest : List Byte) (hy : y < 10000) (hm : m < 100)
    (hd : d < 100) :
    parseDate (padNat 4 y ++ 0x2D :: (padNat 2 m ++ 0x2D :: (padNat 2 d ++ 0x54 :: rest))) =
      some ((y, m, d), rest) := by
  unfold parseDate
  rw [takeField_pad 4 y _ _ (by omega) (by simpa using hy)]
  simp only [Option.some_bind]
  rw [takeField_pad 2 m _ _ (by omega) (by simpa using hm)]
  simp only [Option.some_bind]
  rw [takeField_pad 2 d _ _ (by omega) (by simpa using hd)]
  rfl

theorem parseClock_format (h m s : Nat) (rest : List Byte) (hh : h < 100) (hm : m < 100)
    (hs : s < 100) :
    parseClock (padNat 2 h ++ 0x3A :: (padNat 2 m ++ 0x3A :: (padNat 2 s ++ rest))) =
      some ((h, m, s), rest) := by
  unfold parseClock
  rw [takeNum12_pad h _ hh]
  simp only [Option.some_bind, expectByte, if_true]
  rw [takeField_pad 2 m _ _ (by omega) (by simpa using hm)]
  simp only [Option.some_bind]
  rw [takeDigits_pad 2 s _ (by omega) (by simpa using hs)]
  rfl



theorem trimZeros_spec (D : List Byte) :
    ∃ k, D = trimZeros D ++ List.replicate k 0x30 := by
  have h := List.takeWhile_append_dropWhile (fun x : Byte => decide (x = 0x30)) D.reverse
  have hz : ∀ x ∈ (D.reverse.takeWhile (fun x : Byte => decide (x = 0x30))), x = 0x30 := by
    intro x hx
    simpa using List.mem_takeWhile_imp hx
  refine ⟨(D.reverse.takeWhile (fun x : Byte => decide (x = 0x30))).length, ?_⟩
  have hrep : (D.reverse.takeWhile (fun x : Byte => decide (x = 0x30))) =
      List.replicate (D.reverse.takeWhile (fun x : Byte => decide (x = 0x30))).length 0x30 :=
    List.eq_replicate_iff.2 ⟨rfl, hz⟩
  have := congrArg List.reverse h
  rw [List.reverse_append, List.reverse_reverse] at this
  have htw : (D.reverse.takeWhile (fun x : Byte => decide (x = 0x30))).reverse =
      List.replicate (D.reverse.takeWhile (fun x : Byte => decide (x = 0x30))).length 0x30 := by
    conv_lhs => rw [hrep]
    rw [List.reverse_replicate]
  unfold trimZeros
  rw [← htw]
  exact this.symm

theorem digitsVal_append_zeros (T : List Byte) (k : Nat) :
    digitsVal (T ++ List.replicate k 0x30) = digitsVal T * 10 ^ k := by
  induction k with
  | zero => simp
  | succ k ih =>
    rw [List.replicate_succ', ← List.append_assoc, digitsVal_append, ih, Nat.pow_succ]
    have : ((0x30 : Byte).val - 0x30) = 0 := rfl
    rw [this]
    ring

theorem takeWhile_digits (T Z : List Byte) (hT : T.all isDigit = true)
    (hZ : ∀ z ∈ Z.head?, isDigit z = false) :
    (T ++ Z).takeWhile isDigit = T ∧ (T ++ Z).dropWhile isDigit = Z := by
  induction T with
  | nil =>
    cases Z with
    | nil => exact ⟨rfl, rfl⟩
    | cons z Z' =>
      have := hZ z (by simp)
      simp [List.takeWhile, List.dropWhile, this]
  | cons c T ih =>
    simp only [List.all_cons, Bool.and_eq_true] at hT
    obtain ⟨h1, h2⟩ := ih hT.2
    simp [List.takeWhile, List.dropWhile, hT.1, h1, h2]

theorem takeFrac_format (nano : Nat) (z0 : Byte) (Z : List Byte) (hn : nano < 1000000000)
    (hz : isDigit z0 = false ∧ z0 ≠ 0x2E ∧ z0 ≠ 0x2C) :
    takeFrac (formatFrac nano ++ z0 :: Z) = (nano, z0 :: Z) := by
  unfold formatFrac
  by_cases h0 : nano = 0
  · subst h0
    simp only [if_true, List.nil_append]
    cases Z with
    | nil => rfl
    | cons d r =>
      simp only [takeFrac]
      rw [if_neg (by
        intro h
        rcases h.1 with e | e
        · exact hz.2.1 e
        · exact hz.2.2 e)]
  · rw [if_neg h0]
    obtain ⟨hl, hd, hv⟩ := padNat_spec 9 nano (by omega) (by simpa using hn)
    obtain ⟨k, hk⟩ := trimZeros_spec (padNat 9 nano)
    have hTd : (trimZeros (padNat 9 nano)).all isDigit = true := by
      rw [hk, List.all_append, Bool.and_eq_true] at hd
      exact hd.1
    have hval : digitsVal (trimZeros (padNat 9 nano)) * 10 ^ k = nano := by
      rw [← digitsVal_append_zeros, ← hk, hv]
    have hlen : (trimZeros (padNat 9 nano)).length + k = 9 := by
      have := congrArg List.length hk
      rw [List.length_append, List.length_replicate, hl] at this
      omega
    cases hT : trimZeros (padNat 9 nano) with
    | nil =>
      rw [hT] at hval
      simp [digitsVal] at hval
      omega
    | cons d T' =>
      rw [hT] at hTd hval hlen
      simp only [List.all_cons, Bool.and_eq_true] at hTd
      obtain ⟨htw, hdw⟩ := takeWhile_digits T' (z0 :: Z) hTd.2 (by
        intro z hz'
        simp only [List.head?_cons, Option.mem_def, Option.some.injEq] at hz'
        rw [← hz']; exact hz.1)
      simp only [List.cons_append, takeFrac, hTd.1, and_true, true_or, if_true, htw, hdw]
      have hlen' : (d :: T').length ≤ 9 := by omega
      rw [List.take_of_length_le hlen']
      congr 1
      have : 9 - (d :: T').length = k := by omega
      rw [this, hval]

theorem pad2_two (n : Nat) (h : n < 100) :
    ∃ a b, padNat 2 n = [a, b] ∧ isDigit a = true ∧ isDigit b = true ∧ digitsVal [a, b] = n := by
  obtain ⟨hl, hd, hv⟩ := padNat_spec 2 n (by omega) (by simpa using h)
  match hp : padNat 2 n, hl, hd, hv with
  | [a, b], _, hd, hv =>
    simp only [List.all_cons, List.all_nil, Bool.and_true, Bool.and_eq_true] at hd
    exact ⟨a, b, rfl, hd.1, hd.2, hv⟩

theorem parseZone_format (off : Int) (h : off.natAbs < 1440) :
    parseZone (formatZone off) = some (if off = 0 then .utc else .zone off) := by
  unfold formatZone
  by_cases h0 : off = 0
  · rw [if_pos h0, if_pos h0]; rfl
  · rw [if_neg h0, if_neg h0]
    obtain ⟨a, b, hab, ha, hb, hvab⟩ := pad2_two (off.natAbs / 60) (by omega)
    obtain ⟨c, d, hcd, hc, hd, hvcd⟩ := pad2_two (off.natAbs % 60) (by omega)
    rw [hab, hcd]
    by_cases hneg : off < 0
    · rw [if_pos hneg]
      simp only [List.cons_append, List.nil_append, parseZone, ha, hb, hc, hd, hvab, hvcd,
        true_and, and_self]
      rw [if_pos trivial]
      have hdm : off.natAbs / 60 * 60 + off.natAbs % 60 = off.natAbs := by omega
      have habs : (off.natAbs : Int) = if off < 0 then -off else off := by
        split_ifs
        omega
      rw [hdm, habs]
      simp [hneg]
      exact ⟨by omega, by omega⟩
    · rw [if_neg hneg]
      simp only [List.cons_append, List.nil_append, parseZone, ha, hb, hc, hd, hvab, hvcd,
        true_and, and_self]
      rw [if_pos trivial]
      have hdm : off.natAbs / 60 * 60 + off.natAbs % 60 = off.natAbs := by omega
      have habs : (off.natAbs : Int) = if off < 0 then -off else off := by
        split_ifs
        omega
      rw [hdm, habs]
      simp [hneg]
      exact ⟨by omega, by omega⟩

theorem formatZone_head (off : Int) :
    ∃ z0 Z, formatZone off = z0 :: Z ∧ isDigit z0 = false ∧ z0 ≠ 0x2E ∧ z0 ≠ 0x2C := by
  unfold formatZone
  by_cases h0 : off = 0
  · rw [if_pos h0]; exact ⟨_, _, rfl, by decide, by decide, by decide⟩
  · rw [if_neg h0]
    by_cases hneg : off < 0
    · rw [if_pos hneg]; exact ⟨_, _, rfl, by decide, by decide, by decide⟩
    · rw [if_neg hneg]; exact ⟨_, _, rfl, by decide, by decide, by decide⟩



theorem digits_plain (l : List Byte) (h : l.all isDigit = true) : l.all plain = true := by
  rw [List.all_eq_true] at h ⊢
  intro x hx
  have hp : ∀ c : Byte, isDigit c = true → plain c = true := by decide!
  exact hp x (h x hx)

theorem padNat_plain (w n : Nat) : (padNat w n).all plain = true := by
  apply digits_plain
  simp only [padNat, List.all_append, formatNat_digits, Bool.and_true]
  rw [List.all_eq_true]
  intro x hx
  rw [List.eq_of_mem_replicate hx]
  decide

theorem formatFrac_plain (nano : Nat) : (formatFrac nano).all plain = true := by
  unfold formatFrac
  split_ifs
  · rfl
  · obtain ⟨k, hk⟩ := trimZeros_spec (padNat 9 nano)
    have := padNat_plain 9 nano
    rw [hk, List.all_append, Bool.and_eq_true] at this
    simp only [List.all_cons, this.1, Bool.and_true]
    decide

theorem formatZone_plain (off : Int) : (formatZone off).all plain = true := by
  unfold formatZone
  split_ifs
  · decide
  · simp only [List.all_cons, List.all_append, padNat_plain, Bool.and_true, Bool.true_and]
    decide
  · simp only [List.all_cons, List.all_append, padNat_plain, Bool.and_true, Bool.true_and]
    decide

theorem formatRFC3339_plain (t : Time) (text : List Byte) (h : t.formatRFC3339 = some text) :
    text.all plain = true := by
  unfold Time.formatRFC3339 at h
  split_ifs at h
  simp only [Option.some.injEq] at h
  rw [← h]
  simp only [List.all_cons, List.all_append, padNat_plain, formatFrac_plain, formatZone_plain,
    Bool.and_true, Bool.true_and]
  decide

/-- Parsing the text of a time whose calendar and clock fields are in range gives the time
back, in the UTC location when its offset is zero. -/
theorem parseTime_format (t : Time) (text : List Byte)
    (hv : 1 ≤ t.month ∧ t.month ≤ 12 ∧ 1 ≤ t.day ∧ t.day ≤ daysIn t.month t.year ∧ t.hour < 24 ∧
      t.minute < 60 ∧ t.second < 60 ∧ t.nano < 1000000000)
    (h : t.formatRFC3339 = some text) :
    parseTime text = some ⟨t.year, t.month, t.day, t.hour, t.minute, t.second, t.nano,
      if t.offsetMin = 0 then .utc else .zone t.offsetMin⟩ := by
  obtain ⟨hm1, hm2, hd1, hd2, hh, hmi, hs, hn⟩ := hv
  unfold Time.formatRFC3339 at h
  split_ifs at h with hy hoff
  simp only [Option.some.injEq] at h
  have hy' : t.year.toNat < 10000 := by omega
  have hyc : (t.year.toNat : Int) = t.year := by omega
  have hday : t.day < 100 := by
    have : daysIn t.month t.year ≤ 31 := by
      unfold daysIn; split_ifs <;> omega
    omega
  obtain ⟨z0, Z, hz, hzd⟩ := formatZone_head t.offsetMin
  have htext : text = padNat 4 t.year.toNat ++ 0x2D :: (padNat 2 t.month ++ 0x2D ::
      (padNat 2 t.day ++ 0x54 :: (padNat 2 t.hour ++ 0x3A :: (padNat 2 t.minute ++ 0x3A ::
      (padNat 2 t.second ++ (formatFrac t.nano ++ formatZone t.offsetMin)))))) := by
    rw [← h]; simp only [List.cons_append, List.append_assoc]
  rw [htext]
  unfold parseTime
  rw [parseDate_format _ _ _ _ hy' (by omega) hday]
  simp only [Option.some_bind]
  rw [parseClock_format _ _ _ _ (by omega) (by omega) (by omega)]
  simp only [Option.some_bind]
  rw [hz, takeFrac_format t.nano z0 Z hn hzd, ← hz, parseZone_format t.offsetMin (by omega)]
  simp only [Option.some_bind, hyc]
  rw [if_pos ⟨hm1, hm2, hd1, hd2, hh, hmi, hs⟩]

theorem parseTime_timeNow (w : Wall) (text : List Byte)
    (h : (timeNow w).formatRFC3339 = some text) :
    ∃ u, parseTime text = some u ∧ u.Equal (timeNow w) := by
  refine ⟨_, parseTime_format (timeNow w) text w.valid h, ?_⟩
  unfold Time.Equal Time.unixNano Time.offsetMin timeNow
  simp only []
  split_ifs with h0
  · simp [h0]
  · rfl

theorem wf_obj (ms : List (List Byte × JVal)) : (JVal.obj ms).wf = wfMembers ms := by
  rw [JVal.wf]

theorem wf_arr (xs : List JVal) : (JVal.arr xs).wf = wfElems xs := by
  rw [JVal.wf]

theorem wf_str (raw : List Byte) : (JVal.str raw).wf = strOK .normal raw := by
  rw [JVal.wf]

theorem wf_num (raw : List Byte) : (JVal.num raw).wf = numOK raw := by
  rw [JVal.wf]

theorem wfMembers_cons (k : List Byte) (v : JVal) (ms : List (List Byte × JVal)) :
    wfMembers ((k, v) :: ms) = (strOK .normal k && v.wf && wfMembers ms) := by
  rw [wfMembers]

theorem wfElems_cons (x : JVal) (xs : List JVal) :
    wfElems (x :: xs) = (x.wf && wfElems xs) := by
  rw [wfElems]

theorem depth_obj (ms : List (List Byte × JVal)) :
    (JVal.obj ms).depth = depthMembers ms + 1 := by
  rw [JVal.depth]

theorem depth_arr (xs : List JVal) : (JVal.arr xs).depth = depthElems xs + 1 := by
  rw [JVal.depth]

theorem depth_str (raw : List Byte) : (JVal.str raw).depth = 0 := by
  rw [JVal.depth] <;> simp

theorem depth_num (raw : List Byte) : (JVal.num raw).depth = 0 := by
  rw [JVal.depth] <;> simp

theorem depth_null : JVal.null.depth = 0 := by
  rw [JVal.depth] <;> simp

theorem depthMembers_cons (k : List Byte) (v : JVal) (ms : List (List Byte × JVal)) :
    depthMembers ((k, v) :: ms) = max v.depth (depthMembers ms) := by
  rw [depthMembers]

theorem depthElems_cons (x : JVal) (xs : List JVal) :
    depthElems (x :: xs) = max x.depth (depthElems xs) := by
  rw [depthElems]

theorem wf_stringJSON (s : GoString) : (stringJSON s).wf = true := by
  rw [stringJSON, wf_str]; exact strOK_escapeAux s

theorem depth_stringJSON (s : GoString) : (stringJSON s).depth = 0 := by
  rw [stringJSON, depth_str]

theorem wfElems_map_string (xs : List GoString) : wfElems (xs.map stringJSON) = true := by
  induction xs with
  | nil => rfl
  | cons x xs ih => simp only [List.map_cons, wfElems_cons, wf_stringJSON, ih, Bool.and_self]

theorem depthElems_map_string (xs : List GoString) : depthElems (xs.map stringJSON) = 0 := by
  induction xs with
  | nil => rfl
  | cons x xs ih => simp only [List.map_cons, depthElems_cons, depth_stringJSON, ih, Nat.max_self]

theorem wf_stringsJSON (s : Slice GoString) : (stringsJSON s).wf = true := by
  cases s with
  | none => rfl
  | some xs => simp only [stringsJSON, wf_arr, wfElems_map_string]

theorem depth_stringsJSON (s : Slice GoString) : (stringsJSON s).depth ≤ 1 := by
  cases s with
  | none => simp [stringsJSON, depth_null]
  | some xs => simp only [stringsJSON, depth_arr, depthElems_map_string]; omega

theorem wf_bytesJSON (h : Slice Byte) : (bytesJSON h).wf = true := by
  cases h with
  | none => rfl
  | some bs =>
    simp only [bytesJSON, wf_str]
    exact strOK_plain _ (base64Encode_plain bs)

theorem depth_bytesJSON (h : Slice Byte) : (bytesJSON h).depth = 0 := by
  cases h <;> simp [bytesJSON, depth_null, depth_str]

theorem wf_fileJSON (f : rkyvFile) : f.toJSON.wf = true := by
  have k1 : strOK .normal (ascii "name") = true := by decide
  have k2 : strOK .normal (ascii "type") = true := by decide
  have k3 : strOK .normal (ascii "size") = true := by decide
  have k4 : strOK .normal (ascii "hash") = true := by decide
  have e : wfMembers ([] : List (List Byte × JVal)) = true := rfl
  simp only [rkyvFile.toJSON, wf_obj, wfMembers_cons, wf_num, k1, k2, k3, k4, wf_stringJSON,
    wf_bytesJSON, numOK_formatInt, Bool.and_self, e]

theorem depth_fileJSON (f : rkyvFile) : f.toJSON.depth = 1 := by
  have e : depthMembers ([] : List (List Byte × JVal)) = 0 := rfl
  simp [rkyvFile.toJSON, depth_obj, depthMembers_cons, depth_num, depth_stringJSON,
    depth_bytesJSON, e]

theorem wf_filePtrJSON (o : Option rkyvFile) : (filePtrJSON o).wf = true := by
  cases o with
  | none => rfl
  | some f => exact wf_fileJSON f

theorem depth_filePtrJSON (o : Option rkyvFile) : (filePtrJSON o).depth ≤ 1 := by
  cases o with
  | none => simp [filePtrJSON, depth_null]
  | some f => simp [filePtrJSON, depth_fileJSON]

theorem wfElems_map_file (fs : List (Option rkyvFile)) :
    wfElems (fs.map filePtrJSON) = true := by
  induction fs with
  | nil => rfl
  | cons x xs ih => simp only [List.map_cons, wfElems_cons, wf_filePtrJSON, ih, Bool.and_self]

theorem depthElems_map_file (fs : List (Option rkyvFile)) :
    depthElems (fs.map filePtrJSON) ≤ 1 := by
  induction fs with
  | nil => simp [depthElems]
  | cons x xs ih =>
    simp only [List.map_cons, depthElems_cons]
    exact Nat.max_le.2 ⟨depth_filePtrJSON x, ih⟩

theorem wf_filesJSON (s : Slice (Option rkyvFile)) : (filesJSON s).wf = true := by
  cases s with
  | none => rfl
  | some fs => simp only [filesJSON, wf_arr, wfElems_map_file]

theorem depth_filesJSON (s : Slice (Option rkyvFile)) : (filesJSON s).depth ≤ 2 := by
  cases s with
  | none => simp [filesJSON, depth_null]
  | some fs =>
    simp only [filesJSON, depth_arr]
    have := depthElems_map_file fs
    omega

/-- The value the encoder writes for an archive is well formed and three levels deep at
most. -/
theorem toJSON_wf (r : Rkyv) (j : JVal) (h : r.toJSON = some j) :
    j.wf = true ∧ j.depth ≤ maxNestingDepth := by
  unfold Rkyv.toJSON at h
  cases hc : r.DateCreated.formatRFC3339 with
  | none => simp [hc] at h
  | some c =>
    cases hu : r.DateUpdated.formatRFC3339 with
    | none => simp [hc, hu] at h
    | some u =>
      simp only [hc, hu, Option.some.injEq] at h
      subst h
      have k1 : strOK .normal (ascii "version") = true := by decide
      have k2 : strOK .normal (ascii "uuid") = true := by decide
      have k3 : strOK .normal (ascii "date_created") = true := by decide
      have k4 : strOK .normal (ascii "date_updated") = true := by decide
      have k5 : strOK .normal (ascii "files") = true := by decide
      have k6 : strOK .normal (ascii "tags") = true := by decide
      have k7 : strOK .normal (ascii "search") = true := by decide
      have c1 := strOK_plain c (formatRFC3339_plain _ _ hc)
      have u1 := strOK_plain u (formatRFC3339_plain _ _ hu)
      constructor
      · have e : wfMembers ([] : List (List Byte × JVal)) = true := rfl
        simp only [wf_obj, wfMembers_cons, wf_str, k1, k2, k3, k4, k5, k6, k7, wf_stringJSON,
          wf_stringsJSON, wf_filesJSON, c1, u1, Bool.and_self, e]
      · have d1 := depth_filesJSON r.Files
        have d2 := depth_stringsJSON r.Tags
        have d3 := depth_stringsJSON r.SearchTerms
        have e : depthMembers ([] : List (List Byte × JVal)) = 0 := rfl
        simp only [depth_obj, depthMembers_cons, depth_str, depth_stringJSON, maxNestingDepth, e]
        omega

/-- What `json.Marshal` writes for an archive is a JSON text, and it denotes the archive's
value tree. -/
theorem parseJSON_jsonMarshal (r : Rkyv) (data : List Byte) (h : jsonMarshal r = some data) :
    ∃ j, r.toJSON = some j ∧ data = j.render ∧ parseJSON data = some j := by
  unfold jsonMarshal at h
  cases hj : r.toJSON with
  | none => simp [hj] at h
  | some j =>
    simp only [hj, Option.map_some', Option.some.injEq] at h
    obtain ⟨hw, hd⟩ := toJSON_wf r j hj
    exact ⟨j, rfl, h.symm, by rw [← h]; exact parseJSON_render j hw hd⟩

theorem decString_stringJSON (cur s : GoString) (h : validUTF8 s = true) :
    decString cur (stringJSON s) = some s := by
  rw [stringJSON, decString]; exact unquote_escape s h

theorem decElems_strings (xs : List GoString) (h : ∀ x ∈ xs, validUTF8 x = true) :
    ∀ cur : List GoString, decElems decString [] cur (xs.map stringJSON) = some xs := by
  induction xs with
  | nil => intro cur; rfl
  | cons x xs ih =>
    intro cur
    rw [List.map_cons, decElems,
      decString_stringJSON _ x (h x (List.mem_cons_self _ _)),
      ih (fun y hy => h y (List.mem_cons_of_mem _ hy))]
    rfl

theorem decSlice_strings (cur t : Slice GoString) (h : ∀ x ∈ t.elems, validUTF8 x = true) :
    decSlice decString [] cur (stringsJSON t) = some t := by
  cases t with
  | none => rfl
  | some xs =>
    rw [stringsJSON, decSlice, decElems_strings xs (by simpa [Slice.elems] using h)]
    rfl

theorem decBytes_bytesJSON (cur h : Slice Byte) : decBytes cur (bytesJSON h) = some h := by
  cases h with
  | none => rfl
  | some bs =>
    rw [bytesJSON, decBytes, unquote, unquoteAux_all_plain _ (base64Encode_plain bs)]
    simp [base64Decode_encode]

theorem decInt_formatInt (cur : Int) (n : Int) (h0 : 0 ≤ n) (h1 : n < 2 ^ 63) :
    decInt cur (.num (formatInt n)) = some n := by
  rw [decInt]
  have := parseInt64_formatNat n.toNat (by omega)
  rwa [Int.toNat_of_nonneg h0] at this

theorem decTime_str (cur : Time) (raw : List Byte) : decTime cur (.str raw) = parseTime raw := by
  rw [decTime]

theorem decFile_toJSON (cur : Option rkyvFile) (f : rkyvFile) (hn : validUTF8 f.Name = true)
    (ht : validUTF8 f.Type_ = true) (h0 : 0 ≤ f.Size) (h1 : f.Size < 2 ^ 63) :
    decFilePtr cur f.toJSON = some (some { f with data := (cur.getD rkyvFile.zero).data }) := by
  have u1 : unquote (ascii "name") = some (ascii "name") := by decide
  have u2 : unquote (ascii "type") = some (ascii "type") := by decide
  have u3 : unquote (ascii "size") = some (ascii "size") := by decide
  have u4 : unquote (ascii "hash") = some (ascii "hash") := by decide
  have a1 : keyIs (ascii "name") "NAME" = true := by decide
  have b1 : keyIs (ascii "type") "NAME" = false := by decide
  have b2 : keyIs (ascii "type") "TYPE" = true := by decide
  have c1 : keyIs (ascii "size") "NAME" = false := by decide
  have c2 : keyIs (ascii "size") "TYPE" = false := by decide
  have c3 : keyIs (ascii "size") "SIZE" = true := by decide
  have d1 : keyIs (ascii "hash") "NAME" = false := by decide
  have d2 : keyIs (ascii "hash") "TYPE" = false := by decide
  have d3 : keyIs (ascii "hash") "SIZE" = false := by decide
  have d4 : keyIs (ascii "hash") "HASH" = true := by decide
  rw [rkyvFile.toJSON, decFilePtr]
  simp only [decFileMembers, u1, u2, u3, u4, a1, b1, b2, c1, c2, c3, d1, d2,
    d3, d4, if_true, Bool.false_eq_true, if_false, decString_stringJSON _ _ hn,
    decString_stringJSON _ _ ht, decInt_formatInt _ _ h0 h1, decBytes_bytesJSON,
    Option.some_bind, Option.map_some']

/-- What the encoder and decoder need of an entry to carry it over unchanged. -/
theorem decFilePtr_filePtrJSON (o : Option rkyvFile)
    (h : ∀ f, o = some f → validUTF8 f.Name = true ∧ validUTF8 f.Type_ = true ∧ 0 ≤ f.Size ∧
      f.Size < 2 ^ 63) :
    decFilePtr none (filePtrJSON o) = some (o.map rkyvFile.stripped) := by
  cases o with
  | none => rfl
  | some f =>
    obtain ⟨hn, ht, h0, h1⟩ := h f rfl
    rw [filePtrJSON, decFile_toJSON none f hn ht h0 h1]
    rfl

theorem decElems_files (fs : List (Option rkyvFile))
    (h : ∀ o ∈ fs, ∀ f, o = some f → validUTF8 f.Name = true ∧ validUTF8 f.Type_ = true ∧
      0 ≤ f.Size ∧ f.Size < 2 ^ 63) :
    decElems decFilePtr none [] (fs.map filePtrJSON) =
      some (fs.map fun o => o.map rkyvFile.stripped) := by
  induction fs with
  | nil => rfl
  | cons x xs ih =>
    rw [List.map_cons, decElems]
    simp only [List.headD_nil, List.tail_nil]
    rw [decFilePtr_filePtrJSON x (h x (List.mem_cons_self _ _)),
      ih (fun y hy => h y (List.mem_cons_of_mem _ hy))]
    rfl

theorem decSlice_files (fs : Slice (Option rkyvFile))
    (h : ∀ o ∈ fs.elems, ∀ f, o = some f → validUTF8 f.Name = true ∧ validUTF8 f.Type_ = true ∧
      0 ≤ f.Size ∧ f.Size < 2 ^ 63) :
    decSlice decFilePtr none none (filesJSON fs) =
      some (fs.map fun l => l.map fun o => o.map rkyvFile.stripped) := by
  cases fs with
  | none => rfl
  | some l =>
    rw [filesJSON, decSlice]
    simp only [Slice.elems]
    rw [decElems_files l (by simpa [Slice.elems] using h)]
    rfl

theorem decRkyv_toJSON (r : Rkyv) (j : JVal) (tc tu : Time) (c u : List Byte)
    (hc : r.DateCreated.formatRFC3339 = some c) (hu : r.DateUpdated.formatRFC3339 = some u)
    (hpc : parseTime c = some tc) (hpu : parseTime u = some tu)
    (hv : validUTF8 r.Version = true) (hi : validUTF8 r.UUID = true)
    (hf : ∀ o ∈ r.Files.elems, ∀ f, o = some f → validUTF8 f.Name = true ∧
      validUTF8 f.Type_ = true ∧ 0 ≤ f.Size ∧ f.Size < 2 ^ 63)
    (ht : ∀ x ∈ r.Tags.elems, validUTF8 x = true)
    (hs : ∀ x ∈ r.SearchTerms.elems, validUTF8 x = true)
    (h : r.toJSON = some j) :
    decRkyv Rkyv.zero j =
      some { r.stripped with DateCreated := tc, DateUpdated := tu } := by
  have u1 : unquote (ascii "version") = some (ascii "version") := by decide
  have u2 : unquote (ascii "uuid") = some (ascii "uuid") := by decide
  have u3 : unquote (ascii "date_created") = some (ascii "date_created") := by decide
  have u4 : unquote (ascii "date_updated") = some (ascii "date_updated") := by decide
  have u5 : unquote (ascii "files") = some (ascii "files") := by decide
  have u6 : unquote (ascii "tags") = some (ascii "tags") := by decide
  have u7 : unquote (ascii "search") = some (ascii "search") := by decide
  have a1 : keyIs (ascii "version") "VERSION" = true := by decide
  have b1 : keyIs (ascii "uuid") "VERSION" = false := by decide
  have b2 : keyIs (ascii "uuid") "UUID" = true := by decide
  have c1 : keyIs (ascii "date_created") "VERSION" = false := by decide
  have c2 : keyIs (ascii "date_created") "UUID" = false := by decide
  have c3 : keyIs (ascii "date_created") "DATE_CREATED" = true := by decide
  have d1 : keyIs (ascii "date_updated") "VERSION" = false := by decide
  have d2 : keyIs (ascii "date_updated") "UUID" = false := by decide
  have d3 : keyIs (ascii "date_updated") "DATE_CREATED" = false := by decide
  have d4 : keyIs (ascii "date_updated") "DATE_UPDATED" = true := by decide
  have e1 : keyIs (ascii "files") "VERSION" = false := by decide
  have e2 : keyIs (ascii "files") "UUID" = false := by decide
  have e3 : keyIs (ascii "files") "DATE_CREATED" = false := by decide
  have e4 : keyIs (ascii "files") "DATE_UPDATED" = false := by decide
  have e5 : keyIs (ascii "files") "FILES" = true := by decide
  have f1 : keyIs (ascii "tags") "VERSION" = false := by decide
  have f2 : keyIs (ascii "tags") "UUID" = false := by decide
  have f3 : keyIs (ascii "tags") "DATE_CREATED" = false := by decide
  have f4 : keyIs (ascii "tags") "DATE_UPDATED" = false := by decide
  have f5 : keyIs (ascii "tags") "FILES" = false := by decide
  have f6 : keyIs (ascii "tags") "TAGS" = true := by decide
  have g1 : keyIs (ascii "search") "VERSION" = false := by decide
  have g2 : keyIs (ascii "search") "UUID" = false := by decide
  have g3 : keyIs (ascii "search") "DATE_CREATED" = false := by decide
  have g4 : keyIs (ascii "search") "DATE_UPDATED" = false := by decide
  have g5 : keyIs (ascii "search") "FILES" = false := by decide
  have g6 : keyIs (ascii "search") "TAGS" = false := by decide
  have g7 : keyIs (ascii "search") "SEARCH" = true := by decide
  have z : Rkyv.zero.Files = none := rfl
  unfold Rkyv.toJSON at h
  rw [hc, hu] at h
  simp only [Option.some.injEq] at h
  subst h
  rw [decRkyv]
  rw [decRkyvMembers]
  simp only [u1, a1, if_true, decString_stringJSON _ _ hv, Option.some_bind]
  rw [decRkyvMembers]
  simp only [u2, b1, b2, if_true, Bool.false_eq_true, if_false, decString_stringJSON _ _ hi,
    Option.some_bind]
  rw [decRkyvMembers]
  simp only [u3, c1, c2, c3, if_true, Bool.false_eq_true, if_false, decTime_str, hpc,
    Option.some_bind]
  rw [decRkyvMembers]
  simp only [u4, d1, d2, d3, d4, if_true, Bool.false_eq_true, if_false, decTime_str, hpu,
    Option.some_bind]
  rw [decRkyvMembers]
  simp only [u5, e1, e2, e3, e4, e5, if_true, Bool.false_eq_true, if_false, z,
    decSlice_files _ hf, Option.some_bind]
  rw [decRkyvMembers]
  simp only [u6, f1, f2, f3, f4, f5, f6, if_true, Bool.false_eq_true, if_false,
    decSlice_strings _ _ ht, Option.some_bind]
  rw [decRkyvMembers]
  simp only [u7, g1, g2, g3, g4, g5, g6, g7, if_true, Bool.false_eq_true, if_false,
    decSlice_strings _ _ hs, Option.some_bind]
  rw [decRkyvMembers]
  rfl

theorem validUTF8Aux_ascii (s : List Byte) (h : ∀ b ∈ s, b.val < 0x80) :
    validUTF8Aux 0 s = true := by
  induction s with
  | nil => rfl
  | cons b rest ih =>
    have hb := h b (List.mem_cons_self _ _)
    rw [validUTF8Aux]
    simp only [decodeRune, hb, if_true]
    exact ih (fun c hc => h c (List.mem_cons_of_mem _ hc))

theorem validUTF8_ascii (s : List Byte) (h : ∀ b ∈ s, b.val < 0x80) : validUTF8 s = true :=
  validUTF8Aux_ascii s h

theorem matches_ct (sig : sniffSig) (d t : List Byte) (ct : GoString)
    (h : sig.matches d t = some ct) : ct = sig.ct := by
  cases sig with
  | html tag =>
    simp only [sniffSig.matches] at h
    split_ifs at h
    simp only [Option.some.injEq] at h
    rw [← h]; rfl
  | masked mask pat skipWS c =>
    simp only [sniffSig.matches] at h
    split_ifs at h <;> simp only [Option.some.injEq] at h <;> rw [← h] <;> rfl
  | exact s c =>
    simp only [sniffSig.matches] at h
    split_ifs at h
    simp only [Option.some.injEq] at h
    rw [← h]; rfl
  | mp4 =>
    simp only [sniffSig.matches] at h
    split_ifs at h
    simp only [Option.some.injEq] at h
    rw [← h]; rfl
  | text =>
    simp only [sniffSig.matches] at h
    split_ifs at h
    simp only [Option.some.injEq] at h
    rw [← h]; rfl

theorem sniffSignatures_ascii : ∀ sig ∈ sniffSignatures, ∀ b ∈ sig.ct, b.val < 0x80 := by
  have h : (sniffSignatures.all fun sig => sig.ct.all fun b => decide (b.val < 0x80)) = true := by
    decide
  intro sig hsig b hb
  have h1 := List.all_eq_true.1 h sig hsig
  exact of_decide_eq_true (List.all_eq_true.1 h1 b hb)

theorem DetectContentType_ascii (data : List Byte) :
    ∀ b ∈ DetectContentType data, b.val < 0x80 := by
  have key : ∀ o : Option GoString, (∀ ct, o = some ct → ∀ b ∈ ct, b.val < 0x80) →
      ∀ b ∈ o.getD (ascii "application/octet-stream"), b.val < 0x80 := by
    intro o ho
    cases o with
    | none =>
      rw [Option.getD_none]
      have h : ((ascii "application/octet-stream").all fun b => decide (b.val < 0x80)) = true := by
        decide
      intro b hb
      exact of_decide_eq_true (List.all_eq_true.1 h b hb)
    | some ct =>
      rw [Option.getD_some]
      exact ho ct rfl
  unfold DetectContentType
  apply key
  intro ct hf
  obtain ⟨sig, hsig, hm⟩ := List.exists_of_findSome?_eq_some hf
  rw [matches_ct sig _ _ ct hm]
  exact sniffSignatures_ascii sig hsig

theorem validUTF8_DetectContentType (data : List Byte) :
    validUTF8 (DetectContentType data) = true :=
  validUTF8_ascii _ (DetectContentType_ascii data)

theorem hexDigit_ascii (n : Nat) (h : n < 16) : (hexDigit n).val < 0x80 := by
  unfold hexDigit
  split_ifs <;> simp only [byte, Fin.ofNat] <;> omega

theorem hexBytes_ascii (bs : List Byte) : ∀ b ∈ hexBytes bs, b.val < 0x80 := by
  intro b hb
  simp only [hexBytes, List.mem_flatMap, List.mem_cons, List.mem_singleton, List.not_mem_nil,
    or_false] at hb
  have := fun a : Byte => a.isLt
  obtain ⟨a, _, h | h⟩ := hb <;> rw [h] <;> apply hexDigit_ascii <;> have := a.isLt <;> omega

theorem uuidString_ascii (u : List Byte) : ∀ b ∈ uuidString u, b.val < 0x80 := by
  intro b hb
  simp only [uuidString, List.mem_append, List.mem_cons, or_assoc] at hb
  have hd : ((0x2D : Byte) : Nat) < 0x80 := by decide
  rcases hb with h | h | h | h | h | h | h | h | h <;>
    first
    | exact hexBytes_ascii _ b h
    | (rw [h]; exact hd)

/-- A successful `Flush` of an archive built by `AddFile` calls: the file it leaves. -/
theorem built_flush_shape (env : Env) (d : Disk) (tags terms : Slice GoString)
    (items : List (GoString × List Byte))
    (hok : ((addFiles (newArchive tags terms) items).Flush env d).outcome = .ok) :
    ∃ meta, jsonMarshal ((addFiles (newArchive tags terms) items).prepMeta env) = some meta ∧
      ((addFiles (newArchive tags terms) items).Flush env d).disk =
        d.store ((addFiles (newArchive tags terms) items).prepMeta env).Filename
          (MAGIC ++ PutUint64 (items.flatMap (·.2)).length ++ items.flatMap (·.2) ++ meta) ∧
      12 + (items.flatMap (·.2)).length + meta.length ≤ maxOffset := by
  obtain ⟨ptr, meta, hptr, hmeta, hdisk, hlen, hall⟩ := Flush_ok env d _ hok
  rw [built_Files_elems] at hptr hdisk hlen hall
  rw [sumSizes_of_sizes _ 0 (by norm_num) hall, payloads_entries, Nat.zero_add] at hptr
  rw [payloads_entries] at hdisk hlen
  have hlim : d.limit ≤ maxOffset := by unfold Disk.limit; exact Nat.min_le_right _ _
  have hs := (container_shape MAGIC (PutUint64 ptr) (items.flatMap (·.2)) meta MAGIC_length
    (PutUint64_length _)).2.2.2
  rw [hs] at hlen
  have hm : maxOffset = 2 ^ 63 - 1 := rfl
  have hp : ptr = (items.flatMap (·.2)).length := by
    rw [Nat.mod_eq_of_lt (by omega)] at hptr; exact (Option.some.inj hptr).symm
  subst hp
  exact ⟨meta, hmeta, hdisk, by omega⟩

/-- `OpenFile` on a container whose pointer is the length of its payload section hands the
bytes after that section to `json.Unmarshal`. -/
theorem openReader_container (pl meta : List Byte) (h : 12 + pl.length ≤ maxOffset) :
    openReader (MAGIC ++ PutUint64 pl.length ++ pl ++ meta) =
      match jsonUnmarshal meta with
      | none => .error .unmarshal
      | some r => .ok r := by
  obtain ⟨h1, h2, h3, _⟩ := container_shape MAGIC (PutUint64 pl.length) pl meta MAGIC_length
    (PutUint64_length _)
  have hm : maxOffset = 2 ^ 63 - 1 := rfl
  have hu : Uint64 (PutUint64 pl.length) = pl.length := by
    rw [Uint64_PutUint64]; exact Nat.mod_eq_of_lt (by omega)
  have hi : int64 pl.length = (pl.length : Int) := by
    unfold int64; rw [if_pos (by omega)]
  have hpos : (((4 + 8 : Nat) : Int) + (pl.length : Int)).toNat = 12 + pl.length := by omega
  have hle : ¬ ((((4 + 8 : Nat) : Int) + (pl.length : Int)) < 0 ∨
      (maxOffset : Int) < ((4 + 8 : Nat) : Int) + (pl.length : Int)) := by omega
  unfold openReader
  simp only [MAGIC_length, h1, h2, PutUint64_length, hu, hi, hpos, h3, hle, if_false]
  simp

theorem built_fields (env : Env) (tags terms : Slice GoString)
    (items : List (GoString × List Byte)) :
    ((addFiles (newArchive tags terms) items).prepMeta env).Version = ascii "1.0" ∧
      ((addFiles (newArchive tags terms) items).prepMeta env).UUID =
        uuidString (NewV4 env.random) ∧
      ((addFiles (newArchive tags terms) items).prepMeta env).DateCreated =
        timeNow env.nowCreated ∧
      ((addFiles (newArchive tags terms) items).prepMeta env).DateUpdated =
        timeNow env.nowUpdated ∧
      ((addFiles (newArchive tags terms) items).prepMeta env).Tags = tags ∧
      ((addFiles (newArchive tags terms) items).prepMeta env).SearchTerms = terms := by
  obtain ⟨h1, h2, h3, _, h5, h6⟩ := addFiles_fields (newArchive tags terms) items
  refine ⟨?_, ?_, ?_, prepMeta_DateUpdated _ _, ?_, ?_⟩
  · rw [prepMeta_Version, h1]; rfl
  · rw [prepMeta_UUID, h2]; rfl
  · rw [prepMeta_DateCreated, h3]; rfl
  · rw [prepMeta_Tags, h5]; rfl
  · rw [prepMeta_SearchTerms, h6]; rfl

theorem length_le_flatMap (items : List (GoString × List Byte)) (p : GoString × List Byte)
    (hp : p ∈ items) : p.2.length ≤ (items.flatMap (·.2)).length := by
  induction items with
  | nil => cases hp
  | cons q qs ih =>
    rw [List.flatMap_cons, List.length_append]
    rcases List.mem_cons.1 hp with h | h
    · rw [h]; omega
    · have := ih h; omega

/-- The metadata record `Flush` serializes for an archive built by `AddFile` calls decodes to
that archive without its payloads, the two times read back from their text. -/
theorem built_meta_decodes (env : Env) (tags terms : Slice GoString)
    (items : List (GoString × List Byte)) (meta : List Byte)
    (hn : ∀ p ∈ items, validUTF8 p.1 = true)
    (ht : ∀ t ∈ tags.elems, validUTF8 t = true)
    (hs : ∀ t ∈ terms.elems, validUTF8 t = true)
    (hsz : (items.flatMap (·.2)).length < 2 ^ 63)
    (hmeta : jsonMarshal ((addFiles (newArchive tags terms) items).prepMeta env) = some meta) :
    ∃ tc tu, jsonUnmarshal meta =
        some { ((addFiles (newArchive tags terms) items).prepMeta env).stripped with
          DateCreated := tc, DateUpdated := tu } ∧
      tc.Equal (timeNow env.nowCreated) ∧ tu.Equal (timeNow env.nowUpdated) := by
  obtain ⟨j, hj, _, hparse⟩ := parseJSON_jsonMarshal _ _ hmeta
  obtain ⟨hV, hU, hC, hD, hT, hS⟩ := built_fields env tags terms items
  have hF := built_Files_elems tags terms items env
  cases hc : ((addFiles (newArchive tags terms) items).prepMeta env).DateCreated.formatRFC3339 with
  | none => simp [Rkyv.toJSON, hc] at hj
  | some c =>
    cases hu : ((addFiles (newArchive tags terms) items).prepMeta env).DateUpdated.formatRFC3339
      with
    | none => simp [Rkyv.toJSON, hc, hu] at hj
    | some u =>
      obtain ⟨tc, hpc, hec⟩ := parseTime_timeNow env.nowCreated c (by rw [← hC]; exact hc)
      obtain ⟨tu, hpu, heu⟩ := parseTime_timeNow env.nowUpdated u (by rw [← hD]; exact hu)
      refine ⟨tc, tu, ?_, hec, heu⟩
      unfold jsonUnmarshal
      rw [hparse, Option.some_bind]
      refine decRkyv_toJSON _ j tc tu c u hc hu hpc hpu ?_ ?_ ?_ ?_ ?_ hj
      · rw [hV]; decide
      · rw [hU]; exact validUTF8_ascii _ (uuidString_ascii _)
      · rw [hF]
        intro o ho f hof
        obtain ⟨p, hp, hpo⟩ := List.mem_map.1 ho
        rw [hof] at hpo
        have hf : f = entryOf p := (Option.some.inj hpo).symm
        have hl := length_le_flatMap items p hp
        rw [hf]
        refine ⟨hn p hp, validUTF8_DetectContentType _, ?_, ?_⟩
        · simp only [entryOf]; omega
        · simp only [entryOf]; omega
      · rw [hT]; exact ht
      · rw [hS]; exact hs

theorem elems_map_map {α β : Type} (s : Slice α) (g : α → β) :
    Slice.elems (s.map fun l => l.map g) = s.elems.map g := by
  cases s <;> rfl

theorem stripped_fields (fs : List (Option rkyvFile)) :
    (fs.map fun o => o.map rkyvFile.stripped).map
        (Option.map fun f => (f.Name, f.Type_, f.Size, f.Hash)) =
      fs.map (Option.map fun f => (f.Name, f.Type_, f.Size, f.Hash)) := by
  rw [List.map_map]
  apply List.map_congr_left
  intro o _
  cases o <;> rfl

theorem built_Files (tags terms : Slice GoString) (items : List (GoString × List Byte))
    (env : Env) :
    ((addFiles (newArchive tags terms) items).prepMeta env).Files =
      if items = [] then none else some (items.map fun p => some (entryOf p)) := by
  rw [prepMeta_Files]
  induction items using List.reverseRecOn with
  | nil => rfl
  | append_singleton items p _ =>
    rw [if_neg (by simp), addFiles_append]
    have h := addFiles_Files_elems (newArchive tags terms) items
    show some ((addFiles (newArchive tags terms) items).Files.elems ++ [some (entryOf p)]) = _
    rw [h]
    simp [newArchive, Rkyv.zero, Slice.elems]

theorem filesJSON_built (items : List (GoString × List Byte)) :
    filesJSON (if items = [] then none else some (items.map fun p => some (entryOf p))) =
      if items = [] then JVal.null else JVal.arr (items.map fun p => (entryOf p).toJSON) := by
  split_ifs
  · rfl
  · rw [filesJSON, List.map_map]; rfl

theorem payload_section (m p pl tail : List Byte) (hm : m.length = 4) (hp : p.length = 8) :
    ((m ++ p ++ pl ++ tail).drop 12).take pl.length = pl := by
  have h : (m ++ p).length = 12 := by rw [List.length_append, hm, hp]
  rw [List.append_assoc (m ++ p), ← h, List.drop_left, List.take_left]

/-- C5. Files are added to the empty archive by `AddFile` calls with payloads `d1, ..., dn`, in
that order, and `Flush` succeeds. Then, with `P` the pointer read from bytes 4 to 11 of the
container, `P` is the total length of the payloads, bytes `[12, 12+P)` of the container are
`d1 ++ ... ++ dn`, the bytes from `12+P` on are the serialized metadata record, and the
`files` member of that record is the array of the entries made of `(name1, d1)`, ...,
`(namen, dn)`, in that order (`null` when no file was added). -/
theorem Flush_keeps_insertion_order (env : Env) (d : Disk) (tags terms : Slice GoString)
    (items : List (GoString × List Byte))
    (hok : ((addFiles (newArchive tags terms) items).Flush env d).outcome = .ok) :
    ∃ c meta ms,
      ((addFiles (newArchive tags terms) items).Flush env d).disk.read
          ((addFiles (newArchive tags terms) items).Flush env d).archive.Filename = some c ∧
        Uint64 ((c.drop 4).take 8) = (items.flatMap (·.2)).length ∧
        (c.drop 12).take (items.flatMap (·.2)).length = items.flatMap (·.2) ∧
        c.drop (12 + (items.flatMap (·.2)).length) = meta ∧
        jsonMarshal ((addFiles (newArchive tags terms) items).Flush env d).archive = some meta ∧
        parseJSON meta = some (.obj ms) ∧
        ms.lookup (ascii "files") =
          some (if items = [] then JVal.null
            else JVal.arr (items.map fun p => (entryOf p).toJSON)) := by
  obtain ⟨meta, hmeta, hdisk, hlen⟩ := built_flush_shape env d tags terms items hok
  have hm : maxOffset = 2 ^ 63 - 1 := rfl
  obtain ⟨j, hj, _, hparse⟩ := parseJSON_jsonMarshal _ _ hmeta
  obtain ⟨_, h2, h3, _⟩ := container_shape MAGIC (PutUint64 (items.flatMap (·.2)).length)
    (items.flatMap (·.2)) meta MAGIC_length (PutUint64_length _)
  have h5 := payload_section MAGIC (PutUint64 (items.flatMap (·.2)).length)
    (items.flatMap (·.2)) meta MAGIC_length (PutUint64_length _)
  cases hc : ((addFiles (newArchive tags terms) items).prepMeta env).DateCreated.formatRFC3339 with
  | none => simp [Rkyv.toJSON, hc] at hj
  | some c =>
    cases hu : ((addFiles (newArchive tags terms) items).prepMeta env).DateUpdated.formatRFC3339
      with
    | none => simp [Rkyv.toJSON, hc, hu] at hj
    | some u =>
      unfold Rkyv.toJSON at hj
      rw [hc, hu] at hj
      simp only [Option.some.injEq] at hj
      rw [built_Files, filesJSON_built] at hj
      rw [← hj] at hparse
      refine ⟨_, meta, _, ?_, ?_, h5, h3, ?_, hparse, ?_⟩
      · rw [hdisk, Flush_archive]; exact Disk.read_store _ _ _
      · rw [h2, Uint64_PutUint64]; exact Nat.mod_eq_of_lt (by omega)
      · rw [Flush_archive]; exact hmeta
      · have e1 : (ascii "files" == ascii "version") = false := by decide
        have e2 : (ascii "files" == ascii "uuid") = false := by decide
        have e3 : (ascii "files" == ascii "date_created") = false := by decide
        have e4 : (ascii "files" == ascii "date_updated") = false := by decide
        have e5 : (ascii "files" == ascii "files") = true := by decide
        simp only [List.lookup, e1, e2, e3, e4, e5]

/-- Witness for C5: two files. -/
theorem Flush_keeps_insertion_order_witness :
    ((addFiles (newArchive none none) [(ascii "a", ascii "hi"), (ascii "b", ascii "yo")]).Flush
        sampleEnv sampleDisk).outcome = .ok ∧
    ∃ c meta ms,
      ((addFiles (newArchive none none)
          [(ascii "a", ascii "hi"), (ascii "b", ascii "yo")]).Flush sampleEnv
          sampleDisk).disk.read
          ((addFiles (newArchive none none)
            [(ascii "a", ascii "hi"), (ascii "b", ascii "yo")]).Flush sampleEnv
            sampleDisk).archive.Filename = some c ∧
        Uint64 ((c.drop 4).take 8) =
          ([(ascii "a", ascii "hi"), (ascii "b", ascii "yo")].flatMap (·.2)).length ∧
        (c.drop 12).take
            ([(ascii "a", ascii "hi"), (ascii "b", ascii "yo")].flatMap (·.2)).length =
          [(ascii "a", ascii "hi"), (ascii "b", ascii "yo")].flatMap (·.2) ∧
        c.drop (12 + ([(ascii "a", ascii "hi"), (ascii "b", ascii "yo")].flatMap (·.2)).length)
          = meta ∧
        jsonMarshal ((addFiles (newArchive none none)
          [(ascii "a", ascii "hi"), (ascii "b", ascii "yo")]).Flush sampleEnv
          sampleDisk).archive = some meta ∧
        parseJSON meta = some (.obj ms) ∧
        ms.lookup (ascii "files") =
          some (if [(ascii "a", ascii "hi"), (ascii "b", ascii "yo")] = [] then JVal.null
            else JVal.arr ([(ascii "a", ascii "hi"), (ascii "b", ascii "yo")].map
              fun p => (entryOf p).toJSON)) :=
  ⟨by decide!, Flush_keeps_insertion_order sampleEnv sampleDisk none none
    [(ascii "a", ascii "hi"), (ascii "b", ascii "yo")] (by decide!)⟩

/-- C11. Whatever the outcome of `Flush` (it returns `nil`, returns an error, or panics), the
entry sequence of the archive after the call, with every field of every entry (`Name`,
payload, `Type`, `Size`, `Hash`), its `Tags` and its `SearchTerms` are those before the
call. -/
theorem Flush_keeps_entries (env : Env) (d : Disk) (r : Rkyv) :
    (r.Flush env d).archive.Files = r.Files ∧ (r.Flush env d).archive.Tags = r.Tags ∧
      (r.Flush env d).archive.SearchTerms = r.SearchTerms := by
  rw [Flush_archive]
  exact ⟨prepMeta_Files env r, prepMeta_Tags env r, prepMeta_SearchTerms env r⟩

/-- C12. The archive after `Flush`, whatever the outcome: `Version` is `"1.0"` if it was
empty and unchanged otherwise; `UUID` is the string of a freshly generated version-4 UUID if
it was empty and unchanged otherwise; `DateCreated` is the clock reading of line 125 if it
was the zero `time.Time` and unchanged otherwise; `DateUpdated` is the clock reading of line
127 in every case. -/
theorem Flush_sets_defaults (env : Env) (d : Disk) (r : Rkyv) :
    ((r.Version = [] → (r.Flush env d).archive.Version = ascii "1.0") ∧
      (r.Version ≠ [] → (r.Flush env d).archive.Version = r.Version)) ∧
    ((r.UUID = [] → (r.Flush env d).archive.UUID = uuidString (NewV4 env.random)) ∧
      (r.UUID ≠ [] → (r.Flush env d).archive.UUID = r.UUID)) ∧
    ((r.DateCreated = Time.zero →
        (r.Flush env d).archive.DateCreated = timeNow env.nowCreated) ∧
      (r.DateCreated ≠ Time.zero → (r.Flush env d).archive.DateCreated = r.DateCreated)) ∧
    (r.Flush env d).archive.DateUpdated = timeNow env.nowUpdated := by
  rw [Flush_archive, prepMeta_Version, prepMeta_UUID, prepMeta_DateCreated,
    prepMeta_DateUpdated]
  refine ⟨⟨fun h => if_pos h, fun h => if_neg h⟩, ⟨fun h => if_pos h, fun h => if_neg h⟩,
    ⟨fun h => if_pos h, fun h => if_neg h⟩, rfl⟩

/-- C17. `Filename()` is the `UUID` followed by `.rkyv`. After any call of `Flush` the `UUID`
is not empty, and either the destination could not be opened and the store is as before, or
the store differs from the one before exactly in the file named by `Filename()` of the
archive after the call. -/
theorem Flush_writes_to_Filename (env : Env) (d : Disk) (r : Rkyv) :
    r.Filename = r.UUID ++ ascii ".rkyv" ∧
      (r.Flush env d).archive.Filename = (r.Flush env d).archive.UUID ++ ascii ".rkyv" ∧
      (r.Flush env d).archive.UUID ≠ [] ∧
      (((r.Flush env d).archive.Filename ∈ d.denied ∧ (r.Flush env d).disk = d) ∨
        ((r.Flush env d).archive.Filename ∉ d.denied ∧
          ∃ held, (r.Flush env d).disk = d.store (r.Flush env d).archive.Filename held)) := by
  refine ⟨rfl, rfl, ?_, ?_⟩
  · rw [Flush_archive, prepMeta_UUID]
    split_ifs with h
    · exact uuidString_ne_nil _
    · exact h
  · rw [Flush_archive]
    by_cases hden : (r.prepMeta env).Filename ∈ d.denied
    · left
      refine ⟨hden, ?_⟩
      simp [Rkyv.Flush, hden]
    · right
      refine ⟨hden, ?_⟩
      unfold Rkyv.Flush
      simp only [hden, if_false]
      repeat' split
      all_goals exact ⟨_, rfl⟩

theorem sha256_length (data : List Byte) : (sha256 data).length = 32 := by
  simp [sha256, be32Bytes]

/-- C14. The entry `AddFile` appends has as `Hash` the SHA-256 digest of the whole payload,
which is 32 bytes long for every payload; the digest of the three bytes `abc` is
`ba7816bf 8f01cfea 414140de 5dae2223 b00361a3 96177a9c b410ff61 f20015ad`, and that of the
empty payload is `e3b0c442 98fc1c14 9afbf4c8 996fb924 27ae41e4 649b934c a495991b 7852b855`. -/
theorem AddFile_hash (r : Rkyv) (name : GoString) (data : List Byte) :
    (∃ f : rkyvFile, (r.AddFile name data).Files = some (r.Files.elems ++ [some f]) ∧
      f.Hash = some (sha256 data)) ∧
    (sha256 data).length = 32 ∧
    sha256 (ascii "abc") =
      [0xba, 0x78, 0x16, 0xbf, 0x8f, 0x01, 0xcf, 0xea, 0x41, 0x41, 0x40, 0xde, 0x5d, 0xae, 0x22,
        0x23, 0xb0, 0x03, 0x61, 0xa3, 0x96, 0x17, 0x7a, 0x9c, 0xb4, 0x10, 0xff, 0x61, 0xf2, 0x00,
        0x15, 0xad] ∧
    sha256 [] =
      [0xe3, 0xb0, 0xc4, 0x42, 0x98, 0xfc, 0x1c, 0x14, 0x9a, 0xfb, 0xf4, 0xc8, 0x99, 0x6f, 0xb9,
        0x24, 0x27, 0xae, 0x41, 0xe4, 0x64, 0x9b, 0x93, 0x4c, 0xa4, 0x95, 0x99, 0x1b, 0x78, 0x52,
        0xb8, 0x55] := by
  refine ⟨⟨_, rfl, rfl⟩, sha256_length data, ?_, ?_⟩
  · decide!
  · decide!

theorem excludes_matches (b0 : Byte) (sig : sniffSig) (t : List Byte)
    (h : sig.excludes b0 = true) : sig.matches (b0 :: t) (b0 :: t) = none := by
  cases sig with
  | html tag =>
    cases tag with
    | nil => simp [sniffSig.excludes] at h
    | cons b tag =>
      simp only [sniffSig.excludes, Bool.not_eq_true'] at h
      simp only [sniffSig.matches, htmlTagMatches, h, Bool.false_and, Bool.false_eq_true,
        false_and, if_false]
      split_ifs <;> rfl
  | masked mask pat skipWS ct =>
    cases mask with
    | nil => simp [sniffSig.excludes] at h
    | cons m mask =>
      cases pat with
      | nil => simp [sniffSig.excludes] at h
      | cons p pat =>
        simp only [sniffSig.excludes, Bool.not_eq_true', decide_eq_false_iff_not] at h
        simp only [sniffSig.matches, maskedMatches, h, decide_False, Bool.false_and,
          Bool.false_eq_true, if_false, ite_self]
  | exact s ct =>
    cases s with
    | nil => simp [sniffSig.excludes] at h
    | cons c s =>
      simp only [sniffSig.excludes, Bool.not_eq_true', decide_eq_false_iff_not] at h
      simp [sniffSig.matches, List.isPrefixOf, h]
  | mp4 => simp [sniffSig.excludes] at h
  | text => simp [sniffSig.excludes] at h

theorem DetectContentType_png (rest : List Byte) :
    DetectContentType (pngSignature ++ rest) = ascii "image/png" := by
  have hs : sniffSignatures = sniffSignatures.take 29 ++
      (sniffSig.exact pngSignature (ascii "image/png") :: sniffSignatures.drop 30) := by
    rfl
  have hex : ∀ sig ∈ sniffSignatures.take 29, sig.excludes 0x89 = true := by decide
  have hd : (pngSignature ++ rest).take 512 =
      0x89 :: ([0x50, 0x4E, 0x47, 0x0D, 0x0A, 0x1A, 0x0A] ++ rest.take 504) := by
    simp [pngSignature, List.take_succ_cons]
  have hw : ∀ t : List Byte, ((0x89 : Byte) :: t).dropWhile isWS = 0x89 :: t := by
    intro t
    rw [List.dropWhile_cons, if_neg (by decide)]
  unfold DetectContentType
  simp only []
  rw [hd, hw, hs, List.findSome?_append]
  have hnone : (sniffSignatures.take 29).findSome? (fun sig =>
      sig.matches (0x89 :: ([0x50, 0x4E, 0x47, 0x0D, 0x0A, 0x1A, 0x0A] ++ rest.take 504))
        (0x89 :: ([0x50, 0x4E, 0x47, 0x0D, 0x0A, 0x1A, 0x0A] ++ rest.take 504))) = none := by
    rw [List.findSome?_eq_none_iff]
    intro sig hsig
    exact excludes_matches _ sig _ (hex sig hsig)
  rw [hnone]
  simp [List.findSome?, sniffSig.matches, pngSignature, List.isPrefixOf]

theorem DetectContentType_fallback (data : List Byte)
    (h : ∀ sig ∈ sniffSignatures,
      sig.matches (data.take 512) ((data.take 512).dropWhile isWS) = none) :
    DetectContentType data = ascii "application/octet-stream" := by
  unfold DetectContentType
  simp only []
  rw [List.findSome?_eq_none_iff.2 h]
  rfl

/-- C15, with the empty payload taken out of the second part. The entry `AddFile` appends
for a payload that begins with the 8-byte PNG signature has `Type` `image/png`, whatever
follows the signature; and the entry it appends for a payload on whose first 512 bytes no
signature of the sniffing table matches has `Type` `application/octet-stream`. -/
theorem AddFile_content_type (r : Rkyv) (name : GoString) (rest data : List Byte)
    (h : ∀ sig ∈ sniffSignatures,
      sig.matches (data.take 512) ((data.take 512).dropWhile isWS) = none) :
    (∃ f : rkyvFile,
      (r.AddFile name (pngSignature ++ rest)).Files = some (r.Files.elems ++ [some f]) ∧
        f.Type_ = ascii "image/png") ∧
    (∃ f : rkyvFile, (r.AddFile name data).Files = some (r.Files.elems ++ [some f]) ∧
      f.Type_ = ascii "application/octet-stream") :=
  ⟨⟨_, rfl, DetectContentType_png rest⟩, ⟨_, rfl, DetectContentType_fallback data h⟩⟩

/-- Witness for C15: a PNG signature followed by two bytes, and the three bytes `00 01 02`,
which no signature matches. -/
theorem AddFile_content_type_witness :
    (∀ sig ∈ sniffSignatures,
      sig.matches (([0x00, 0x01, 0x02] : List Byte).take 512)
        ((([0x00, 0x01, 0x02] : List Byte).take 512).dropWhile isWS) = none) ∧
    (∃ f : rkyvFile,
      (Rkyv.zero.AddFile (ascii "p") (pngSignature ++ [0x00, 0x00])).Files =
          some (Rkyv.zero.Files.elems ++ [some f]) ∧
        f.Type_ = ascii "image/png") ∧
    (∃ f : rkyvFile, (Rkyv.zero.AddFile (ascii "p") [0x00, 0x01, 0x02]).Files =
        some (Rkyv.zero.Files.elems ++ [some f]) ∧
      f.Type_ = ascii "application/octet-stream") :=
  ⟨by decide, AddFile_content_type Rkyv.zero (ascii "p") [0x00, 0x00] [0x00, 0x01, 0x02]
    (by decide)⟩

/-- C15 as stated fails for the empty payload: the last signature of the table, the one for
plain text, matches data in which no binary byte occurs, so it matches the empty payload, and
the entry `AddFile` appends for it has `Type` `text/plain; charset=utf-8`, which is not
`application/octet-stream`. -/
theorem AddFile_empty_payload_is_text :
    sniffSig.text.matches [] [] = some (ascii "text/plain; charset=utf-8") ∧
      DetectContentType [] = ascii "text/plain; charset=utf-8" ∧
      (Rkyv.zero.AddFile (ascii "e") []).Files.elems.map (Option.map rkyvFile.Type_) =
        [some (ascii "text/plain; charset=utf-8")] ∧
      ascii "text/plain; charset=utf-8" ≠ ascii "application/octet-stream" := by
  refine ⟨by decide, by decide, by decide, by decide⟩

theorem bind_eq_some_elim {α β : Type} {o : Option α} {f : α → Option β} {b : β}
    (h : o.bind f = some b) : ∃ a, o = some a ∧ f a = some b := by
  cases o with
  | none => simp at h
  | some a => exact ⟨a, rfl, h⟩

theorem decFileMembers_data (ms : List (List Byte × JVal)) :
    ∀ (cur f : rkyvFile), decFileMembers cur ms = some f → f.data = cur.data := by
  induction ms with
  | nil =>
    intro cur f h
    rw [decFileMembers] at h
    rw [← Option.some.inj h]
  | cons m ms ih =>
    intro cur f h
    obtain ⟨k, v⟩ := m
    rw [decFileMembers] at h
    cases hk : unquote k with
    | none => rw [hk] at h; simp at h
    | some key =>
      rw [hk] at h
      simp only [] at h
      split_ifs at h
      · obtain ⟨x, _, hx⟩ := bind_eq_some_elim h
        have := ih _ f hx
        exact this
      · obtain ⟨x, _, hx⟩ := bind_eq_some_elim h
        have := ih _ f hx
        exact this
      · obtain ⟨x, _, hx⟩ := bind_eq_some_elim h
        have := ih _ f hx
        exact this
      · obtain ⟨x, _, hx⟩ := bind_eq_some_elim h
        have := ih _ f hx
        exact this
      · exact ih _ f h

theorem decFilePtr_data (cur : Option rkyvFile) (j : JVal) (f : rkyvFile)
    (hcur : ∀ g, cur = some g → g.data = [])
    (h : decFilePtr cur j = some (some f)) : f.data = [] := by
  cases j with
  | null => simp [decFilePtr] at h
  | bool b => simp [decFilePtr] at h
  | num raw => simp [decFilePtr] at h
  | str raw => simp [decFilePtr] at h
  | arr xs => simp [decFilePtr] at h
  | obj ms =>
    rw [decFilePtr] at h
    cases hd : decFileMembers (cur.getD rkyvFile.zero) ms with
    | none => rw [hd] at h; simp at h
    | some g =>
      rw [hd] at h
      simp only [Option.map_some', Option.some.injEq] at h
      rw [← h, decFileMembers_data ms _ g hd]
      cases cur with
      | none => rfl
      | some c => exact hcur c rfl

theorem decElems_files_data (js : List JVal) :
    ∀ (cur out : List (Option rkyvFile)), (∀ g, some g ∈ cur → g.data = []) →
      decElems decFilePtr none cur js = some out → ∀ f, some f ∈ out → f.data = [] := by
  induction js with
  | nil =>
    intro cur out _ h f hf
    rw [decElems] at h
    rw [← Option.some.inj h] at hf
    cases hf
  | cons j js ih =>
    intro cur out hcur h f hf
    rw [decElems] at h
    cases hd : decFilePtr (cur.headD none) j with
    | none => rw [hd] at h; simp at h
    | some x =>
      rw [hd] at h
      simp only [] at h
      cases ht : decElems decFilePtr none cur.tail js with
      | none => rw [ht] at h; simp at h
      | some rest =>
        rw [ht] at h
        simp only [Option.map_some', Option.some.injEq] at h
        rw [← h] at hf
        rcases List.mem_cons.1 hf with hx | hx
        · refine decFilePtr_data (cur.headD none) j f ?_ (by rw [hd, hx])
          intro g hg
          cases cur with
          | nil => simp at hg
          | cons c cs =>
            simp only [List.headD_cons] at hg
            exact hcur g (by rw [hg]; exact List.mem_cons_self _ _)
        · refine ih cur.tail rest ?_ ht f hx
          intro g hg
          exact hcur g (List.mem_of_mem_tail hg)

theorem decSlice_files_data (cur out : Slice (Option rkyvFile)) (j : JVal)
    (hcur : ∀ g, some g ∈ cur.elems → g.data = [])
    (h : decSlice decFilePtr none cur j = some out) : ∀ f, some f ∈ out.elems → f.data = [] := by
  cases j with
  | null =>
    simp only [decSlice, Option.some.injEq] at h
    rw [← h]
    intro f hf
    cases hf
  | bool b => simp [decSlice] at h
  | num raw => simp [decSlice] at h
  | str raw => simp [decSlice] at h
  | obj ms => simp [decSlice] at h
  | arr js =>
    rw [decSlice] at h
    cases hd : decElems decFilePtr none cur.elems js with
    | none => rw [hd] at h; simp at h
    | some l =>
      rw [hd] at h
      simp only [Option.map_some', Option.some.injEq] at h
      rw [← h]
      exact decElems_files_data js cur.elems l hcur hd

theorem decRkyvMembers_data (ms : List (List Byte × JVal)) :
    ∀ (cur r : Rkyv), (∀ g, some g ∈ cur.Files.elems → g.data = []) →
      decRkyvMembers cur ms = some r → ∀ f, some f ∈ r.Files.elems → f.data = [] := by
  induction ms with
  | nil =>
    intro cur r hcur h
    rw [decRkyvMembers] at h
    rw [← Option.some.inj h]
    exact hcur
  | cons m ms ih =>
    intro cur r hcur h
    obtain ⟨k, v⟩ := m
    rw [decRkyvMembers] at h
    cases hk : unquote k with
    | none => rw [hk] at h; simp at h
    | some key =>
      rw [hk] at h
      simp only [] at h
      split_ifs at h
      · obtain ⟨x, _, hx⟩ := bind_eq_some_elim h
        refine ih _ r ?_ hx
        exact hcur
      · obtain ⟨x, _, hx⟩ := bind_eq_some_elim h
        refine ih _ r ?_ hx
        exact hcur
      · obtain ⟨x, _, hx⟩ := bind_eq_some_elim h
        refine ih _ r ?_ hx
        exact hcur
      · obtain ⟨x, _, hx⟩ := bind_eq_some_elim h
        refine ih _ r ?_ hx
        exact hcur
      · obtain ⟨x, hd, hx⟩ := bind_eq_some_elim h
        exact ih _ r (decSlice_files_data cur.Files x v hcur hd) hx
      · obtain ⟨x, _, hx⟩ := bind_eq_some_elim h
        refine ih _ r ?_ hx
        exact hcur
      · obtain ⟨x, _, hx⟩ := bind_eq_some_elim h
        refine ih _ r ?_ hx
        exact hcur
      · exact ih cur r hcur h

theorem jsonUnmarshal_data (data : List Byte) (r : Rkyv) (h : jsonUnmarshal data = some r) :
    ∀ f, some f ∈ r.Files.elems → f.data = [] := by
  unfold jsonUnmarshal at h
  obtain ⟨j, _, hj⟩ := bind_eq_some_elim h
  have hz : ∀ g, some g ∈ Rkyv.zero.Files.elems → g.data = [] := by
    intro g hg
    cases hg
  cases j with
  | null =>
    simp only [decRkyv, Option.some.injEq] at hj
    rw [← hj]; exact hz
  | bool b => simp [decRkyv] at hj
  | num raw => simp [decRkyv] at hj
  | str raw => simp [decRkyv] at hj
  | arr xs => simp [decRkyv] at hj
  | obj ms =>
    rw [decRkyv] at hj
    exact decRkyvMembers_data ms Rkyv.zero r hz hj

theorem openReader_ok (src : List Byte) (r : Rkyv) (h : openReader src = .ok r) :
    ∃ n, jsonUnmarshal (src.drop n) = some r := by
  unfold openReader at h
  simp only [] at h
  split_ifs at h
  split at h
  · cases h
  · rename_i r' hr
    cases h
    exact ⟨_, hr⟩

theorem OpenFile_ok (d : Disk) (filename : GoString) (r : Rkyv)
    (h : OpenFile d filename = .ok r) :
    ∃ src, d.read filename = some src ∧ openReader src = .ok r := by
  unfold OpenFile at h
  cases hs : d.read filename with
  | none => rw [hs] at h; cases h
  | some src => rw [hs] at h; exact ⟨src, rfl, h⟩

/-- C13. Whenever `OpenFile` succeeds, every entry of the archive it returns holds no payload
bytes, whatever `Size` the entry records and whatever the file holds in front of the metadata
record. -/
theorem OpenFile_entries_hold_no_payload (d : Disk) (filename : GoString) (r : Rkyv)
    (h : OpenFile d filename = .ok r) :
    ∀ f, some f ∈ r.Files.elems → f.data = [] := by
  obtain ⟨src, _, hsrc⟩ := OpenFile_ok d filename r h
  obtain ⟨n, hn⟩ := openReader_ok src r hsrc
  exact jsonUnmarshal_data _ r hn

/-- Witness for C13: a file with a payload section of two bytes and one entry of `Size` 2. -/
theorem OpenFile_entries_hold_no_payload_witness :
    OpenFile ⟨[(ascii "w.rkyv", MAGIC ++ PutUint64 2 ++ ascii "hi" ++
          [0x7B] ++ ascii "\"files\":[\x7b\"name\":\"a\",\"size\":2\x7d]" ++ [0x7D])], [], 4096⟩
        (ascii "w.rkyv") =
        .ok { Rkyv.zero with Files := some [some ⟨ascii "a", [], [], 2, none⟩] } ∧
      ∀ f, some f ∈ ({ Rkyv.zero with
          Files := some [some ⟨ascii "a", [], [], 2, none⟩] } : Rkyv).Files.elems →
        f.data = [] :=
  ⟨by decide,
    OpenFile_entries_hold_no_payload ⟨[(ascii "w.rkyv", MAGIC ++ PutUint64 2 ++ ascii "hi" ++
          [0x7B] ++ ascii "\"files\":[\x7b\"name\":\"a\",\"size\":2\x7d]" ++ [0x7D])], [], 4096⟩
      (ascii "w.rkyv") _ (by decide)⟩

/-- The payload loop on entries that are all present with `Size` equal to the payload
length, in a store that has room: it runs to its end and has written every payload. -/
theorem writeFiles_sized (limit : Nat) (fs : List rkyvFile) (held : List Byte)
    (hfs : ∀ g ∈ fs, (g.data.length : Int) = g.Size)
    (hroom : held.length + (fs.flatMap (·.data)).length ≤ limit) :
    writeFiles limit (fs.map some) held = (.ok, held ++ fs.flatMap (·.data)) := by
  induction fs generalizing held with
  | nil => simp [writeFiles]
  | cons g fs ih =>
    rw [List.map_cons, writeFiles]
    simp only [List.flatMap_cons, List.length_append] at hroom
    rw [fileWrite_fits limit held g.data (by omega)]
    have hg := hfs g (List.mem_cons_self _ _)
    simp only [Bool.false_eq_true, if_false, hg, ne_eq, not_true_eq_false]
    rw [ih (held ++ g.data) (fun x hx => hfs x (List.mem_cons_of_mem _ hx))
      (by simp only [List.length_append]; omega)]
    simp [List.flatMap_cons]

/-- The payload loop never reports a short count for entries whose `Size` is the length of
the payload they hold. -/
theorem writeFiles_never_short (limit : Nat) (fs : List (Option rkyvFile)) :
    ∀ held : List Byte, (∀ f, some f ∈ fs → (f.data.length : Int) = f.Size) →
      ∀ name n, (writeFiles limit fs held).1 ≠ .error (.writeFileShort name n) := by
  induction fs with
  | nil => intro held _ name n h; simp [writeFiles] at h
  | cons o fs ih =>
    intro held hfs name n
    cases o with
    | none => intro h; simp [writeFiles] at h
    | some rf =>
      rw [writeFiles]
      have hrf := hfs rf (List.mem_cons_self _ _)
      by_cases herr : (fileWrite limit held rf.data).err = true
      · rw [if_pos herr]; intro h; cases h
      · rw [if_neg herr]
        have hn : (fileWrite limit held rf.data).n = rf.data.length := by
          unfold fileWrite at herr ⊢
          simp only [decide_eq_true_eq, not_lt] at herr
          simp only []
          omega
        rw [if_neg (by rw [hn, hrf]; simp)]
        exact ih _ (fun f hf => hfs f (List.mem_cons_of_mem _ hf)) name n

theorem Flush_never_short (env : Env) (d : Disk) (r : Rkyv)
    (hfs : ∀ f, some f ∈ r.Files.elems → (f.data.length : Int) = f.Size) :
    ∀ name n, (r.Flush env d).outcome ≠ .error (.writeFileShort name n) := by
  intro name n h
  have key := fun held => writeFiles_never_short d.limit (r.prepMeta env).Files.elems held
    (by rw [prepMeta_Files]; exact hfs) name n
  have key2 : ∀ (held : List Byte) (o : Outcome) (out : List Byte),
      writeFiles d.limit (r.prepMeta env).Files.elems held = (o, out) →
        o ≠ .error (.writeFileShort name n) := by
    intro held o out e
    have hk := key held
    rw [e] at hk
    exact hk
  unfold Rkyv.Flush at h
  simp only [] at h
  repeat' split at h
  all_goals first | (cases h; done) | skip
  rename_i o held hx heq
  exact key2 _ _ _ heq h

/-- `Flush` on entries that are all present with `Size` equal to the payload length, when the
destination can be opened, the metadata can be serialized and the store has room for the whole
container: it returns `nil` and leaves the container in the file. -/
theorem Flush_sized (env : Env) (d : Disk) (r : Rkyv) (fs : List rkyvFile) (meta : List Byte)
    (hfiles : r.Files.elems = fs.map some)
    (hfs : ∀ g ∈ fs, (g.data.length : Int) = g.Size)
    (hopen : (r.prepMeta env).Filename ∉ d.denied)
    (hmeta : jsonMarshal (r.prepMeta env) = some meta)
    (hroom : 12 + (fs.flatMap (·.data)).length + meta.length ≤ d.limit) :
    r.Flush env d = ⟨.ok, r.prepMeta env, d.store (r.prepMeta env).Filename
      (MAGIC ++ PutUint64 (fs.flatMap (·.data)).length ++ fs.flatMap (·.data) ++ meta)⟩ := by
  have hlim : d.limit ≤ maxOffset := by unfold Disk.limit; exact Nat.min_le_right _ _
  have hm : maxOffset = 2 ^ 63 - 1 := rfl
  have hw1 := fileWrite_fits d.limit [] MAGIC
    (by simp only [MAGIC_length, List.length_nil]; omega)
  have hptr : sumSizes 0 (fs.map some) = some (fs.flatMap (·.data)).length := by
    rw [sumSizes_of_sizes _ 0 (by norm_num), payloads_map_some, Nat.zero_add,
      Nat.mod_eq_of_lt (by omega)]
    intro o ho
    obtain ⟨g, hg, hgo⟩ := List.mem_map.1 ho
    exact ⟨g, hgo.symm, (hfs g hg).symm⟩
  have hw2 := fileWrite_fits d.limit MAGIC (PutUint64 (fs.flatMap (·.data)).length)
    (by simp only [MAGIC_length, PutUint64_length]; omega)
  have hwf := writeFiles_sized d.limit fs (MAGIC ++ PutUint64 (fs.flatMap (·.data)).length) hfs
    (by simp only [MAGIC_length, PutUint64_length, List.length_append]; omega)
  have hw4 := fileWrite_fits d.limit
    (MAGIC ++ PutUint64 (fs.flatMap (·.data)).length ++ fs.flatMap (·.data)) meta
    (by simp only [MAGIC_length, PutUint64_length, List.length_append]; omega)
  simp only [Rkyv.Flush, hopen, hw1, prepMeta_Files, hfiles, hptr, hw2, hwf, hmeta, hw4,
    if_false, Bool.false_eq_true, List.nil_append, ne_eq, not_true_eq_false]

theorem built_entries (tags terms : Slice GoString) (items : List (GoString × List Byte)) :
    (addFiles (newArchive tags terms) items).Files.elems = (items.map entryOf).map some := by
  rw [addFiles_Files_elems, List.map_map]
  rfl

theorem flatMap_entries (items : List (GoString × List Byte)) :
    (items.map entryOf).flatMap (·.data) = items.flatMap (·.2) := by
  induction items with
  | nil => rfl
  | cons p ps ih => simp only [List.map_cons, List.flatMap_cons, ih]; rfl

/-- C18. In an archive built from the empty archive by `AddFile` calls (tags and search terms
set at will), every entry is present, its `Size` is the length of the payload it holds and its
`Hash` has 32 bytes. On such an archive `Flush` never returns the error of the per-entry
length check, whatever the store; and when the destination can be opened, the metadata can be
serialized and the store has room for the header, the payloads and the metadata record, so
that every write is taken in full, `Flush` returns no error. -/
theorem built_archive_flushes (env : Env) (d : Disk) (tags terms : Slice GoString)
    (items : List (GoString × List Byte))
    (hopen : ((addFiles (newArchive tags terms) items).prepMeta env).Filename ∉ d.denied)
    (hroom : ∃ meta, jsonMarshal ((addFiles (newArchive tags terms) items).prepMeta env) =
        some meta ∧ 12 + (items.flatMap (·.2)).length + meta.length ≤ d.limit) :
    (∀ o ∈ (addFiles (newArchive tags terms) items).Files.elems,
      ∃ f : rkyvFile, o = some f ∧ f.Size = (f.data.length : Int) ∧
        ∃ h, f.Hash = some h ∧ h.length = 32) ∧
    (∀ (env1 : Env) (d1 : Disk) (name : GoString) (n : Nat),
      ((addFiles (newArchive tags terms) items).Flush env1 d1).outcome ≠
        .error (.writeFileShort name n)) ∧
    ((addFiles (newArchive tags terms) items).Flush env d).outcome = .ok := by
  have hfiles := built_entries tags terms items
  have hfs : ∀ g ∈ items.map entryOf, (g.data.length : Int) = g.Size := by
    intro g hg
    obtain ⟨p, _, hp⟩ := List.mem_map.1 hg
    rw [← hp]; rfl
  refine ⟨?_, ?_, ?_⟩
  · intro o ho
    rw [hfiles] at ho
    obtain ⟨g, hg, hgo⟩ := List.mem_map.1 ho
    obtain ⟨p, _, hp⟩ := List.mem_map.1 hg
    refine ⟨g, hgo.symm, (hfs g hg).symm, sha256 p.2, ?_, sha256_length _⟩
    rw [← hp]; rfl
  · intro env1 d1 name n
    apply Flush_never_short
    intro f hf
    rw [hfiles] at hf
    obtain ⟨g, hg, hgo⟩ := List.mem_map.1 hf
    rw [← Option.some.inj hgo]
    exact hfs g hg
  · obtain ⟨meta, hmeta, hlen⟩ := hroom
    rw [Flush_sized env d _ (items.map entryOf) meta hfiles hfs hopen hmeta
      (by rw [flatMap_entries]; exact hlen)]

/-- Witness for C18: one file of two bytes, a store with room for 4096 bytes. -/
theorem built_archive_flushes_witness :
    ((addFiles (newArchive none none) [(ascii "a", ascii "hi")]).prepMeta sampleEnv).Filename ∉
      sampleDisk.denied ∧
    (∃ meta, jsonMarshal ((addFiles (newArchive none none)
        [(ascii "a", ascii "hi")]).prepMeta sampleEnv) = some meta ∧
      12 + ([(ascii "a", ascii "hi")].flatMap (·.2)).length + meta.length ≤ sampleDisk.limit) ∧
    (∀ o ∈ (addFiles (newArchive none none) [(ascii "a", ascii "hi")]).Files.elems,
      ∃ f : rkyvFile, o = some f ∧ f.Size = (f.data.length : Int) ∧
        ∃ h, f.Hash = some h ∧ h.length = 32) ∧
    (∀ (env1 : Env) (d1 : Disk) (name : GoString) (n : Nat),
      ((addFiles (newArchive none none) [(ascii "a", ascii "hi")]).Flush env1 d1).outcome ≠
        .error (.writeFileShort name n)) ∧
    ((addFiles (newArchive none none) [(ascii "a", ascii "hi")]).Flush sampleEnv
      sampleDisk).outcome = .ok :=
  ⟨by decide, ⟨_, rfl, by decide!⟩,
    built_archive_flushes sampleEnv sampleDisk none none [(ascii "a", ascii "hi")] (by decide)
      ⟨_, rfl, by decide!⟩⟩

theorem sumSizes_present (fs : List rkyvFile) (p : Nat) :
    ∃ ptr, sumSizes p (fs.map some) = some ptr := by
  induction fs generalizing p with
  | nil => exact ⟨_, rfl⟩
  | cons g fs ih => simpa [sumSizes] using ih _

/-- `Flush` on entries that are all present, the first of which with a payload length other
than its `Size` is `f`: the error names `f`, and the file holds the header and the payloads
up to that of `f`. -/
theorem Flush_first_mismatch (env : Env) (d : Disk) (r : Rkyv) (pre post : List rkyvFile)
    (f : rkyvFile) (hfiles : r.Files.elems = (pre ++ f :: post).map some)
    (hpre : ∀ g ∈ pre, (g.data.length : Int) = g.Size)
    (hf : (f.data.length : Int) ≠ f.Size)
    (hopen : (r.prepMeta env).Filename ∉ d.denied)
    (hroom : 12 + (pre.flatMap (·.data)).length + f.data.length ≤ d.limit) :
    ∃ ptr, sumSizes 0 r.Files.elems = some ptr ∧
      r.Flush env d = ⟨.error (.writeFileShort f.Name f.data.length), r.prepMeta env,
        d.store (r.prepMeta env).Filename
          (MAGIC ++ PutUint64 ptr ++ pre.flatMap (·.data) ++ f.data)⟩ := by
  have hw1 := fileWrite_fits d.limit [] MAGIC
    (by simp only [MAGIC_length, List.length_nil]; omega)
  obtain ⟨ptr, hptr⟩ := sumSizes_present (pre ++ f :: post) 0
  have hw2 := fileWrite_fits d.limit MAGIC (PutUint64 ptr)
    (by simp only [MAGIC_length, PutUint64_length]; omega)
  have hwf := writeFiles_mismatch d.limit pre post f (MAGIC ++ PutUint64 ptr) hpre hf
    (by simp only [MAGIC_length, PutUint64_length, List.length_append]; omega)
  refine ⟨ptr, by rw [hfiles]; exact hptr, ?_⟩
  simp only [Rkyv.Flush, hopen, hw1, prepMeta_Files, hptr, hw2, hfiles, hwf, if_false,
    Bool.false_eq_true, List.nil_append, ne_eq, not_true_eq_false]

theorem all_present (l : List (Option rkyvFile)) (h : ∀ o ∈ l, o ≠ none) :
    ∃ fs : List rkyvFile, l = fs.map some := by
  induction l with
  | nil => exact ⟨[], rfl⟩
  | cons o l ih =>
    obtain ⟨fs, hfs⟩ := ih (fun x hx => h x (List.mem_cons_of_mem _ hx))
    cases o with
    | none => exact absurd rfl (h none (List.mem_cons_self _ _))
    | some f => exact ⟨f :: fs, by rw [hfs]; rfl⟩

theorem first_sized (fs : List rkyvFile) (h : ∃ f ∈ fs, f.Size ≠ 0) :
    ∃ pre f post, fs = pre ++ f :: post ∧ (∀ g ∈ pre, g.Size = 0) ∧ f.Size ≠ 0 := by
  induction fs with
  | nil => obtain ⟨f, hf, _⟩ := h; cases hf
  | cons g fs ih =>
    by_cases hg : g.Size = 0
    · obtain ⟨f, hf, hfs⟩ := h
      rcases List.mem_cons.1 hf with e | e
      · rw [e] at hfs; exact absurd hg hfs
      · obtain ⟨pre, f1, post, h1, h2, h3⟩ := ih ⟨f, e, hfs⟩
        refine ⟨g :: pre, f1, post, by rw [h1]; rfl, ?_, h3⟩
        intro x hx
        rcases List.mem_cons.1 hx with e1 | e1
        · rw [e1]; exact hg
        · exact h2 x e1
    · refine ⟨[], g, fs, rfl, ?_, hg⟩
      intro x hx
      cases hx

theorem flatMap_no_data (fs : List rkyvFile) (h : ∀ g ∈ fs, g.data = []) :
    fs.flatMap (·.data) = [] := by
  induction fs with
  | nil => rfl
  | cons g fs ih =>
    rw [List.flatMap_cons, h g (List.mem_cons_self _ _),
      ih (fun x hx => h x (List.mem_cons_of_mem _ hx))]
    rfl

/-- C19, for archives all of whose entries are present. An archive returned by a successful
`OpenFile`, with no `nil` entry and with at least one entry whose `Size` is not 0, is given
to `Flush`; the destination can be opened and the store takes the 12 bytes of the header.
Then `Flush` returns the error of the per-entry length check, with a count of 0 bytes
written, for the first entry in entry order whose `Size` is not 0, and the file then holds
the marker and the pointer and nothing else. -/
theorem Flush_of_opened_archive_fails (env : Env) (d0 d : Disk) (filename : GoString)
    (r : Rkyv) (hread : OpenFile d0 filename = .ok r)
    (hpresent : ∀ o ∈ r.Files.elems, o ≠ none)
    (hsize : ∃ f, some f ∈ r.Files.elems ∧ f.Size ≠ 0)
    (hopen : (r.prepMeta env).Filename ∉ d.denied)
    (hroom : 12 ≤ d.limit) :
    ∃ (pre post : List rkyvFile) (f : rkyvFile) (ptr : Nat),
      r.Files.elems = (pre ++ f :: post).map some ∧ (∀ g ∈ pre, g.Size = 0) ∧ f.Size ≠ 0 ∧
      (r.Flush env d).outcome = .error (.writeFileShort f.Name 0) ∧
      sumSizes 0 r.Files.elems = some ptr ∧
      (r.Flush env d).disk.read (r.Flush env d).archive.Filename =
        some (MAGIC ++ PutUint64 ptr) := by
  obtain ⟨src, _, hsrc⟩ := OpenFile_ok d0 filename r hread
  obtain ⟨n, hn⟩ := openReader_ok src r hsrc
  have hdata := jsonUnmarshal_data _ r hn
  obtain ⟨fs, hfs⟩ := all_present r.Files.elems hpresent
  have hsz : ∃ f ∈ fs, f.Size ≠ 0 := by
    obtain ⟨f, hf, hfz⟩ := hsize
    rw [hfs] at hf
    obtain ⟨g, hg, hgf⟩ := List.mem_map.1 hf
    exact ⟨f, by rw [← Option.some.inj hgf]; exact hg, hfz⟩
  obtain ⟨pre, f, post, hsplit, hpre, hf⟩ := first_sized fs hsz
  rw [hsplit] at hfs
  have hd : ∀ g ∈ pre ++ f :: post, g.data = [] := by
    intro g hg
    apply hdata
    rw [hfs]
    exact List.mem_map_of_mem _ hg
  have hfd : f.data = [] := hd f (by simp)
  have hpd : pre.flatMap (·.data) = [] :=
    flatMap_no_data pre (fun g hg => hd g (List.mem_append_left _ hg))
  obtain ⟨ptr, hptr, hF⟩ := Flush_first_mismatch env d r pre post f hfs
    (by intro g hg; rw [hd g (List.mem_append_left _ hg), hpre g hg]; rfl)
    (by rw [hfd]; exact fun e => hf e.symm) hopen
    (by rw [hpd, hfd]; exact hroom)
  rw [hpd, hfd] at hF
  refine ⟨pre, post, f, ptr, hfs, hpre, hf, ?_, hptr, ?_⟩
  · rw [hF]; rfl
  · rw [hF]
    simp only [List.append_nil]
    exact Disk.read_store _ _ _

/-- Witness for C19: the archive read from a file with one entry of `Size` 2. -/
theorem Flush_of_opened_archive_fails_witness :
    OpenFile ⟨[(ascii "w.rkyv", MAGIC ++ PutUint64 2 ++ ascii "hi" ++
          [0x7B] ++ ascii "\"files\":[\x7b\"name\":\"a\",\"size\":2\x7d]" ++ [0x7D])], [], 4096⟩
        (ascii "w.rkyv") =
        .ok { Rkyv.zero with Files := some [some ⟨ascii "a", [], [], 2, none⟩] } ∧
    ∃ (pre post : List rkyvFile) (f : rkyvFile) (ptr : Nat),
      ({ Rkyv.zero with Files := some [some ⟨ascii "a", [], [], 2, none⟩] } : Rkyv).Files.elems =
        (pre ++ f :: post).map some ∧ (∀ g ∈ pre, g.Size = 0) ∧ f.Size ≠ 0 ∧
      (({ Rkyv.zero with Files := some [some ⟨ascii "a", [], [], 2, none⟩] } : Rkyv).Flush
        sampleEnv sampleDisk).outcome = .error (.writeFileShort f.Name 0) ∧
      sumSizes 0 ({ Rkyv.zero with
        Files := some [some ⟨ascii "a", [], [], 2, none⟩] } : Rkyv).Files.elems = some ptr ∧
      (({ Rkyv.zero with Files := some [some ⟨ascii "a", [], [], 2, none⟩] } : Rkyv).Flush
          sampleEnv sampleDisk).disk.read
        (({ Rkyv.zero with Files := some [some ⟨ascii "a", [], [], 2, none⟩] } : Rkyv).Flush
          sampleEnv sampleDisk).archive.Filename = some (MAGIC ++ PutUint64 ptr) :=
  ⟨by decide,
    Flush_of_opened_archive_fails sampleEnv
      ⟨[(ascii "w.rkyv", MAGIC ++ PutUint64 2 ++ ascii "hi" ++
          [0x7B] ++ ascii "\"files\":[\x7b\"name\":\"a\",\"size\":2\x7d]" ++ [0x7D])], [], 4096⟩
      sampleDisk (ascii "w.rkyv") _ (by decide) (by decide)
      ⟨⟨ascii "a", [], [], 2, none⟩, by decide, by decide⟩ (by decide) (by decide)⟩

/-- C19 as stated fails when the metadata record lists a `null` entry. The file below is
opened without error; the archive it yields has an entry with `Size` 1 followed by a `nil`
entry; `Flush` on it, with ample room in the store, does not return an error: it panics in
the pointer loop, and the file then holds the marker only, not the pointer. -/
theorem Flush_of_opened_archive_panics :
    OpenFile ⟨[(ascii "n.rkyv", MAGIC ++ PutUint64 0 ++
          [0x7B] ++ ascii "\"files\":[\x7b\"name\":\"a\",\"size\":1\x7d,null]" ++ [0x7D])], [], 4096⟩
        (ascii "n.rkyv") =
        .ok { Rkyv.zero with Files := some [some ⟨ascii "a", [], [], 1, none⟩, none] } ∧
      (({ Rkyv.zero with Files := some [some ⟨ascii "a", [], [], 1, none⟩, none] } : Rkyv).Flush
        sampleEnv sampleDisk).outcome = .panic ∧
      (({ Rkyv.zero with Files := some [some ⟨ascii "a", [], [], 1, none⟩, none] } : Rkyv).Flush
          sampleEnv sampleDisk).disk.read
        (({ Rkyv.zero with Files := some [some ⟨ascii "a", [], [], 1, none⟩, none] } : Rkyv).Flush
          sampleEnv sampleDisk).archive.Filename = some MAGIC := by
  decide

/-- `OpenFile` on a source that holds its header and whose pointer `P` leads to an offset
`12 + P` that an `int64` can hold: the bytes from that offset on go to `json.Unmarshal`. -/
theorem openReader_at_pointer (s : List Byte) (hlen : 12 ≤ s.length)
    (hP : 12 + Uint64 ((s.drop 4).take 8) ≤ maxOffset) :
    openReader s =
      match jsonUnmarshal (s.drop (12 + Uint64 ((s.drop 4).take 8))) with
      | none => .error .unmarshal
      | some r => .ok r := by
  have hm : maxOffset = 2 ^ 63 - 1 := rfl
  have h1 : (s.take 4).length = 4 := by rw [List.length_take]; omega
  have h2 : ((s.drop 4).take 8).length = 8 := by
    rw [List.length_take, List.length_drop]; omega
  have hi : int64 (Uint64 ((s.drop 4).take 8)) = (Uint64 ((s.drop 4).take 8) : Int) := by
    unfold int64; rw [if_pos (by omega)]
  have hpos : (((4 + 8 : Nat) : Int) + (Uint64 ((s.drop 4).take 8) : Int)).toNat =
      12 + Uint64 ((s.drop 4).take 8) := by omega
  have hle : ¬ ((((4 + 8 : Nat) : Int) + (Uint64 ((s.drop 4).take 8) : Int)) < 0 ∨
      (maxOffset : Int) < ((4 + 8 : Nat) : Int) + (Uint64 ((s.drop 4).take 8) : Int)) := by
    omega
  unfold openReader
  simp only [MAGIC_length, h1, h2, hi, hpos, hle, if_false]
  simp

/-- C20. Two files of the same name in two stores have the same length, agree on bytes
`[4, 12)`, which hold a pointer `P` with `12 + P` at most that length, and agree on all bytes
from offset `12 + P` on. Then `OpenFile` returns the same on both, the same archive or the
same error, whatever the two hold in bytes `[12, 12 + P)` (and in bytes `[0, 4)`). The length
of a file is an `int64`. -/
theorem OpenFile_ignores_payload (d1 d2 : Disk) (filename : GoString) (s1 s2 : List Byte)
    (hs1 : d1.read filename = some s1) (hs2 : d2.read filename = some s2)
    (hlen : s1.length = s2.length) (hmax : s1.length ≤ maxOffset)
    (hptr : (s1.drop 4).take 8 = (s2.drop 4).take 8)
    (hP : 12 + Uint64 ((s1.drop 4).take 8) ≤ s1.length)
    (htail : s1.drop (12 + Uint64 ((s1.drop 4).take 8)) =
      s2.drop (12 + Uint64 ((s1.drop 4).take 8))) :
    OpenFile d1 filename = OpenFile d2 filename := by
  unfold OpenFile
  rw [hs1, hs2]
  simp only []
  rw [openReader_at_pointer s1 (by omega) (by omega),
    openReader_at_pointer s2 (by omega) (by rw [← hptr]; omega), ← hptr, htail]

/-- Witness for C20: two files with a payload section of two bytes, differing in it and in
the marker. -/
theorem OpenFile_ignores_payload_witness :
    OpenFile ⟨[(ascii "w.rkyv", MAGIC ++ PutUint64 2 ++ ascii "hi" ++
          [0x7B] ++ ascii "\"files\":[\x7b\"name\":\"a\",\"size\":2\x7d]" ++ [0x7D])], [], 4096⟩
        (ascii "w.rkyv") =
      OpenFile ⟨[(ascii "w.rkyv", ascii "XXXX" ++ PutUint64 2 ++ ascii "yo" ++
          [0x7B] ++ ascii "\"files\":[\x7b\"name\":\"a\",\"size\":2\x7d]" ++ [0x7D])], [], 4096⟩
        (ascii "w.rkyv") :=
  OpenFile_ignores_payload
    ⟨[(ascii "w.rkyv", MAGIC ++ PutUint64 2 ++ ascii "hi" ++
      [0x7B] ++ ascii "\"files\":[\x7b\"name\":\"a\",\"size\":2\x7d]" ++ [0x7D])], [], 4096⟩
    ⟨[(ascii "w.rkyv", ascii "XXXX" ++ PutUint64 2 ++ ascii "yo" ++
      [0x7B] ++ ascii "\"files\":[\x7b\"name\":\"a\",\"size\":2\x7d]" ++ [0x7D])], [], 4096⟩
    (ascii "w.rkyv")
    (MAGIC ++ PutUint64 2 ++ ascii "hi" ++
      [0x7B] ++ ascii "\"files\":[\x7b\"name\":\"a\",\"size\":2\x7d]" ++ [0x7D])
    (ascii "XXXX" ++ PutUint64 2 ++ ascii "yo" ++
      [0x7B] ++ ascii "\"files\":[\x7b\"name\":\"a\",\"size\":2\x7d]" ++ [0x7D])
    (by decide) (by decide) (by decide) (by decide) (by decide) (by decide) (by decide)

theorem addFiles_cons (r : Rkyv) (p : GoString × List Byte)
    (items : List (GoString × List Byte)) :
    addFiles r (p :: items) = addFiles (r.AddFile p.1 p.2) items := rfl

/-- The loop over the arguments when one of them is a directory: it returns an error about
some argument `x`, and the archive value then has an entry for each argument before `x`. -/
theorem createLoop_directory (s : Sys) (args : List GoString) :
    ∀ r : Rkyv, (∃ a ∈ args, s.stat a = some true) →
      ∃ pre x post e, args = pre ++ x :: post ∧
        (e = CreateError.stat x ∨ e = CreateError.directory x ∨ e = CreateError.readFile x) ∧
        createLoop s args r =
          (some e, addFiles r (pre.map fun a => (basename a, (s.readFile a).getD []))) := by
  induction args with
  | nil => intro r h; obtain ⟨a, ha, _⟩ := h; cases ha
  | cons a args ih =>
    intro r h
    cases hst : s.stat a with
    | none =>
      refine ⟨[], a, args, .stat a, rfl, Or.inl rfl, ?_⟩
      rw [createLoop, hst]; rfl
    | some b =>
      cases b with
      | true =>
        refine ⟨[], a, args, .directory a, rfl, Or.inr (Or.inl rfl), ?_⟩
        rw [createLoop, hst]; rfl
      | false =>
        cases hrd : s.readFile a with
        | none =>
          refine ⟨[], a, args, .readFile a, rfl, Or.inr (Or.inr rfl), ?_⟩
          rw [createLoop, hst]
          simp only []
          rw [hrd]; rfl
        | some data =>
          have htail : ∃ c ∈ args, s.stat c = some true := by
            obtain ⟨c, hc, hcs⟩ := h
            rcases List.mem_cons.1 hc with e | e
            · rw [e, hst] at hcs; cases hcs
            · exact ⟨c, e, hcs⟩
          obtain ⟨pre, x, post, e, hargs, he, hloop⟩ :=
            ih (r.AddFile (basename a) data) htail
          refine ⟨a :: pre, x, post, e, by rw [hargs]; rfl, he, ?_⟩
          rw [createLoop, hst]
          simp only []
          rw [hrd]
          simp only []
          rw [hloop, List.map_cons, addFiles_cons, hrd]
          rfl

/-- C16, with what the archive value holds at the rejection. The `create` command is given an
argument list that is empty or names a directory at some position. Then it returns an error
and the file store is as before: no container has been written. For the empty list the error
is "no arguments specified" and no archive value exists yet. Otherwise the error is about
one argument `x` of the list, and the local archive value holds at that moment one entry for
each argument before `x`, made of that file's base name and contents; it holds no entry
exactly when `x` is the first argument. -/
theorem createCmd_rejects (env : Env) (s : Sys) (args : List GoString)
    (h : args = [] ∨ ∃ a ∈ args, s.stat a = some true) :
    (createCmd env s args).disk = s.disk ∧
    ((args = [] ∧ (createCmd env s args).outcome = .error .noArguments ∧
        (createCmd env s args).archive = Rkyv.zero) ∨
      ∃ pre x post, args = pre ++ x :: post ∧
        ((createCmd env s args).outcome = .error (.stat x) ∨
          (createCmd env s args).outcome = .error (.directory x) ∨
          (createCmd env s args).outcome = .error (.readFile x)) ∧
        (createCmd env s args).archive =
          addFiles Rkyv.zero (pre.map fun a => (basename a, (s.readFile a).getD [])) ∧
        (createCmd env s args).archive.Files.elems.length = pre.length) := by
  cases args with
  | nil => exact ⟨rfl, Or.inl ⟨rfl, rfl, rfl⟩⟩
  | cons a args =>
    have hd : ∃ c ∈ a :: args, s.stat c = some true := by
      rcases h with h | h
      · cases h
      · exact h
    obtain ⟨pre, x, post, e, hargs, he, hloop⟩ := createLoop_directory s (a :: args) Rkyv.zero hd
    have hc : createCmd env s (a :: args) = ⟨.error e,
        addFiles Rkyv.zero (pre.map fun a => (basename a, (s.readFile a).getD [])), s.disk⟩ := by
      unfold createCmd
      rw [if_neg (by simp), hloop]
    rw [hc]
    refine ⟨rfl, Or.inr ⟨pre, x, post, hargs, ?_, rfl, ?_⟩⟩
    · rcases he with he | he | he
      · exact Or.inl (by rw [he])
      · exact Or.inr (Or.inl (by rw [he]))
      · exact Or.inr (Or.inr (by rw [he]))
    · show (addFiles Rkyv.zero _).Files.elems.length = pre.length
      rw [addFiles_Files_elems]
      simp [Rkyv.zero, Slice.elems]

/-- Witness for C16: a regular file followed by a directory. -/
theorem createCmd_rejects_witness :
    (createCmd sampleEnv sampleSys [ascii "a", ascii "d"]).disk = sampleSys.disk ∧
    (([ascii "a", ascii "d"] = ([] : List GoString) ∧
        (createCmd sampleEnv sampleSys [ascii "a", ascii "d"]).outcome = .error .noArguments ∧
        (createCmd sampleEnv sampleSys [ascii "a", ascii "d"]).archive = Rkyv.zero) ∨
      ∃ pre x post, [ascii "a", ascii "d"] = pre ++ x :: post ∧
        ((createCmd sampleEnv sampleSys [ascii "a", ascii "d"]).outcome = .error (.stat x) ∨
          (createCmd sampleEnv sampleSys [ascii "a", ascii "d"]).outcome =
            .error (.directory x) ∨
          (createCmd sampleEnv sampleSys [ascii "a", ascii "d"]).outcome =
            .error (.readFile x)) ∧
        (createCmd sampleEnv sampleSys [ascii "a", ascii "d"]).archive =
          addFiles Rkyv.zero
            (pre.map fun a => (basename a, (sampleSys.readFile a).getD [])) ∧
        (createCmd sampleEnv sampleSys [ascii "a", ascii "d"]).archive.Files.elems.length =
          pre.length) :=
  createCmd_rejects sampleEnv sampleSys [ascii "a", ascii "d"]
    (Or.inr ⟨ascii "d", by decide, by decide⟩)

/-- C16 as stated fails for a directory that follows a regular file. With a regular file `a`
and a directory `d`, the arguments `a d` are rejected with "directories are not supported"
and no container is written, but by then `AddFile` has been called for `a`: the archive
value holds one entry, the one for `a`. -/
theorem createCmd_adds_before_rejecting :
    (createCmd sampleEnv sampleSys [ascii "a", ascii "d"]).outcome =
        .error (.directory (ascii "d")) ∧
      (createCmd sampleEnv sampleSys [ascii "a", ascii "d"]).disk = sampleSys.disk ∧
      (createCmd sampleEnv sampleSys [ascii "a", ascii "d"]).archive.Files.elems.length = 1 ∧
      (createCmd sampleEnv sampleSys [ascii "a", ascii "d"]).archive.Files.elems.map
        (Option.map rkyvFile.Name) = [some (ascii "a")] := by
  decide

/-- The metadata record `Flush` serializes for an archive built by `AddFile` calls decodes to
that archive without its payloads; each of the two times is read back with its fields and its
offset, its location being UTC when the offset is zero. -/
theorem built_meta_decodes_exact (env : Env) (tags terms : Slice GoString)
    (items : List (GoString × List Byte)) (meta : List Byte)
    (hn : ∀ p ∈ items, validUTF8 p.1 = true)
    (ht : ∀ t ∈ tags.elems, validUTF8 t = true)
    (hs : ∀ t ∈ terms.elems, validUTF8 t = true)
    (hsz : (items.flatMap (·.2)).length < 2 ^ 63)
    (hmeta : jsonMarshal ((addFiles (newArchive tags terms) items).prepMeta env) = some meta) :
    jsonUnmarshal meta =
      some { ((addFiles (newArchive tags terms) items).prepMeta env).stripped with
        DateCreated := { timeNow env.nowCreated with
          loc := if (timeNow env.nowCreated).offsetMin = 0 then Loc.utc
            else (timeNow env.nowCreated).loc },
        DateUpdated := { timeNow env.nowUpdated with
          loc := if (timeNow env.nowUpdated).offsetMin = 0 then Loc.utc
            else (timeNow env.nowUpdated).loc } } := by
  obtain ⟨j, hj, _, hparse⟩ := parseJSON_jsonMarshal _ _ hmeta
  obtain ⟨hV, hU, hC, hD, hT, hS⟩ := built_fields env tags terms items
  have hF := built_Files_elems tags terms items env
  cases hc : ((addFiles (newArchive tags terms) items).prepMeta env).DateCreated.formatRFC3339 with
  | none => simp [Rkyv.toJSON, hc] at hj
  | some c =>
    cases hu : ((addFiles (newArchive tags terms) items).prepMeta env).DateUpdated.formatRFC3339
      with
    | none => simp [Rkyv.toJSON, hc, hu] at hj
    | some u =>
      have hpc := parseTime_format (timeNow env.nowCreated) c env.nowCreated.valid
        (by rw [← hC]; exact hc)
      have hpu := parseTime_format (timeNow env.nowUpdated) u env.nowUpdated.valid
        (by rw [← hD]; exact hu)
      unfold jsonUnmarshal
      rw [hparse, Option.some_bind]
      refine decRkyv_toJSON _ j _ _ c u hc hu hpc hpu ?_ ?_ ?_ ?_ ?_ hj
      · rw [hV]; decide
      · rw [hU]; exact validUTF8_ascii _ (uuidString_ascii _)
      · rw [hF]
        intro o ho f hof
        obtain ⟨p, hp, hpo⟩ := List.mem_map.1 ho
        rw [hof] at hpo
        have hf : f = entryOf p := (Option.some.inj hpo).symm
        have hl := length_le_flatMap items p hp
        rw [hf]
        refine ⟨hn p hp, validUTF8_DetectContentType _, ?_, ?_⟩
        · simp only [entryOf]; omega
        · simp only [entryOf]; omega
      · rw [hT]; exact ht
      · rw [hS]; exact hs

theorem reread_offset (t : Time) :
    ({ t with loc := if t.offsetMin = 0 then Loc.utc else t.loc } : Time).offsetMin =
      t.offsetMin := by
  obtain ⟨y, mo, d, h, mi, s, n, l⟩ := t
  cases l with
  | utc => simp [Time.offsetMin]
  | zone m =>
    by_cases hm : m = 0
    · simp [Time.offsetMin, hm]
    · simp [Time.offsetMin, hm]

theorem reread_Equal (t : Time) :
    ({ t with loc := if t.offsetMin = 0 then Loc.utc else t.loc } : Time).Equal t := by
  have h := reread_offset t
  unfold Time.Equal Time.unixNano
  rw [h]

/-- C1, for names, tags and search terms that are well-formed UTF-8. An archive is built from
the empty archive by setting tags and search terms and calling `AddFile` for each of `items`
(any number, any payloads), and `Flush` succeeds on it. Then `OpenFile` on the file `Flush`
wrote succeeds, and the archive it returns has the `Version` and `UUID` of the flushed
archive; its `DateCreated` has the year, month, day, hour, minute, second, nanosecond and
offset from UTC of the flushed archive's, so it is the same instant, and it is the very same
value unless that offset is zero, in which case its location is UTC; it has as many entries
in the same order with the same `Name`, `Type`, `Size` and `Hash`, and the same `Tags` and
`SearchTerms`. -/
theorem Flush_OpenFile_round_trip (env : Env) (d : Disk) (tags terms : Slice GoString)
    (items : List (GoString × List Byte))
    (hn : ∀ p ∈ items, validUTF8 p.1 = true)
    (ht : ∀ t ∈ tags.elems, validUTF8 t = true)
    (hs : ∀ t ∈ terms.elems, validUTF8 t = true)
    (hok : ((addFiles (newArchive tags terms) items).Flush env d).outcome = .ok) :
    ∃ r', OpenFile ((addFiles (newArchive tags terms) items).Flush env d).disk
          ((addFiles (newArchive tags terms) items).Flush env d).archive.Filename = .ok r' ∧
      r'.Version = ((addFiles (newArchive tags terms) items).Flush env d).archive.Version ∧
      r'.UUID = ((addFiles (newArchive tags terms) items).Flush env d).archive.UUID ∧
      r'.DateCreated =
        { ((addFiles (newArchive tags terms) items).Flush env d).archive.DateCreated with
          loc :=
            if ((addFiles (newArchive tags terms) items).Flush env d).archive.DateCreated.offsetMin
                = 0 then Loc.utc
            else
              ((addFiles (newArchive tags terms) items).Flush env d).archive.DateCreated.loc } ∧
      r'.DateCreated.offsetMin =
        ((addFiles (newArchive tags terms) items).Flush env d).archive.DateCreated.offsetMin ∧
      (((addFiles (newArchive tags terms) items).Flush env d).archive.DateCreated.offsetMin
          ≠ 0 →
        r'.DateCreated =
          ((addFiles (newArchive tags terms) items).Flush env d).archive.DateCreated) ∧
      r'.DateCreated.Equal
        ((addFiles (newArchive tags terms) items).Flush env d).archive.DateCreated ∧
      r'.Files.elems.map (Option.map fun f => (f.Name, f.Type_, f.Size, f.Hash)) =
        ((addFiles (newArchive tags terms) items).Flush env d).archive.Files.elems.map
          (Option.map fun f => (f.Name, f.Type_, f.Size, f.Hash)) ∧
      r'.Tags = ((addFiles (newArchive tags terms) items).Flush env d).archive.Tags ∧
      r'.SearchTerms =
        ((addFiles (newArchive tags terms) items).Flush env d).archive.SearchTerms := by
  obtain ⟨meta, hmeta, hdisk, hlen⟩ := built_flush_shape env d tags terms items hok
  have hm : maxOffset = 2 ^ 63 - 1 := rfl
  have hdec := built_meta_decodes_exact env tags terms items meta hn ht hs (by omega) hmeta
  have hC := (built_fields env tags terms items).2.2.1
  rw [Flush_archive, hdisk, hC]
  refine ⟨{ ((addFiles (newArchive tags terms) items).prepMeta env).stripped with
    DateCreated := { timeNow env.nowCreated with
      loc := if (timeNow env.nowCreated).offsetMin = 0 then Loc.utc
        else (timeNow env.nowCreated).loc },
    DateUpdated := { timeNow env.nowUpdated with
      loc := if (timeNow env.nowUpdated).offsetMin = 0 then Loc.utc
        else (timeNow env.nowUpdated).loc } }, ?_, rfl, rfl, rfl, reread_offset _, ?_,
    reread_Equal _, ?_, rfl, rfl⟩
  · unfold OpenFile
    rw [Disk.read_store]
    simp only []
    rw [openReader_container _ _ (by omega), hdec]
  · intro h
    show ({ timeNow env.nowCreated with
      loc := if (timeNow env.nowCreated).offsetMin = 0 then Loc.utc
        else (timeNow env.nowCreated).loc } : Time) = timeNow env.nowCreated
    rw [if_neg h]
  · simp only [Rkyv.stripped]
    rw [elems_map_map, stripped_fields]

/-- Witness for C1: one file and one tag, a clock three hours ahead of UTC. -/
theorem Flush_OpenFile_round_trip_witness :
    (∀ p ∈ [(ascii "a", ascii "hi")], validUTF8 p.1 = true) ∧
    (∀ t ∈ Slice.elems (some [ascii "t"]), validUTF8 t = true) ∧
    (∀ t ∈ Slice.elems (none : Slice GoString), validUTF8 t = true) ∧
    ((addFiles (newArchive (some [ascii "t"]) none)
            [(ascii "a", ascii "hi")]).Flush sampleEnv sampleDisk).outcome = .ok ∧
    ∃ r', OpenFile ((addFiles (newArchive (some [ascii "t"]) none)
            [(ascii "a", ascii "hi")]).Flush sampleEnv sampleDisk).disk
          ((addFiles (newArchive (some [ascii "t"]) none)
            [(ascii "a", ascii "hi")]).Flush sampleEnv sampleDisk).archive.Filename = .ok r' ∧
      r'.Version = ((addFiles (newArchive (some [ascii "t"]) none)
            [(ascii "a", ascii "hi")]).Flush sampleEnv sampleDisk).archive.Version ∧
      r'.UUID = ((addFiles (newArchive (some [ascii "t"]) none)
            [(ascii "a", ascii "hi")]).Flush sampleEnv sampleDisk).archive.UUID ∧
      r'.DateCreated =
        { ((addFiles (newArchive (some [ascii "t"]) none)
            [(ascii "a", ascii "hi")]).Flush sampleEnv sampleDisk).archive.DateCreated with
          loc :=
            if ((addFiles (newArchive (some [ascii "t"]) none)
            [(ascii "a", ascii "hi")]).Flush sampleEnv sampleDisk).archive.DateCreated.offsetMin
              = 0 then Loc.utc
            else ((addFiles (newArchive (some [ascii "t"]) none)
            [(ascii "a", ascii "hi")]).Flush sampleEnv sampleDisk).archive.DateCreated.loc } ∧
      r'.DateCreated.offsetMin =
        ((addFiles (newArchive (some [ascii "t"]) none)
            [(ascii "a", ascii "hi")]).Flush sampleEnv sampleDisk).archive.DateCreated.offsetMin ∧
      (((addFiles (newArchive (some [ascii "t"]) none)
            [(ascii "a", ascii "hi")]).Flush sampleEnv sampleDisk).archive.DateCreated.offsetMin
          ≠ 0 →
        r'.DateCreated =
          ((addFiles (newArchive (some [ascii "t"]) none)
            [(ascii "a", ascii "hi")]).Flush sampleEnv sampleDisk).archive.DateCreated) ∧
      r'.DateCreated.Equal
        ((addFiles (newArchive (some [ascii "t"]) none)
            [(ascii "a", ascii "hi")]).Flush sampleEnv sampleDisk).archive.DateCreated ∧
      r'.Files.elems.map (Option.map fun f => (f.Name, f.Type_, f.Size, f.Hash)) =
        ((addFiles (newArchive (some [ascii "t"]) none)
            [(ascii "a", ascii "hi")]).Flush sampleEnv sampleDisk).archive.Files.elems.map
          (Option.map fun f => (f.Name, f.Type_, f.Size, f.Hash)) ∧
      r'.Tags = ((addFiles (newArchive (some [ascii "t"]) none)
            [(ascii "a", ascii "hi")]).Flush sampleEnv sampleDisk).archive.Tags ∧
      r'.SearchTerms =
        ((addFiles (newArchive (some [ascii "t"]) none)
            [(ascii "a", ascii "hi")]).Flush sampleEnv sampleDisk).archive.SearchTerms :=
  ⟨by decide, by decide, by decide, by decide!,
    Flush_OpenFile_round_trip sampleEnv sampleDisk (some [ascii "t"]) none
      [(ascii "a", ascii "hi")] (by decide) (by decide) (by decide) (by decide!)⟩

/-- C1 as stated fails in two respects. The empty archive is given one file with the one-byte
name `FF`, which is not well-formed UTF-8, and an empty payload; the clock is in a zone whose
offset from UTC is zero; `Flush` succeeds and `OpenFile` on the file written succeeds. The
entry it returns has as name the three bytes `EF BF BD` (U+FFFD), not `FF`: `json.Marshal`
writes an ill-formed byte of a string as U+FFFD. And the `DateCreated` it returns has the
fields of the flushed one but is not the same value: the flushed one is in the local zone,
the one read back, written as `...Z`, is in UTC. -/
theorem Flush_OpenFile_changes_name_and_location :
    ((addFiles (newArchive none none) [([0xFF], [])]).Flush sampleEnvZero
            sampleDisk).outcome
        = .ok ∧
      ((addFiles (newArchive none none) [([0xFF], [])]).Flush sampleEnvZero
            sampleDisk).archive.Files.elems.map (Option.map rkyvFile.Name) = [some [0xFF]] ∧
      (OpenFile ((addFiles (newArchive none none) [([0xFF], [])]).Flush sampleEnvZero
            sampleDisk).disk
          ((addFiles (newArchive none none) [([0xFF], [])]).Flush sampleEnvZero
            sampleDisk).archive.Filename).map
        (fun r => r.Files.elems.map (Option.map rkyvFile.Name)) =
        .ok [some [0xEF, 0xBF, 0xBD]] ∧
      ((addFiles (newArchive none none) [([0xFF], [])]).Flush sampleEnvZero
            sampleDisk).archive.DateCreated =
        ⟨2017, 3, 14, 6, 26, 53, 589793000, Loc.zone 0⟩ ∧
      (OpenFile ((addFiles (newArchive none none) [([0xFF], [])]).Flush sampleEnvZero
            sampleDisk).disk
          ((addFiles (newArchive none none) [([0xFF], [])]).Flush sampleEnvZero
            sampleDisk).archive.Filename).map
        (fun r => r.DateCreated) = .ok ⟨2017, 3, 14, 6, 26, 53, 589793000, Loc.utc⟩ := by
  refine ⟨by decide!, by decide!, by decide!, by decide!, ?_⟩
  decide!

end rkyv
